import Mathlib

/-!
SpamDetector: the bucketed hash table of `HashMap.hpp`

A shallow embedding of `HashMap<KeyT, ValueT>` and theorems about it.

Conventions of the embedding.

* The C++ `int` fields `_size` and `_capacity` are integers (`Int`).  The code
  never checks for overflow; the embedding takes the integers unbounded, which
  agrees with the code as long as the capacity stays below `2 ^ 30`.
* `std::hash<KeyT>` is a parameter `hash : K → Nat`.
* The heap array `_listArr` is a list of chains; a chain (`std::list`) is a
  list of pairs.  Reading or writing a cell outside the array, or
  dereferencing a chain iterator that is at the end of its chain, is
  undefined behaviour in C++ and is the error `Exn.out_of_bounds` here.
* A call returns `Except Exn _`: the exceptions of the source and the
  undefined behaviours are errors.
* The load factor tests `(double) a / b > 0.75` and `(double) a / b < 0.25`
  are taken exactly.  For 32-bit integers the rounding of the division cannot
  move a quotient across `0.75` or `0.25`, which are binary fractions.
* A `std::string` is the list of the codes of its chars.  The `int` variables
  of `findStringsInEmail` in `SpamDetector.cpp` are 32-bit values: lengths are
  converted by `toInt32`, and the count, the product `count * it->second` and
  the running total are reduced by `toInt32` after every operation, the
  two's-complement result of the compiled code where the exact value is out
  of range.
-/

set_option linter.unusedSectionVars false

namespace SpamDetector

/-- Ways in which a call can fail: the two exception classes thrown by the
source, a failed allocation, undefined behaviour by an access outside an
array or chain, and a loop that does not end within its bound. -/
inductive Exn where
  | invalid_argument
  | out_of_range
  | bad_alloc
  | out_of_bounds
  | diverges
  deriving DecidableEq, Repr

/-- Constant `DEFAULT_SIZE`. -/
def DEFAULT_SIZE : Int := 0

/-- Constant `DEFAULT_CAPACITY`. -/
def DEFAULT_CAPACITY : Int := 16

/-- Constant `MIN_CAPACITY_SIZE`. -/
def MIN_CAPACITY_SIZE : Int := 1

/-- Test `(double) num / den > DEFAULT_HIGH_LOAD_FACTOR` with the threshold
`0.75`.  A division by zero gives an infinity or a NaN: only `+inf` is
above the threshold. -/
def aboveHighLoadFactor (num den : Int) : Bool :=
  if 0 < den then decide (3 * den < 4 * num)
  else if den < 0 then decide (4 * num < 3 * den)
  else decide (0 < num)

/-- Test `(double) num / den < DEFAULT_LOWER_LOAD_FACTOR` with the threshold
`0.25`.  A division by zero gives an infinity or a NaN: only `-inf` is
below the threshold. -/
def belowLowerLoadFactor (num den : Int) : Bool :=
  if 0 < den then decide (4 * num < den)
  else if den < 0 then decide (den < 4 * num)
  else decide (num < 0)

/-- The fields of `class HashMap`. -/
structure HashMap (K V : Type) where
  _size : Int
  _capacity : Int
  _listArr : List (List (K × V))
  deriving DecidableEq, Repr

/-- Read of the cell `arr[i]` of a heap array. -/
def cell {α : Type} (arr : List α) (i : Int) : Except Exn α :=
  if 0 ≤ i then
    match arr[i.toNat]? with
    | some b => .ok b
    | none => .error .out_of_bounds
  else .error .out_of_bounds

/-- Write of the cell `arr[i]` of a heap array. -/
def setCell {α : Type} (arr : List α) (i : Int) (b : α) : Except Exn (List α) :=
  if 0 ≤ i ∧ i.toNat < arr.length then .ok (arr.set i.toNat b)
  else .error .out_of_bounds

/-- Statement `arr[i].push_back(p)`. -/
def pushBack {α : Type} (arr : List (List α)) (i : Int) (p : α) :
    Except Exn (List (List α)) :=
  match cell arr i with
  | .ok b => setCell arr i (b ++ [p])
  | .error e => .error e

/-- Statement `new listPair[n]`: an array of `n` empty chains. -/
def newListArr (K V : Type) (n : Int) : Except Exn (List (List (K × V))) :=
  if n < 0 then .error .bad_alloc else .ok (List.replicate n.toNat [])

namespace HashMap

variable {K V : Type} [DecidableEq K]

/-- Method `size()`. -/
def size (m : HashMap K V) : Int := m._size

/-- Method `capacity()`. -/
def capacity (m : HashMap K V) : Int := m._capacity

/-- Method `empty()`. -/
def empty (m : HashMap K V) : Bool := decide (m._size = DEFAULT_SIZE)

/-- Expression `std::hash<KeyT>{}(key) & (n - 1)`: the bitwise and of the
hash, an unsigned value, with the two's complement integer `n - 1`. -/
def maskHash (hash : K → Nat) (n : Int) (key : K) : Int :=
  Int.land (hash key) (n - 1)

/-- Method `_hashCode`. -/
def _hashCode (hash : K → Nat) (m : HashMap K V) (key : K) : Int :=
  maskHash hash m.capacity key

/-- The default constructor `HashMap()`. -/
def ctor : HashMap K V :=
  { _size := DEFAULT_SIZE
    _capacity := DEFAULT_CAPACITY
    _listArr := List.replicate DEFAULT_CAPACITY.toNat [] }

/-- Method `containsKey`. -/
def containsKey (hash : K → Nat) (m : HashMap K V) (key : K) : Except Exn Bool :=
  match cell m._listArr (_hashCode hash m key) with
  | .error e => .error e
  | .ok b =>
    if b.length = 0 then .ok false
    else .ok (b.any (fun it => decide (it.1 = key)))

/-- Method `at` (both overloads), read of the value the returned reference
points to. -/
def at_ (hash : K → Nat) (m : HashMap K V) (key : K) : Except Exn V :=
  match cell m._listArr (_hashCode hash m key) with
  | .error e => .error e
  | .ok b =>
    match b.find? (fun it => decide (it.1 = key)) with
    | some it => .ok it.2
    | none => .error .invalid_argument

/-- The inner loop of `_changeSize`: every pair of one chain is pushed to
the back of its chain in `temp`. -/
def rehashChain (hash : K → Nat) (newSize : Int) :
    List (K × V) → List (List (K × V)) → Except Exn (List (List (K × V)))
  | [], temp => .ok temp
  | p :: ps, temp =>
    match pushBack temp (maskHash hash newSize p.1) p with
    | .ok temp1 => rehashChain hash newSize ps temp1
    | .error e => .error e

/-- The outer loop of `_changeSize` over the cells `j` of the old array. -/
def rehashCells (hash : K → Nat) (newSize : Int) (old : List (List (K × V))) :
    List Nat → List (List (K × V)) → Except Exn (List (List (K × V)))
  | [], temp => .ok temp
  | j :: js, temp =>
    match cell old (j : Int) with
    | .ok b =>
      match rehashChain hash newSize b temp with
      | .ok temp1 => rehashCells hash newSize old js temp1
      | .error e => .error e
    | .error e => .error e

/-- Method `_changeSize`. -/
def _changeSize (hash : K → Nat) (m : HashMap K V) (newSize : Int) :
    Except Exn (HashMap K V) :=
  match newListArr K V newSize with
  | .error e => .error e
  | .ok temp0 =>
    match rehashCells hash newSize m._listArr (List.range m.capacity.toNat) temp0 with
    | .error e => .error e
    | .ok temp => .ok { m with _listArr := temp, _capacity := newSize }

/-- Method `insert`. -/
def insert (hash : K → Nat) (m : HashMap K V) (key : K) (value : V) :
    Except Exn (Bool × HashMap K V) :=
  match containsKey hash m key with
  | .error e => .error e
  | .ok true => .ok (false, m)
  | .ok false =>
    match (if aboveHighLoadFactor (m.size + 1) m.capacity
            then _changeSize hash m (m._capacity * 2) else .ok m) with
    | .error e => .error e
    | .ok m1 =>
      match pushBack m1._listArr (_hashCode hash m1 key) (key, value) with
      | .error e => .error e
      | .ok arr => .ok (true, { m1 with _listArr := arr, _size := m1._size + 1 })

/-- Method `_checkIfDecrease`. -/
def _checkIfDecrease (hash : K → Nat) (m : HashMap K V) : Except Exn (HashMap K V) :=
  if m._capacity ≥ MIN_CAPACITY_SIZE then
    if belowLowerLoadFactor m._size m._capacity then
      _changeSize hash m (m._capacity / 2)
    else .ok m
  else .ok m

/-- Method `erase`. -/
def erase (hash : K → Nat) (m : HashMap K V) (key : K) :
    Except Exn (Bool × HashMap K V) :=
  if m.empty then .ok (false, m)
  else
    match containsKey hash m key with
    | .error e => .error e
    | .ok false => .ok (false, m)
    | .ok true =>
      match cell m._listArr (_hashCode hash m key) with
      | .error e => .error e
      | .ok b =>
        match b.find? (fun it => decide (it.1 = key)) with
        | none => .ok (false, m)
        | some _ =>
          match setCell m._listArr (_hashCode hash m key)
              (b.eraseP (fun it => decide (it.1 = key))) with
          | .error e => .error e
          | .ok arr =>
            match _checkIfDecrease hash { m with _listArr := arr, _size := m._size - 1 } with
            | .error e => .error e
            | .ok m2 => .ok (true, m2)

/-- The loop of `clear`: statement `_listArr[i].clear()` for every index. -/
def clearCells : List Nat → List (List (K × V)) → Except Exn (List (List (K × V)))
  | [], arr => .ok arr
  | i :: is, arr =>
    match setCell arr (i : Int) [] with
    | .ok arr1 => clearCells is arr1
    | .error e => .error e

/-- Method `clear`. -/
def clear (m : HashMap K V) : Except Exn (HashMap K V) :=
  if !m.empty then
    match clearCells (List.range m.capacity.toNat) m._listArr with
    | .error e => .error e
    | .ok arr => .ok { m with _listArr := arr, _size := 0 }
  else .ok { m with _size := 0 }

/-- The fields of `class const_iterator`, without the pointer `_obj` to the
map, which is an argument of the methods here.  A chain iterator is its
position in the chain `_listArr[_index]`: `begin()` is position `0` and
`end()` is the length of the chain. -/
structure const_iterator where
  _iterator : Nat
  _endIterator : Nat
  _index : Int
  deriving DecidableEq, Repr

/-- Method `const_iterator::operator==`.  The chain iterators are compared
only where the indices agree, so they are positions in the same chain. -/
def const_iterator.eq (self other : const_iterator) : Bool :=
  let a := decide (other._index = self._index)
  let b := decide (other._iterator = self._iterator)
  a && b

/-- Method `const_iterator::operator*` (and `operator->`). -/
def const_iterator.deref (m : HashMap K V) (self : const_iterator) : Except Exn (K × V) :=
  match cell m._listArr self._index with
  | .error e => .error e
  | .ok b =>
    match b[self._iterator]? with
    | some p => .ok p
    | none => .error .out_of_bounds

/-- Method `end()` (and `cend()`). -/
def end_ (m : HashMap K V) : Except Exn const_iterator :=
  let lastIndex := m.capacity - 1
  match cell m._listArr lastIndex with
  | .error e => .error e
  | .ok b => .ok ⟨b.length, b.length, lastIndex⟩

/-- The search loop of `begin()` over the indices `i`, with its fall-through
return. -/
def beginScan (m : HashMap K V) : List Nat → Except Exn const_iterator
  | [] =>
    match cell m._listArr 0 with
    | .error e => .error e
    | .ok b => .ok ⟨0, b.length, 0⟩
  | i :: is =>
    match cell m._listArr (i : Int) with
    | .error e => .error e
    | .ok b => if b.isEmpty then beginScan m is else .ok ⟨0, b.length, i⟩

/-- Method `begin()` (and `cbegin()`). -/
def begin (m : HashMap K V) : Except Exn const_iterator :=
  if m.empty then m.end_ else beginScan m (List.range m._capacity.toNat)

/-- The while loop of `_checkIfEnd`, which moves `_index` over empty chains.
The first argument bounds the number of rounds; it is given as the distance
from `_index` to the capacity, and the loop has ended by itself when the
bound is used up. -/
def skipEmpty (m : HashMap K V) : Nat → Int → Except Exn Int
  | 0, i => .ok i
  | n + 1, i =>
    if i < m.capacity then
      match cell m._listArr i with
      | .error e => .error e
      | .ok b => if b.isEmpty then skipEmpty m n (i + 1) else .ok i
    else .ok i

/-- Method `const_iterator::_checkIfEnd`. -/
def const_iterator._checkIfEnd (m : HashMap K V) (self : const_iterator) :
    Except Exn const_iterator :=
  if self._iterator = self._endIterator then
    match skipEmpty m (m.capacity - (self._index + 1)).toNat (self._index + 1) with
    | .error e => .error e
    | .ok i =>
      if i ≥ m.capacity then
        match cell m._listArr (m.capacity - 1) with
        | .error e => .error e
        | .ok b => .ok ⟨b.length, b.length, m.capacity - 1⟩
      else
        match cell m._listArr i with
        | .error e => .error e
        | .ok b => .ok ⟨0, b.length, i⟩
  else .ok self

/-- Method `const_iterator::operator++` (the iterator after the step; the
two overloads differ only in what they return). -/
def const_iterator.incr (m : HashMap K V) (self : const_iterator) :
    Except Exn const_iterator :=
  const_iterator._checkIfEnd m { self with _iterator := self._iterator + 1 }

/-- The loop `for (it = begin(); it != end(); it++)` of `operator[]`, which
returns the value of the first pair with the key.  The first argument bounds
the number of rounds; a loop that uses it up is reported as `Exn.diverges`. -/
def subscriptLoop (m : HashMap K V) (key : K) :
    Nat → const_iterator → Except Exn (Option V)
  | 0, _ => .error .diverges
  | n + 1, it =>
    match m.end_ with
    | .error e => .error e
    | .ok e =>
      if it.eq e then .ok none
      else
        match it.deref m with
        | .error e => .error e
        | .ok p =>
          if p.1 = key then .ok (some p.2)
          else
            match it.incr m with
            | .error e => .error e
            | .ok it1 => subscriptLoop m key n it1

/-- Method `operator[]`, the overload that is not const: the value behind
the returned reference, and the map after the call.  The loop is given one
round more than there are pairs in the array. -/
def subscript [Inhabited V] (hash : K → Nat) (m : HashMap K V) (key : K) :
    Except Exn (V × HashMap K V) :=
  let fallThrough : Except Exn (V × HashMap K V) :=
    match insert hash m key default with
    | .error e => .error e
    | .ok (_, m1) =>
      match at_ hash m1 key with
      | .error e => .error e
      | .ok v => .ok (v, m1)
  match containsKey hash m key with
  | .error e => .error e
  | .ok false => fallThrough
  | .ok true =>
    match m.begin with
    | .error e => .error e
    | .ok it =>
      match subscriptLoop m key (m._listArr.flatten.length + 1) it with
      | .error e => .error e
      | .ok (some v) => .ok (v, m)
      | .ok none => fallThrough

/-- Assignment through the reference that `at` returns, inside one chain:
the value of the first pair with the key is replaced. -/
def assignChain (key : K) (value : V) : List (K × V) → Option (List (K × V))
  | [] => none
  | it :: rest =>
    if it.1 = key then some ((it.1, value) :: rest)
    else (assignChain key value rest).map (fun r => it :: r)

/-- Statement `at(key) = value`. -/
def at_assign (hash : K → Nat) (m : HashMap K V) (key : K) (value : V) :
    Except Exn (HashMap K V) :=
  match cell m._listArr (_hashCode hash m key) with
  | .error e => .error e
  | .ok b =>
    match assignChain key value b with
    | none => .error .invalid_argument
    | some b1 =>
      match setCell m._listArr (_hashCode hash m key) b1 with
      | .error e => .error e
      | .ok arr => .ok { m with _listArr := arr }

/-- The loop of the constructor from two vectors, over the pairs
`(keys[i], values[i])`. -/
def loadPairs (hash : K → Nat) : List (K × V) → HashMap K V → Except Exn (HashMap K V)
  | [], m => .ok m
  | (k, v) :: rest, m =>
    match containsKey hash m k with
    | .error e => .error e
    | .ok true =>
      match at_assign hash m k v with
      | .error e => .error e
      | .ok m1 => loadPairs hash rest m1
    | .ok false =>
      match insert hash m k v with
      | .error e => .error e
      | .ok (_, m1) => loadPairs hash rest m1

/-- The constructor `HashMap(keys, values)`. -/
def ctorVectors (hash : K → Nat) (keys : List K) (values : List V) :
    Except Exn (HashMap K V) :=
  if keys.length ≠ values.length then .error .invalid_argument
  else loadPairs hash (keys.zip values) ctor

/-- One call of a method that can change the map. -/
inductive Call (K V : Type) where
  | insert (key : K) (value : V)
  | erase (key : K)
  | clear
  | subscript (key : K)

/-- The map after one call. -/
def call [Inhabited V] (hash : K → Nat) (m : HashMap K V) : Call K V → Except Exn (HashMap K V)
  | .insert key value =>
    match insert hash m key value with
    | .error e => .error e
    | .ok (_, m1) => .ok m1
  | .erase key =>
    match erase hash m key with
    | .error e => .error e
    | .ok (_, m1) => .ok m1
  | .clear => clear m
  | .subscript key =>
    match subscript hash m key with
    | .error e => .error e
    | .ok (_, m1) => .ok m1

/-- The map after a sequence of calls, from left to right. -/
def calls [Inhabited V] (hash : K → Nat) : List (Call K V) → HashMap K V → Except Exn (HashMap K V)
  | [], m => .ok m
  | c :: cs, m =>
    match call hash m c with
    | .error e => .error e
    | .ok m1 => calls hash cs m1

/-- The two constructors that build a map from nothing. -/
inductive Start (K V : Type) where
  | default
  | vectors (keys : List K) (values : List V)

/-- The map a constructor builds. -/
def Start.build (hash : K → Nat) : Start K V → Except Exn (HashMap K V)
  | .default => .ok ctor
  | .vectors keys values => ctorVectors hash keys values

/-- The arguments of the constructor are accepted: the two vectors have the
same length. -/
def Start.accepted : Start K V → Prop
  | .default => True
  | .vectors keys values => keys.length = values.length

/-- One call of `insert` or of `erase`. -/
inductive Update (K V : Type) where
  | insert (key : K) (value : V)
  | erase (key : K)

/-- The map after one call of `insert` or `erase`. -/
def update (hash : K → Nat) (m : HashMap K V) : Update K V → Except Exn (HashMap K V)
  | .insert key value =>
    match insert hash m key value with
    | .error e => .error e
    | .ok (_, m1) => .ok m1
  | .erase key =>
    match erase hash m key with
    | .error e => .error e
    | .ok (_, m1) => .ok m1

/-- The map after a sequence of calls of `insert` and `erase`, from left to
right. -/
def updates (hash : K → Nat) : List (Update K V) → HashMap K V → Except Exn (HashMap K V)
  | [], m => .ok m
  | u :: us, m =>
    match update hash m u with
    | .error e => .error e
    | .ok m1 => updates hash us m1

/-- The load factor bound in both directions: the table is a single cell, or
`0.25 ≤ size / capacity ≤ 0.75` as exact fractions. -/
def LoadFactorBound (m : HashMap K V) : Prop :=
  m.capacity = 1 ∨
    ((1 : ℚ) / 4 ≤ (m.size : ℚ) / (m.capacity : ℚ) ∧ (m.size : ℚ) / (m.capacity : ℚ) ≤ 3 / 4)

/-- The upper half of the load factor bound: `size / capacity ≤ 0.75` as
exact fractions. -/
def LoadFactorAtMostHigh (m : HashMap K V) : Prop :=
  (m.size : ℚ) / (m.capacity : ℚ) ≤ 3 / 4

/-- All pairs stored in the array, cell by cell and in chain order. -/
def entries (m : HashMap K V) : List (K × V) := m._listArr.flatten

/-- The value of the first stored pair with the key, if there is one. -/
def lookup (m : HashMap K V) (key : K) : Option V :=
  (m.entries.find? (fun it => decide (it.1 = key))).map Prod.snd

/-- Capacity is a power of two (hence at least one). -/
def CapacityPow2 (m : HashMap K V) : Prop := ∃ n : Nat, m._capacity = 2 ^ n

/-- The array has `_capacity` cells, as every `new listPair[n]` of the source
goes with `_capacity = n`. -/
def CellsEqCapacity (m : HashMap K V) : Prop := (m._listArr.length : Int) = m._capacity

/-- Field `_size` counts the stored pairs. -/
def SizeEqCount (m : HashMap K V) : Prop := m._size = (m.entries.length : Int)

/-- Every stored pair lies in the cell `hash(key) & (capacity - 1)`. -/
def Placed (hash : K → Nat) (m : HashMap K V) : Prop :=
  ∀ (i : Nat) (b : List (K × V)), m._listArr[i]? = some b →
    ∀ p ∈ b, _hashCode hash m p.1 = (i : Int)

/-- No key is stored twice in the whole array. -/
def UniqueKeys (m : HashMap K V) : Prop := (m.entries.map Prod.fst).Nodup

/-- The structural invariants of the table. -/
structure Structural (hash : K → Nat) (m : HashMap K V) : Prop where
  capacityPow2 : CapacityPow2 m
  cellsEqCapacity : CellsEqCapacity m
  sizeEqCount : SizeEqCount m
  placed : Placed hash m
  uniqueKeys : UniqueKeys m

/-- The part of the traversal that an iterator still has before it: the rest
of its chain and the chains of the later cells. -/
def const_iterator.rest (m : HashMap K V) (self : const_iterator) : List (K × V) :=
  ((m._listArr.getD self._index.toNat []).drop self._iterator)
    ++ (m._listArr.drop (self._index.toNat + 1)).flatten

/-- An iterator that points to a stored pair. -/
def const_iterator.OnPair (m : HashMap K V) (self : const_iterator) : Prop :=
  0 ≤ self._index ∧ self._index.toNat < m._listArr.length ∧
    self._iterator < (m._listArr.getD self._index.toNat []).length ∧
    self._endIterator = (m._listArr.getD self._index.toNat []).length

/-- The invariant of the tables that calls can produce: the structural
invariants, and a load factor of at most `0.75`. -/
def Settled (hash : K → Nat) (m : HashMap K V) : Prop :=
  Structural hash m ∧ 4 * m._size ≤ 3 * m._capacity

/-- A check of the structural invariants that can be run on a given table
(with a capacity below `2 ^ 64`). -/
def structuralCheck (hash : K → Nat) (m : HashMap K V) : Bool :=
  (List.range 64).any (fun n => decide (m._capacity = 2 ^ n)) &&
  decide ((m._listArr.length : Int) = m._capacity) &&
  decide (m._size = (m._listArr.flatten.length : Int)) &&
  (List.range m._listArr.length).all (fun i =>
    (m._listArr.getD i []).all (fun p => decide (_hashCode hash m p.1 = (i : Int)))) &&
  decide ((m._listArr.flatten.map Prod.fst).Nodup)

/-- Method `bucketIndex`. -/
def bucketIndex (hash : K → Nat) (m : HashMap K V) (key : K) : Except Exn Int :=
  match containsKey hash m key with
  | .error e => .error e
  | .ok false => .error .out_of_range
  | .ok true => .ok (_hashCode hash m key)

/-- Method `bucketSize`. -/
def bucketSize (hash : K → Nat) (m : HashMap K V) (key : K) : Except Exn Int :=
  match containsKey hash m key with
  | .error e => .error e
  | .ok false => .error .out_of_range
  | .ok true =>
    match bucketIndex hash m key with
    | .error e => .error e
    | .ok index =>
      match cell m._listArr index with
      | .error e => .error e
      | .ok b => .ok (b.length : Int)

/-- Method `operator[]`, the const overload.  Its loop is the loop of the
other overload and is given one round more than there are pairs in the
array. -/
def subscript_const [Inhabited V] (hash : K → Nat) (m : HashMap K V) (key : K) :
    Except Exn V :=
  match containsKey hash m key with
  | .error e => .error e
  | .ok false => .ok default
  | .ok true =>
    match m.begin with
    | .error e => .error e
    | .ok it =>
      match subscriptLoop m key (m._listArr.flatten.length + 1) it with
      | .error e => .error e
      | .ok (some v) => .ok v
      | .ok none => .ok default

/-- The loop `for (it = begin(); it != end(); it++)` of `operator==`, which
returns false at the first key whose two values differ.  The first argument
bounds the number of rounds; a loop that uses it up is reported as
`Exn.diverges`. -/
def equalsLoop [Inhabited V] [DecidableEq V] (hash : K → Nat) (self other : HashMap K V) :
    Nat → const_iterator → Except Exn Bool
  | 0, _ => .error .diverges
  | n + 1, it =>
    match self.end_ with
    | .error e => .error e
    | .ok e =>
      if it.eq e then .ok true
      else
        match it.deref self with
        | .error e => .error e
        | .ok p =>
          match subscript_const hash self p.1 with
          | .error e => .error e
          | .ok x =>
            match subscript_const hash other p.1 with
            | .error e => .error e
            | .ok y =>
              if x ≠ y then .ok false
              else
                match it.incr self with
                | .error e => .error e
                | .ok it1 => equalsLoop hash self other n it1

/-- Method `operator==`.  The loop is given one round more than there are
pairs in the array. -/
def operatorEq [Inhabited V] [DecidableEq V] (hash : K → Nat) (self other : HashMap K V) :
    Except Exn Bool :=
  if self._size ≠ other.size then .ok false
  else if self.empty && other.empty then .ok true
  else
    match self.begin with
    | .error e => .error e
    | .ok it => equalsLoop hash self other (self._listArr.flatten.length + 1) it

/-- Method `operator!=`. -/
def operatorNe [Inhabited V] [DecidableEq V] (hash : K → Nat) (self other : HashMap K V) :
    Except Exn Bool :=
  match operatorEq hash self other with
  | .error e => .error e
  | .ok b => .ok (!b)

/-- The loop `for (pair p : other)` of `operator=`, which inserts every pair
of the other map into this map.  The first argument bounds the number of
rounds; a loop that uses it up is reported as `Exn.diverges`. -/
def assignLoop (hash : K → Nat) (other : HashMap K V) :
    Nat → const_iterator → HashMap K V → Except Exn (HashMap K V)
  | 0, _, _ => .error .diverges
  | n + 1, it, self =>
    match other.end_ with
    | .error e => .error e
    | .ok e =>
      if it.eq e then .ok self
      else
        match it.deref other with
        | .error e => .error e
        | .ok p =>
          match insert hash self p.1 p.2 with
          | .error e => .error e
          | .ok (_, self1) =>
            match it.incr other with
            | .error e => .error e
            | .ok it1 => assignLoop hash other n it1 self1

/-- Method `operator=`.  The flag `sameObject` is the test `this == &other`
on the addresses of the two maps; when it holds, `other` is this map.  A
failed allocation ends the process, which is the error `Exn.bad_alloc`.  The
loop is given one round more than there are pairs in the other array. -/
def operatorAssign (hash : K → Nat) (self other : HashMap K V) (sameObject : Bool) :
    Except Exn (HashMap K V) :=
  if sameObject then .ok self
  else
    match newListArr K V self._capacity with
    | .error e => .error e
    | .ok arr =>
      match other.begin with
      | .error e => .error e
      | .ok it =>
        assignLoop hash other (other._listArr.flatten.length + 1) it { self with _listArr := arr }

/-- The copy constructor `HashMap(const HashMap&)`: the loop copies the cells
`other._listArr[i]` for the indices `i` below the capacity. -/
def copyCells (other : List (List (K × V))) :
    List Nat → List (List (K × V)) → Except Exn (List (List (K × V)))
  | [], arr => .ok arr
  | i :: is, arr =>
    match cell other (i : Int) with
    | .error e => .error e
    | .ok b =>
      match setCell arr (i : Int) b with
      | .error e => .error e
      | .ok arr1 => copyCells other is arr1

/-- The copy constructor `HashMap(const HashMap&)`. -/
def ctorCopy (other : HashMap K V) : Except Exn (HashMap K V) :=
  match newListArr K V other.capacity with
  | .error e => .error e
  | .ok arr =>
    match copyCells other._listArr (List.range other.capacity.toNat) arr with
    | .error e => .error e
    | .ok arr1 => .ok { _size := other.size, _capacity := other.capacity, _listArr := arr1 }

/-- The calls `insert(p.first, p.second)` for the pairs of a list, in order. -/
def insertCalls (ps : List (K × V)) : List (Update K V) :=
  ps.map (fun p => Update.insert p.1 p.2)

/-- The value paired with the last occurrence of a key in a list of pairs. -/
def lastValue (key : K) : List (K × V) → Option V
  | [] => none
  | p :: rest =>
    match lastValue key rest with
    | some w => some w
    | none => if p.1 = key then some p.2 else none

/-- Size and capacity after an insert of a key that was not stored, from the
size and the capacity before: the size grows by one and the capacity doubles
when the growth test holds. -/
def growStep (sc : Int × Int) : Int × Int :=
  (sc.1 + 1, if aboveHighLoadFactor (sc.1 + 1) sc.2 then sc.2 * 2 else sc.2)

/-- A table built from a list of pairs, by successive calls of `insert` on a
default table or by the constructor from the vectors of the keys and of the
values. -/
def buildFrom (hash : K → Nat) (viaInserts : Bool) (ps : List (K × V)) :
    Except Exn (HashMap K V) :=
  if viaInserts then updates hash (insertCalls ps) ctor
  else ctorVectors hash (ps.map Prod.fst) (ps.map Prod.snd)

/-- The value that the const `operator[]` gives for a key: the stored value,
or the default value when the key is not stored. -/
def valueOrDefault [Inhabited V] (m : HashMap K V) (key : K) : V :=
  (m.lookup key).getD default

/-- The calls `insert(p.first, p.second)` for the pairs of a list, in order,
with the results of the calls. -/
def insertAll (hash : K → Nat) : List (K × V) → HashMap K V → Except Exn (List Bool × HashMap K V)
  | [], m => .ok ([], m)
  | p :: ps, m =>
    match insert hash m p.1 p.2 with
    | .error e => .error e
    | .ok (b, m1) =>
      match insertAll hash ps m1 with
      | .error e => .error e
      | .ok (bs, m2) => .ok (b :: bs, m2)

/-- The calls `erase(key)` for the keys of a list, in order, with the results
of the calls. -/
def eraseAll (hash : K → Nat) : List K → HashMap K V → Except Exn (List Bool × HashMap K V)
  | [], m => .ok ([], m)
  | k :: ks, m =>
    match erase hash m k with
    | .error e => .error e
    | .ok (b, m1) =>
      match eraseAll hash ks m1 with
      | .error e => .error e
      | .ok (bs, m2) => .ok (b :: bs, m2)

/-- A full traversal `for (it = begin(); it != end(); it++)` that dereferences
the iterator in every round: the pairs it meets, in order, and the number of
advances.  The first argument bounds the number of rounds; a loop that uses it
up is reported as `Exn.diverges`. -/
def traverseLoop (m : HashMap K V) : Nat → const_iterator → Except Exn (List (K × V) × Nat)
  | 0, _ => .error .diverges
  | n + 1, it =>
    match m.end_ with
    | .error e => .error e
    | .ok e =>
      if it.eq e then .ok ([], 0)
      else
        match it.deref m with
        | .error e => .error e
        | .ok p =>
          match it.incr m with
          | .error e => .error e
          | .ok it1 =>
            match traverseLoop m n it1 with
            | .error e => .error e
            | .ok (ps, advances) => .ok (p :: ps, advances + 1)

/-- Requirement that a table stores a key whenever the other table stores the
default value for it. -/
def DefaultsShared [Inhabited V] (a b : HashMap K V) : Prop :=
  ∀ k, a.lookup k = some default → ∃ w, b.lookup k = some w

end HashMap

/-- A `std::string`: the list of the codes of its chars. -/
abbrev CppString := List Int

/-- The value of the C++ type `int` (32 bits, two's complement) that agrees
with `x` modulo `2 ^ 32`: what the conversion of a length to `int` gives, and
what is left of an `int` sum or product whose exact value is out of range (the
language leaves that overflow undefined; the compiled code wraps). -/
def toInt32 (x : Int) : Int := (x + 2147483648) % 4294967296 - 2147483648

/-- The conversion of an `int` to `std::size_t` (64 bits), as in the second
argument of `substr(i, strLength)`. -/
def toSizeT (x : Int) : Nat := (x % 18446744073709551616).toNat

/-- The case folding of `findStringsInEmail` on one char: the statement
`if (c >= 65 && c <= 92) c = c + 32`. -/
def foldChar (c : Int) : Int := if c ≥ 65 ∧ c ≤ 92 then c + 32 else c

/-- The case folding loops `for (int j = 0; j < (int)s.length(); j++)` of
`findStringsInEmail` over a string: the chars before the position
`(int)s.length()` are folded, the others are left. -/
def foldString (s : CppString) : CppString :=
  (s.take (toInt32 s.length).toNat).map foldChar ++ s.drop (toInt32 s.length).toNat

/-- Call `s.substr(pos, len)` for a position inside the string. -/
def substr (s : CppString) (pos len : Nat) : CppString := (s.drop pos).take len

/-- The loop `for (int i = 0; i < lengthOfEmailStr; i++)` of
`findStringsInEmail` over the positions of the email: the `int` count of the
positions at which the folded substring equals the folded sentence. -/
def countLoop (strValue : CppString) (strLength : Int) (stringEmail : CppString) :
    List Nat → Int → Int
  | [], count => count
  | i :: is, count =>
    if foldString (substr stringEmail i (toSizeT strLength)) = strValue
    then countLoop strValue strLength stringEmail is (toInt32 (count + 1))
    else countLoop strValue strLength stringEmail is count

/-- The body of the outer loop of `findStringsInEmail` for one pair of the
map: `int scoreOfStr = count * it->second`, with the `int` variables
`strLength` and `lengthOfEmailStr`. -/
def scoreOfStr (p : CppString × Int) (stringEmail : CppString) : Int :=
  let strValue := foldString p.1
  let strLength := toInt32 strValue.length
  let lengthOfEmailStr := toInt32 stringEmail.length
  let count := countLoop strValue strLength stringEmail (List.range lengthOfEmailStr.toNat) 0
  toInt32 (count * p.2)

/-- The outer loop `for (it = stringsMap.begin(); it != stringsMap.end(); it++)`
of `findStringsInEmail` with the `int` sum `totalScoreOfEmail += scoreOfStr`.
The first argument bounds the number of rounds; a loop that uses it up is
reported as `Exn.diverges`. -/
def findStringsLoop (stringsMap : HashMap CppString Int) (stringEmail : CppString) :
    Nat → HashMap.const_iterator → Int → Except Exn Int
  | 0, _, _ => .error .diverges
  | n + 1, it, totalScoreOfEmail =>
    match stringsMap.end_ with
    | .error e => .error e
    | .ok e =>
      if it.eq e then .ok totalScoreOfEmail
      else
        match it.deref stringsMap with
        | .error e => .error e
        | .ok p =>
          match it.incr stringsMap with
          | .error e => .error e
          | .ok it1 =>
            findStringsLoop stringsMap stringEmail n it1
              (toInt32 (totalScoreOfEmail + scoreOfStr p stringEmail))

/-- Function `findStringsInEmail` of `SpamDetector.cpp`.  The loop is given
one round more than there are pairs in the map. -/
def findStringsInEmail (stringsMap : HashMap CppString Int) (stringEmail : CppString) :
    Except Exn Int :=
  match stringsMap.begin with
  | .error e => .error e
  | .ok it =>
    findStringsLoop stringsMap stringEmail (stringsMap._listArr.flatten.length + 1) it 0

/-- Case folding as the specification words it: an upper-case letter
`'A'..'Z'` (codes 65 to 90) becomes its lower-case letter, every other char
stays as it is. -/
def specFoldChar (c : Int) : Int := if 65 ≤ c ∧ c ≤ 90 then c + 32 else c

/-- The number of start positions in the email at which the sentence occurs,
ignoring case as the specification words it. -/
def specOccurrences (sentence email : CppString) : Int :=
  (((List.range email.length).filter (fun i =>
    decide (((email.drop i).take sentence.length).map specFoldChar
      = sentence.map specFoldChar))).length : Int)

/-- The total score as the specification words it: the sum over the pairs of
the score times the number of occurrences of the sentence. -/
def specTotalScore (pairs : List (CppString × Int)) (email : CppString) : Int :=
  (pairs.map (fun p => p.2 * specOccurrences p.1 email)).sum

/-- The number of start positions in the email at which the sentence occurs
when every char of both is folded by `foldChar`, which shifts the codes 65 to
92. -/
def foldedOccurrences (sentence email : CppString) : Int :=
  (((List.range email.length).filter (fun i =>
    decide (((email.drop i).take sentence.length).map foldChar
      = sentence.map foldChar))).length : Int)

namespace HashMap

variable {K V : Type} [DecidableEq K]


/-! ## The load factor tests as comparisons of fractions -/

theorem aboveHighLoadFactor_iff_rat (num den : Int) (h : den ≠ 0) :
    aboveHighLoadFactor num den = true ↔ (3 : ℚ) / 4 < (num : ℚ) / (den : ℚ) := by
  rcases lt_or_gt_of_ne h with hneg | hpos
  · have hq : (den : ℚ) < 0 := by exact_mod_cast hneg
    have h1 : ¬ (0 < den) := by omega
    simp only [aboveHighLoadFactor, h1, if_false, hneg, if_true, decide_eq_true_eq]
    rw [lt_div_iff_of_neg hq]
    constructor
    · intro hlt
      have : ((4 * num : Int) : ℚ) < ((3 * den : Int) : ℚ) := by exact_mod_cast hlt
      push_cast at this
      linarith
    · intro hlt
      have : ((4 * num : Int) : ℚ) < ((3 * den : Int) : ℚ) := by push_cast; linarith
      exact_mod_cast this
  · have hq : (0 : ℚ) < (den : ℚ) := by exact_mod_cast hpos
    simp only [aboveHighLoadFactor, hpos, if_true, decide_eq_true_eq]
    rw [lt_div_iff₀ hq]
    constructor
    · intro hlt
      have : ((3 * den : Int) : ℚ) < ((4 * num : Int) : ℚ) := by exact_mod_cast hlt
      push_cast at this
      linarith
    · intro hlt
      have : ((3 * den : Int) : ℚ) < ((4 * num : Int) : ℚ) := by push_cast; linarith
      exact_mod_cast this

theorem belowLowerLoadFactor_iff_rat (num den : Int) (h : den ≠ 0) :
    belowLowerLoadFactor num den = true ↔ (num : ℚ) / (den : ℚ) < (1 : ℚ) / 4 := by
  rcases lt_or_gt_of_ne h with hneg | hpos
  · have hq : (den : ℚ) < 0 := by exact_mod_cast hneg
    have h1 : ¬ (0 < den) := by omega
    simp only [belowLowerLoadFactor, h1, if_false, hneg, if_true, decide_eq_true_eq]
    rw [div_lt_iff_of_neg hq]
    constructor
    · intro hlt
      have : ((den : Int) : ℚ) < ((4 * num : Int) : ℚ) := by exact_mod_cast hlt
      push_cast at this
      linarith
    · intro hlt
      have : ((den : Int) : ℚ) < ((4 * num : Int) : ℚ) := by push_cast; linarith
      exact_mod_cast this
  · have hq : (0 : ℚ) < (den : ℚ) := by exact_mod_cast hpos
    simp only [belowLowerLoadFactor, hpos, if_true, decide_eq_true_eq]
    rw [div_lt_iff₀ hq]
    constructor
    · intro hlt
      have : ((4 * num : Int) : ℚ) < ((den : Int) : ℚ) := by exact_mod_cast hlt
      push_cast at this
      linarith
    · intro hlt
      have : ((4 * num : Int) : ℚ) < ((den : Int) : ℚ) := by push_cast; linarith
      exact_mod_cast this

/-! ## Cells, masks and the flattened array -/

theorem cell_of_lt {α : Type} (arr : List α) (j : Nat) (h : j < arr.length) :
    cell arr (j : Int) = .ok (arr.get ⟨j, h⟩) := by
  simp [cell, List.getElem?_eq_getElem h]

theorem setCell_of_lt {α : Type} (arr : List α) (j : Nat) (b : α) (h : j < arr.length) :
    setCell arr (j : Int) b = .ok (arr.set j b) := by
  simp [setCell, h]

theorem pushBack_of_lt {α : Type} (arr : List (List α)) (j : Nat) (p : α) (h : j < arr.length) :
    pushBack arr (j : Int) p = .ok (arr.set j (arr.get ⟨j, h⟩ ++ [p])) := by
  simp [pushBack, cell_of_lt arr j h, setCell_of_lt arr j _ h]

theorem maskHash_natCast (hash : K → Nat) (c : Nat) (hc : 1 ≤ c) (key : K) :
    maskHash hash (c : Int) key = ((hash key &&& (c - 1) : Nat) : Int) := by
  unfold maskHash
  have : ((c : Int) - 1) = ((c - 1 : Nat) : Int) := by omega
  rw [this]
  rfl

/-- The cell number of a key in an array of `n` cells. -/
theorem maskHash_lt (hash : K → Nat) (c : Nat) (hc : 1 ≤ c) (key : K) :
    hash key &&& (c - 1) < c := by
  have := @Nat.and_le_right (hash key) (c - 1)
  omega

theorem flatten_set_perm {α : Type} (arr : List (List α)) (j : Nat) (b : List α)
    (h : j < arr.length) :
    ∃ pre post, arr.flatten = pre ++ arr.get ⟨j, h⟩ ++ post ∧
      (arr.set j b).flatten = pre ++ b ++ post ∧
      pre = (arr.take j).flatten ∧ post = (arr.drop (j + 1)).flatten := by
  induction arr generalizing j with
  | nil => simp at h
  | cons a as ih =>
    cases j with
    | zero => exact ⟨[], as.flatten, by simp, by simp, by simp, by simp⟩
    | succ j =>
      have hj : j < as.length := by simpa using h
      obtain ⟨pre, post, h1, h2, h3, h4⟩ := ih j hj
      refine ⟨a ++ pre, post, ?_, ?_, ?_, ?_⟩
      · simp [h1]
      · simp [h2]
      · simp [h3]
      · simp [h4]


/-! ## The resize engine -/

theorem pushBack_mask (hash : K → Nat) (n : Nat) (hn : 1 ≤ n)
    (temp : List (List (K × V))) (hlen : temp.length = n) (p : K × V) :
    ∃ temp1, pushBack temp (maskHash hash (n : Int) p.1) p = .ok temp1 ∧
      temp1.length = n ∧ temp1.flatten.Perm (temp.flatten ++ [p]) ∧
      ∀ (i : Nat) (b1 : List (K × V)), temp1[i]? = some b1 → ∀ q ∈ b1,
        (∃ b, temp[i]? = some b ∧ q ∈ b) ∨ (q = p ∧ maskHash hash (n : Int) p.1 = (i : Int)) := by
  have hj : hash p.1 &&& (n - 1) < temp.length := by
    rw [hlen]; exact maskHash_lt hash n hn p.1
  rw [maskHash_natCast hash n hn, pushBack_of_lt temp _ p hj]
  refine ⟨_, rfl, by simp [hlen], ?_, ?_⟩
  · obtain ⟨pre, post, h1, h2, -, -⟩ :=
      flatten_set_perm temp (hash p.1 &&& (n - 1)) (temp.get ⟨_, hj⟩ ++ [p]) hj
    rw [h1, h2]
    simp only [List.append_assoc]
    refine List.Perm.append_left _ (List.Perm.append_left _ ?_)
    exact List.perm_append_comm
  · intro i b1 hb1 q hq
    rw [List.getElem?_set] at hb1
    split at hb1
    · next hji =>
      simp only [Option.some.injEq] at hb1
      subst hb1
      rcases List.mem_append.1 hq with hq | hq
      · left
        refine ⟨temp.get ⟨_, hj⟩, ?_, hq⟩
        rw [← hji]
        exact List.getElem?_eq_getElem hj
      · right
        simp only [List.mem_singleton] at hq
        exact ⟨hq, by rw [hji]⟩
    · left
      exact ⟨b1, hb1, hq⟩

theorem rehashChain_spec (hash : K → Nat) (n : Nat) (hn : 1 ≤ n) (ps : List (K × V)) :
    ∀ (temp : List (List (K × V))), temp.length = n →
    ∃ temp1, rehashChain hash (n : Int) ps temp = .ok temp1 ∧
      temp1.length = n ∧ temp1.flatten.Perm (temp.flatten ++ ps) ∧
      ∀ (i : Nat) (b1 : List (K × V)), temp1[i]? = some b1 → ∀ q ∈ b1,
        (∃ b, temp[i]? = some b ∧ q ∈ b) ∨ (q ∈ ps ∧ maskHash hash (n : Int) q.1 = (i : Int)) := by
  induction ps with
  | nil =>
    intro temp hlen
    refine ⟨temp, rfl, hlen, by simp, ?_⟩
    intro i b1 hb1 q hq
    exact Or.inl ⟨b1, hb1, hq⟩
  | cons p ps ih =>
    intro temp hlen
    obtain ⟨t1, h1, hl1, hp1, hq1⟩ := pushBack_mask hash n hn temp hlen p
    obtain ⟨t2, h2, hl2, hp2, hq2⟩ := ih t1 hl1
    refine ⟨t2, ?_, hl2, ?_, ?_⟩
    · simp only [rehashChain, h1, h2]
    · refine hp2.trans ?_
      have := hp1.append_right ps
      simpa using this
    · intro i b2 hb2 q hq
      rcases hq2 i b2 hb2 q hq with ⟨b, hb, hqb⟩ | ⟨hqps, hm⟩
      · rcases hq1 i b hb q hqb with h | ⟨rfl, hm⟩
        · exact Or.inl h
        · exact Or.inr ⟨List.mem_cons_self _ _, hm⟩
      · exact Or.inr ⟨List.mem_cons_of_mem _ hqps, hm⟩

theorem rehashChain_append (hash : K → Nat) (n : Int) (ps qs : List (K × V)) :
    ∀ (temp : List (List (K × V))),
    rehashChain hash n (ps ++ qs) temp =
      match rehashChain hash n ps temp with
      | .ok temp1 => rehashChain hash n qs temp1
      | .error e => .error e := by
  induction ps with
  | nil => intro temp; rfl
  | cons p ps ih =>
    intro temp
    simp only [List.cons_append, rehashChain]
    cases pushBack temp (maskHash hash n p.1) p with
    | error e => rfl
    | ok t1 => exact ih t1

theorem rehashCells_range (hash : K → Nat) (n : Int) (old : List (List (K × V))) (k : Nat) :
    ∀ (s : Nat) (temp : List (List (K × V))), s + k ≤ old.length →
    rehashCells hash n old (List.range' s k) temp =
      rehashChain hash n ((old.drop s).take k).flatten temp := by
  induction k with
  | zero => intro s temp _; simp [rehashCells, rehashChain]
  | succ k ih =>
    intro s temp hs
    have hlt : s < old.length := by omega
    rw [List.range'_succ]
    simp only [rehashCells, cell_of_lt old s hlt]
    have hd : old.drop s = old.get ⟨s, hlt⟩ :: old.drop (s + 1) := by
      rw [List.drop_eq_getElem_cons hlt]; rfl
    rw [hd, List.take_succ_cons, List.flatten_cons, rehashChain_append]
    cases rehashChain hash n (old.get ⟨s, hlt⟩) temp with
    | error e => rfl
    | ok t1 => exact ih (s + 1) t1 (by omega)

theorem changeSize_spec (hash : K → Nat) (m : HashMap K V) (hc : CellsEqCapacity m)
    (n : Nat) (hn : 1 ≤ n) :
    ∃ m1, _changeSize hash m (n : Int) = .ok m1 ∧ m1._capacity = (n : Int) ∧
      m1._size = m._size ∧ m1._listArr.length = n ∧ m1.entries.Perm m.entries ∧
      Placed hash m1 := by
  unfold CellsEqCapacity at hc
  have hcap : m.capacity.toNat = m._listArr.length := by
    unfold capacity; omega
  obtain ⟨t, h1, h2, h3, h4⟩ := rehashChain_spec hash n hn m._listArr.flatten
    (List.replicate n []) (by simp)
  have hrange : rehashCells hash (n : Int) m._listArr (List.range m.capacity.toNat)
      (List.replicate n []) = .ok t := by
    rw [List.range_eq_range', rehashCells_range hash n m._listArr _ 0 _ (by omega), hcap]
    simpa using h1
  refine ⟨{ m with _listArr := t, _capacity := (n : Int) }, ?_, rfl, rfl, h2, ?_, ?_⟩
  · have hnew : newListArr K V (n : Int) = .ok (List.replicate n []) := by
      simp [newListArr]
    simp only [_changeSize, hnew, hrange]
  · have : (List.replicate n ([] : List (K × V))).flatten = [] := by
      simp [List.flatten_eq_nil_iff]
    simpa [entries, this] using h3
  · intro i b hb q hq
    rcases h4 i b hb q hq with ⟨b0, hb0, hq0⟩ | ⟨_, hm⟩
    · have hb0m := List.getElem?_mem hb0
      simp only [List.mem_replicate] at hb0m
      rw [hb0m.2] at hq0
      simp at hq0
    · exact hm

/-! ## Lookups read the flattened array -/

theorem capacity_natCast {m : HashMap K V} (h : CapacityPow2 m) :
    ∃ c : Nat, m._capacity = (c : Int) ∧ 1 ≤ c := by
  obtain ⟨n, hn⟩ := h
  refine ⟨2 ^ n, by rw [hn]; push_cast; rfl, Nat.one_le_two_pow⟩

theorem mem_flatten_iff_getElem? {α : Type} (arr : List (List α)) (p : α) :
    p ∈ arr.flatten ↔ ∃ (i : Nat) (b : List α), arr[i]? = some b ∧ p ∈ b := by
  rw [List.mem_flatten]
  constructor
  · rintro ⟨b, hb, hp⟩
    obtain ⟨i, hi⟩ := List.mem_iff_getElem?.1 hb
    exact ⟨i, b, hi, hp⟩
  · rintro ⟨i, b, hi, hp⟩
    exact ⟨b, List.getElem?_mem hi, hp⟩

/-- The cell that `_hashCode` names for a key, in a table whose capacity is
positive and whose array has `_capacity` cells. -/
theorem hashCode_cell (hash : K → Nat) {m : HashMap K V} {c : Nat}
    (hcap : m._capacity = (c : Int)) (hc : 1 ≤ c) (hcells : CellsEqCapacity m) (key : K) :
    ∃ (j : Nat) (hj : j < m._listArr.length), _hashCode hash m key = (j : Int) ∧
      j = (hash key &&& (c - 1)) ∧
      cell m._listArr (_hashCode hash m key) = .ok (m._listArr.get ⟨j, hj⟩) := by
  unfold CellsEqCapacity at hcells
  have hlt : hash key &&& (c - 1) < m._listArr.length := by
    have := maskHash_lt hash c hc key
    omega
  have hcode : _hashCode hash m key = ((hash key &&& (c - 1) : Nat) : Int) := by
    unfold _hashCode capacity
    rw [hcap, maskHash_natCast hash c hc]
  refine ⟨_, hlt, hcode, rfl, ?_⟩
  rw [hcode, cell_of_lt _ _ hlt]

/-- In a placed table a key can only be found in its own cell: searching the
chain of that cell is searching the whole array. -/
theorem find?_cell_eq {hash : K → Nat} {m : HashMap K V} (hp : Placed hash m)
    (key : K) (j : Nat) (hj : j < m._listArr.length) (hcode : _hashCode hash m key = (j : Int)) :
    m.entries.find? (fun it => decide (it.1 = key)) =
      (m._listArr.get ⟨j, hj⟩).find? (fun it => decide (it.1 = key)) := by
  obtain ⟨pre, post, h1, -, hpre, hpost⟩ := flatten_set_perm m._listArr j [] hj
  have hne : ∀ (i : Nat) (b : List (K × V)), m._listArr[i]? = some b → i ≠ j →
      ∀ p ∈ b, ¬ (decide (p.1 = key) = true) := by
    intro i b hb hij p hpb hpk
    have hpk1 : p.1 = key := by simpa using hpk
    have := hp i b hb p hpb
    rw [hpk1, hcode] at this
    exact hij (by omega)
  have hpre0 : pre.find? (fun it => decide (it.1 = key)) = none := by
    rw [List.find?_eq_none]
    intro p hpm
    rw [hpre, mem_flatten_iff_getElem?] at hpm
    obtain ⟨i, b, hb, hpb⟩ := hpm
    rw [List.getElem?_take] at hb
    split at hb
    · next hij => exact hne i b hb (by omega) p hpb
    · simp at hb
  have hpost0 : post.find? (fun it => decide (it.1 = key)) = none := by
    rw [List.find?_eq_none]
    intro p hpm
    rw [hpost, mem_flatten_iff_getElem?] at hpm
    obtain ⟨i, b, hb, hpb⟩ := hpm
    rw [List.getElem?_drop] at hb
    exact hne _ b hb (by omega) p hpb
  unfold entries
  rw [h1, List.find?_append, List.find?_append, hpre0, hpost0]
  simp

theorem containsKey_eq {hash : K → Nat} {m : HashMap K V} (hcap : CapacityPow2 m)
    (hcells : CellsEqCapacity m) (hp : Placed hash m) (key : K) :
    containsKey hash m key = .ok (m.lookup key).isSome := by
  obtain ⟨c, hc, hc1⟩ := capacity_natCast hcap
  obtain ⟨j, hj, hcode, -, hcell⟩ := hashCode_cell hash hc hc1 hcells key
  have hfind := find?_cell_eq hp key j hj hcode
  unfold containsKey lookup
  rw [hcell, hfind]
  simp only
  split
  · next h0 =>
    have : m._listArr.get ⟨j, hj⟩ = [] := List.length_eq_zero.1 h0
    rw [this]; rfl
  · congr 1
    rw [Option.isSome_map']
    rw [Bool.eq_iff_iff]
    simp [List.any_eq_true]

theorem at_eq {hash : K → Nat} {m : HashMap K V} (hcap : CapacityPow2 m)
    (hcells : CellsEqCapacity m) (hp : Placed hash m) (key : K) :
    at_ hash m key =
      match m.lookup key with
      | some v => .ok v
      | none => .error .invalid_argument := by
  obtain ⟨c, hc, hc1⟩ := capacity_natCast hcap
  obtain ⟨j, hj, hcode, -, hcell⟩ := hashCode_cell hash hc hc1 hcells key
  have hfind := find?_cell_eq hp key j hj hcode
  unfold at_ lookup
  rw [hcell, hfind]
  simp only
  cases (m._listArr.get ⟨j, hj⟩).find? (fun it => decide (it.1 = key)) <;> rfl

/-- With unique keys the first pair with a key is the only one. -/
theorem lookup_eq_some_iff {m : HashMap K V} (hu : UniqueKeys m) (key : K) (v : V) :
    m.lookup key = some v ↔ (key, v) ∈ m.entries := by
  unfold lookup UniqueKeys at *
  generalize m.entries = l at hu
  induction l with
  | nil => simp
  | cons p l ih =>
    rw [List.map_cons, List.nodup_cons] at hu
    by_cases hk : p.1 = key
    · simp only [List.find?_cons, hk, decide_True, Option.map_some', Option.some.injEq,
        List.mem_cons]
      constructor
      · intro h; left; rw [← h, ← hk]
      · rintro (h | h)
        · rw [← h]
        · exfalso
          apply hu.1
          rw [hk]
          exact List.mem_map.2 ⟨(key, v), h, rfl⟩
    · simp only [List.find?_cons, hk, decide_False, List.mem_cons]
      rw [ih hu.2]
      constructor
      · intro h; exact Or.inr h
      · rintro (h | h)
        · exfalso; apply hk; rw [← h]
        · exact h

theorem lookup_eq_none_iff (m : HashMap K V) (key : K) :
    m.lookup key = none ↔ key ∉ m.entries.map Prod.fst := by
  unfold lookup
  rw [Option.map_eq_none', List.find?_eq_none]
  simp only [decide_eq_true_eq, List.mem_map, not_exists, not_and]

/-! ## insert -/

theorem capacityPow2_double {m m1 : HashMap K V} (h : CapacityPow2 m)
    (h1 : m1._capacity = m._capacity * 2) : CapacityPow2 m1 := by
  obtain ⟨n, hn⟩ := h
  exact ⟨n + 1, by rw [h1, hn, pow_succ]⟩

/-- The growth step of `insert`: the table is resized to twice its capacity
or left as it is; its pairs stay the same up to their order. -/
theorem grow_spec (hash : K → Nat) (m : HashMap K V) (hcap : CapacityPow2 m)
    (hcells : CellsEqCapacity m) (hp : Placed hash m) :
    ∃ m1, (if aboveHighLoadFactor (m.size + 1) m.capacity
            then _changeSize hash m (m._capacity * 2) else .ok m) = .ok m1 ∧
      m1._capacity = (if aboveHighLoadFactor (m._size + 1) m._capacity
            then m._capacity * 2 else m._capacity) ∧
      m1._size = m._size ∧ CapacityPow2 m1 ∧ CellsEqCapacity m1 ∧ Placed hash m1 ∧
      m1.entries.Perm m.entries := by
  obtain ⟨c, hc, hc1⟩ := capacity_natCast hcap
  by_cases hab : aboveHighLoadFactor (m.size + 1) m.capacity = true
  · have hab1 : aboveHighLoadFactor (m._size + 1) m._capacity = true := hab
    have h2 : m._capacity * 2 = ((c * 2 : Nat) : Int) := by rw [hc]; push_cast; rfl
    obtain ⟨m1, e1, e2, e3, e4, e5, e6⟩ := changeSize_spec hash m hcells (c * 2) (by omega)
    refine ⟨m1, ?_, ?_, e3, ?_, ?_, e6, e5⟩
    · rw [if_pos hab, h2]; exact e1
    · rw [if_pos hab1, h2]; exact e2
    · exact capacityPow2_double hcap (by rw [e2, h2])
    · unfold CellsEqCapacity; rw [e4, e2]
  · have hab1 : ¬ aboveHighLoadFactor (m._size + 1) m._capacity = true := hab
    exact ⟨m, by rw [if_neg hab], by rw [if_neg hab1], rfl, hcap, hcells, hp, List.Perm.refl _⟩

theorem insert_absent (hash : K → Nat) (m : HashMap K V) (hs : Structural hash m)
    (key : K) (value : V) (habs : m.lookup key = none) :
    ∃ m1, insert hash m key value = .ok (true, m1) ∧ Structural hash m1 ∧
      m1.entries.Perm (m.entries ++ [(key, value)]) ∧ m1._size = m._size + 1 ∧
      m1._capacity = (if aboveHighLoadFactor (m._size + 1) m._capacity
            then m._capacity * 2 else m._capacity) := by
  obtain ⟨hcap, hcells, hsize, hp, hu⟩ := hs
  have hck : containsKey hash m key = .ok false := by
    rw [containsKey_eq hcap hcells hp, habs]; rfl
  obtain ⟨m1, g1, g2, g3, g4, g5, g6, g7⟩ := grow_spec hash m hcap hcells hp
  obtain ⟨c, hc, hc1⟩ := capacity_natCast g4
  have hlen : m1._listArr.length = c := by
    unfold CellsEqCapacity at g5; omega
  obtain ⟨arr, a1, a2, a3, a4⟩ := pushBack_mask hash c hc1 m1._listArr hlen (key, value)
  have hpush : pushBack m1._listArr (_hashCode hash m1 key) (key, value) = .ok arr := by
    unfold _hashCode capacity; rw [hc]; exact a1
  have hperm : arr.flatten.Perm (m.entries ++ [(key, value)]) :=
    a3.trans (List.Perm.append_right _ g7)
  refine ⟨{ m1 with _listArr := arr, _size := m1._size + 1 }, ?_, ⟨?_, ?_, ?_, ?_, ?_⟩,
    hperm, by simp [g3], g2⟩
  · simp only [insert, hck, g1, hpush]
  · exact g4
  · unfold CellsEqCapacity; simp only; rw [a2, hc]
  · unfold SizeEqCount entries; simp only
    rw [hperm.length_eq, g3, hsize]; simp
  · intro i b1 hb1 q hq
    rcases a4 i b1 hb1 q hq with ⟨b, hb, hqb⟩ | ⟨rfl, hm⟩
    · exact g6 i b hb q hqb
    · unfold _hashCode capacity; simp only; rw [hc]; exact hm
  · unfold UniqueKeys entries; simp only
    rw [(hperm.map Prod.fst).nodup_iff]
    simp only [List.map_append, List.map_cons, List.map_nil]
    rw [List.nodup_append]
    refine ⟨hu, by simp, ?_⟩
    intro a ha hb
    simp only [List.mem_singleton] at hb
    subst hb
    exact (lookup_eq_none_iff m a).1 habs ha

theorem insert_present (hash : K → Nat) (m : HashMap K V) (hcap : CapacityPow2 m)
    (hcells : CellsEqCapacity m) (hp : Placed hash m)
    (key : K) (value : V) (v : V) (hpres : m.lookup key = some v) :
    insert hash m key value = .ok (false, m) := by
  have hck : containsKey hash m key = .ok true := by
    rw [containsKey_eq hcap hcells hp, hpres]; rfl
  simp only [insert, hck]

/-! ## erase -/

theorem find?_perm_eraseP {α : Type} (P : α → Bool) (p : α) :
    ∀ (b : List α), b.find? P = some p → b.Perm (p :: b.eraseP P) := by
  intro b
  induction b with
  | nil => intro h; simp at h
  | cons a b ih =>
    intro h
    by_cases ha : P a = true
    · rw [List.find?_cons_of_pos _ ha] at h
      simp only [Option.some.injEq] at h
      subst h
      rw [List.eraseP_cons_of_pos ha]
    · rw [List.find?_cons_of_neg _ ha] at h
      rw [List.eraseP_cons_of_neg ha]
      exact ((ih h).cons a).trans (List.Perm.swap p a _)

theorem capacityPow2_half {m m1 : HashMap K V} (h : CapacityPow2 m) (h2 : m._capacity ≠ 1)
    (h1 : m1._capacity = m._capacity / 2) : CapacityPow2 m1 := by
  obtain ⟨n, hn⟩ := h
  cases n with
  | zero => exact absurd (by simpa using hn) h2
  | succ n =>
    refine ⟨n, ?_⟩
    rw [h1, hn, pow_succ]
    simp

/-- The shrink step of `erase`, for a table that is not a single cell with
a load factor below the lower bound. -/
theorem checkIfDecrease_spec (hash : K → Nat) (m : HashMap K V) (hs : Structural hash m)
    (hne : m._capacity = 1 → belowLowerLoadFactor m._size m._capacity = false) :
    ∃ m1, _checkIfDecrease hash m = .ok m1 ∧ Structural hash m1 ∧
      m1.entries.Perm m.entries ∧ m1._size = m._size ∧
      m1._capacity = (if belowLowerLoadFactor m._size m._capacity
            then m._capacity / 2 else m._capacity) := by
  obtain ⟨hcap, hcells, hsize, hp, hu⟩ := hs
  obtain ⟨c, hc, hc1⟩ := capacity_natCast hcap
  have hmin : m._capacity ≥ MIN_CAPACITY_SIZE := by unfold MIN_CAPACITY_SIZE; omega
  by_cases hb : belowLowerLoadFactor m._size m._capacity = true
  · have hc2 : m._capacity ≠ 1 := by
      intro h; rw [hne h] at hb; exact absurd hb (by simp)
    have hhalf : m._capacity / 2 = ((c / 2 : Nat) : Int) := by rw [hc]; push_cast; rfl
    have hpow : CapacityPow2 ({ m with _capacity := m._capacity / 2 } : HashMap K V) :=
      capacityPow2_half hcap hc2 rfl
    obtain ⟨c2, hc2a, hc2b⟩ := capacity_natCast hpow
    have hc2c : c2 = c / 2 := by
      have : ((c2 : Nat) : Int) = ((c / 2 : Nat) : Int) := by rw [← hc2a, ← hhalf]
      exact_mod_cast this
    obtain ⟨m1, e1, e2, e3, e4, e5, e6⟩ := changeSize_spec hash m hcells (c / 2) (by omega)
    refine ⟨m1, ?_, ⟨?_, ?_, ?_, e6, ?_⟩, e5, e3, ?_⟩
    · simp only [_checkIfDecrease, if_pos hmin, hb, if_true, hhalf]; exact e1
    · exact capacityPow2_half hcap hc2 (by rw [e2, hhalf])
    · unfold CellsEqCapacity; rw [e4, e2]
    · unfold SizeEqCount; rw [e3, e5.length_eq]; exact hsize
    · unfold UniqueKeys; rw [(e5.map Prod.fst).nodup_iff]; exact hu
    · rw [if_pos hb, e2, hhalf]
  · refine ⟨m, ?_, ⟨hcap, hcells, hsize, hp, hu⟩, List.Perm.refl _, rfl, by rw [if_neg hb]⟩
    simp only [_checkIfDecrease, if_pos hmin, hb]
    rfl

/-- The removal step of `erase`, before the shrink check. -/
theorem erase_cell_spec (hash : K → Nat) (m : HashMap K V) (hs : Structural hash m)
    (key : K) (v : V) (hpres : m.lookup key = some v) :
    ∃ (j : Nat) (hj : j < m._listArr.length) (p : K × V),
      cell m._listArr (_hashCode hash m key) = .ok (m._listArr.get ⟨j, hj⟩) ∧
      (m._listArr.get ⟨j, hj⟩).find? (fun it => decide (it.1 = key)) = some p ∧
      p = (key, v) ∧
      setCell m._listArr (_hashCode hash m key)
        ((m._listArr.get ⟨j, hj⟩).eraseP (fun it => decide (it.1 = key)))
        = .ok (m._listArr.set j ((m._listArr.get ⟨j, hj⟩).eraseP (fun it => decide (it.1 = key)))) ∧
      Structural hash { m with
        _listArr := m._listArr.set j ((m._listArr.get ⟨j, hj⟩).eraseP (fun it => decide (it.1 = key))),
        _size := m._size - 1 } ∧
      m.entries.Perm ((key, v) ::
        (m._listArr.set j ((m._listArr.get ⟨j, hj⟩).eraseP (fun it => decide (it.1 = key)))).flatten) := by
  obtain ⟨hcap, hcells, hsize, hp, hu⟩ := hs
  obtain ⟨c, hc, hc1⟩ := capacity_natCast hcap
  obtain ⟨j, hj, hcode, -, hcell⟩ := hashCode_cell hash hc hc1 hcells key
  have hfind := find?_cell_eq hp key j hj hcode
  have hfind2 : (m._listArr.get ⟨j, hj⟩).find? (fun it => decide (it.1 = key)) = some (key, v) := by
    rw [← hfind]
    unfold lookup at hpres
    cases hf : m.entries.find? (fun it => decide (it.1 = key)) with
    | none => rw [hf] at hpres; simp at hpres
    | some q =>
      rw [hf] at hpres
      simp only [Option.map_some', Option.some.injEq] at hpres
      have hq := List.find?_some hf
      simp only [decide_eq_true_eq] at hq
      rw [← hq, ← hpres]
  obtain ⟨pre, post, h1, h2, -, -⟩ := flatten_set_perm m._listArr j
    ((m._listArr.get ⟨j, hj⟩).eraseP (fun it => decide (it.1 = key))) hj
  have hperm : m.entries.Perm ((key, v) ::
      (m._listArr.set j ((m._listArr.get ⟨j, hj⟩).eraseP
        (fun it => decide (it.1 = key)))).flatten) := by
    unfold entries
    rw [h1, h2]
    have hb := find?_perm_eraseP _ _ _ hfind2
    refine ((hb.append_left pre).append_right post).trans ?_
    simp only [List.append_assoc, List.cons_append]
    exact List.perm_middle
  refine ⟨j, hj, (key, v), hcell, hfind2, rfl, ?_, ⟨hcap, ?_, ?_, ?_, ?_⟩, hperm⟩
  · rw [hcode, setCell_of_lt _ _ _ hj]
  · unfold CellsEqCapacity; simp only [List.length_set]; exact hcells
  · unfold SizeEqCount entries; simp only
    have := hperm.length_eq
    unfold SizeEqCount at hsize
    simp only [List.length_cons] at this
    omega
  · intro i b1 hb1 q hq
    simp only at hb1
    rw [List.getElem?_set] at hb1
    split at hb1
    · next hji =>
      simp only [hj, if_true, Option.some.injEq] at hb1
      subst hb1
      have hq1 := List.mem_of_mem_eraseP hq
      exact hp i _ (by rw [← hji]; exact List.getElem?_eq_getElem hj) q hq1
    · exact hp i b1 hb1 q hq
  · unfold UniqueKeys entries; simp only
    have := (hperm.map Prod.fst).nodup_iff.1 hu
    simp only [List.map_cons, List.nodup_cons] at this
    exact this.2

theorem erase_present (hash : K → Nat) (m : HashMap K V) (hs : Structural hash m)
    (key : K) (v : V) (hpres : m.lookup key = some v)
    (hne : ¬ (m._capacity = 1 ∧ m._size = 1)) :
    ∃ m1, erase hash m key = .ok (true, m1) ∧ Structural hash m1 ∧
      m.entries.Perm ((key, v) :: m1.entries) ∧ m1._size = m._size - 1 ∧
      m1._capacity = (if belowLowerLoadFactor (m._size - 1) m._capacity
            then m._capacity / 2 else m._capacity) := by
  obtain ⟨j, hj, p, hcell, hfind, -, hset, hs1, hperm⟩ := erase_cell_spec hash m hs key v hpres
  have hck : containsKey hash m key = .ok true := by
    rw [containsKey_eq hs.capacityPow2 hs.cellsEqCapacity hs.placed, hpres]; rfl
  have hsz : (1 : Int) ≤ m._size := by
    have := hperm.length_eq
    have h2 := hs.sizeEqCount
    unfold SizeEqCount at h2
    simp only [List.length_cons] at this
    omega
  have hempty : m.empty = false := by
    unfold empty DEFAULT_SIZE
    simp only [decide_eq_false_iff_not]
    omega
  obtain ⟨m1, d1, d2, d3, d4, d5⟩ := checkIfDecrease_spec hash _ hs1 (by
    intro h1
    simp only at h1 ⊢
    unfold belowLowerLoadFactor
    rw [h1]
    simp only [Int.zero_lt_one, if_true, decide_eq_false_iff_not]
    omega)
  refine ⟨m1, ?_, d2, ?_, d4, d5⟩
  · simp only [erase, hempty, hck, hcell, hfind, hset, d1]
    rfl
  · exact hperm.trans (List.Perm.cons _ d3.symm)

/-! ## clear and assignment through `at` -/

theorem clearCells_range (k : Nat) :
    ∀ (s : Nat) (arr : List (List (K × V))), s + k ≤ arr.length →
    ∃ arr1, clearCells (List.range' s k) arr = .ok arr1 ∧ arr1.length = arr.length ∧
      ∀ i : Nat, arr1[i]? = if s ≤ i ∧ i < s + k then some [] else arr[i]? := by
  induction k with
  | zero =>
    intro s arr _
    refine ⟨arr, rfl, rfl, ?_⟩
    intro i
    rw [if_neg (by omega)]
  | succ k ih =>
    intro s arr hs
    have hlt : s < arr.length := by omega
    obtain ⟨arr1, h1, h2, h3⟩ := ih (s + 1) (arr.set s []) (by simp; omega)
    refine ⟨arr1, ?_, by simpa using h2, ?_⟩
    · rw [List.range'_succ]
      simp only [clearCells, setCell_of_lt arr s [] hlt]
      exact h1
    · intro i
      rw [h3 i, List.getElem?_set]
      by_cases h : s = i
      · subst h
        simp [hlt]
      · by_cases h4 : s + 1 ≤ i ∧ i < s + 1 + k
        · rw [if_pos h4, if_pos (by omega)]
        · rw [if_neg h4, if_neg h, if_neg (by omega)]

theorem flatten_eq_nil_of_cells {α : Type} (arr : List (List α))
    (h : ∀ (i : Nat) (b : List α), arr[i]? = some b → b = []) : arr.flatten = [] := by
  rw [List.flatten_eq_nil_iff]
  intro b hb
  obtain ⟨i, hi⟩ := List.mem_iff_getElem?.1 hb
  exact h i b hi

theorem clear_spec (hash : K → Nat) (m : HashMap K V) (hs : Structural hash m) :
    ∃ m1, clear m = .ok m1 ∧ Structural hash m1 ∧ m1._size = 0 ∧
      m1._capacity = m._capacity ∧ m1.entries = [] := by
  obtain ⟨hcap, hcells, hsize, hp, hu⟩ := hs
  by_cases he : m.empty = true
  · have h0 : m._size = 0 := by simpa [empty, DEFAULT_SIZE] using he
    have hnil : m.entries = [] := by
      unfold SizeEqCount at hsize
      rw [h0] at hsize
      exact List.length_eq_zero.1 (by omega)
    refine ⟨{ m with _size := 0 }, by simp [clear, he], ⟨hcap, hcells, ?_, hp, hu⟩, rfl, rfl, hnil⟩
    unfold SizeEqCount
    show (0 : Int) = (m.entries.length : Int)
    rw [hnil]; rfl
  · have hlen : m.capacity.toNat = m._listArr.length := by
      unfold CellsEqCapacity at hcells; unfold capacity; omega
    obtain ⟨arr, h1, h2, h3⟩ := clearCells_range m._listArr.length 0 m._listArr (by omega)
    have hall : ∀ (i : Nat) (b : List (K × V)), arr[i]? = some b → b = [] := by
      intro i b hb
      rw [h3 i] at hb
      split at hb
      · simpa using hb.symm
      · next hn =>
        have : m._listArr.length ≤ i := by omega
        rw [List.getElem?_eq_none this] at hb
        simp at hb
    have hnil : arr.flatten = [] := flatten_eq_nil_of_cells arr hall
    refine ⟨{ m with _listArr := arr, _size := 0 }, ?_, ⟨hcap, ?_, ?_, ?_, ?_⟩, rfl, rfl, hnil⟩
    · simp only [clear, he, Bool.not_false, if_true, List.range_eq_range', hlen, h1]
    · unfold CellsEqCapacity; simp only; rw [h2]; exact hcells
    · unfold SizeEqCount entries; simp only; rw [hnil]; rfl
    · intro i b hb q hq
      rw [hall i b hb] at hq
      simp at hq
    · unfold UniqueKeys entries; simp only; rw [hnil]; simp

theorem assignChain_eq_map (key : K) (value : V) :
    ∀ (b : List (K × V)), (b.map Prod.fst).Nodup → key ∈ b.map Prod.fst →
    assignChain key value b =
      some (b.map (fun p => if p.1 = key then (p.1, value) else p)) := by
  intro b
  induction b with
  | nil => intro _ h; simp at h
  | cons a b ih =>
    intro hnd hmem
    rw [List.map_cons, List.nodup_cons] at hnd
    by_cases ha : a.1 = key
    · have hid : b.map (fun p => if p.1 = key then (p.1, value) else p) = b := by
        conv_rhs => rw [← List.map_id b]
        apply List.map_congr_left
        intro p hp
        have : p.1 ≠ key := by
          intro h
          apply hnd.1
          rw [ha, ← h]
          exact List.mem_map_of_mem _ hp
        simp [this]
      simp only [assignChain, ha, if_true, List.map_cons, hid]
    · have hmem1 : key ∈ b.map Prod.fst := by
        simp only [List.map_cons, List.mem_cons] at hmem
        rcases hmem with h | h
        · exact absurd h.symm ha
        · exact h
      simp only [assignChain, ha, if_false, List.map_cons, ih hnd.2 hmem1, Option.map_some']

/-- The flattened array around the cell of a key: the chains before and
after that cell hold no pair with the key. -/
theorem cell_split {hash : K → Nat} {m : HashMap K V} (hp : Placed hash m)
    (key : K) (j : Nat) (hj : j < m._listArr.length) (hcode : _hashCode hash m key = (j : Int)) :
    ∃ pre post, m.entries = pre ++ m._listArr.get ⟨j, hj⟩ ++ post ∧
      (∀ b1, (m._listArr.set j b1).flatten = pre ++ b1 ++ post) ∧
      (∀ p ∈ pre, p.1 ≠ key) ∧ (∀ p ∈ post, p.1 ≠ key) := by
  have hne : ∀ (i : Nat) (b : List (K × V)), m._listArr[i]? = some b → i ≠ j →
      ∀ p ∈ b, p.1 ≠ key := by
    intro i b hb hij p hpb hpk
    have := hp i b hb p hpb
    rw [hpk, hcode] at this
    exact hij (by omega)
  refine ⟨(m._listArr.take j).flatten, (m._listArr.drop (j + 1)).flatten, ?_, ?_, ?_, ?_⟩
  · obtain ⟨pre, post, h1, -, hpre, hpost⟩ := flatten_set_perm m._listArr j [] hj
    unfold entries
    rw [h1, hpre, hpost]
  · intro b1
    obtain ⟨pre, post, -, h2, hpre, hpost⟩ := flatten_set_perm m._listArr j b1 hj
    rw [h2, hpre, hpost]
  · intro p hpm
    rw [mem_flatten_iff_getElem?] at hpm
    obtain ⟨i, b, hb, hpb⟩ := hpm
    rw [List.getElem?_take] at hb
    split at hb
    · next hij => exact hne i b hb (by omega) p hpb
    · simp at hb
  · intro p hpm
    rw [mem_flatten_iff_getElem?] at hpm
    obtain ⟨i, b, hb, hpb⟩ := hpm
    rw [List.getElem?_drop] at hb
    exact hne _ b hb (by omega) p hpb

theorem at_assign_spec (hash : K → Nat) (m : HashMap K V) (hs : Structural hash m)
    (key : K) (value : V) (v0 : V) (hpres : m.lookup key = some v0) :
    ∃ m1, at_assign hash m key value = .ok m1 ∧ Structural hash m1 ∧
      m1._size = m._size ∧ m1._capacity = m._capacity ∧
      m1.entries = m.entries.map (fun p => if p.1 = key then (p.1, value) else p) := by
  obtain ⟨hcap, hcells, hsize, hp, hu⟩ := hs
  obtain ⟨c, hc, hc1⟩ := capacity_natCast hcap
  obtain ⟨j, hj, hcode, -, hcell⟩ := hashCode_cell hash hc hc1 hcells key
  obtain ⟨pre, post, s1, s2, s3, s4⟩ := cell_split hp key j hj hcode
  have hfind := find?_cell_eq hp key j hj hcode
  have hkey : key ∈ (m._listArr.get ⟨j, hj⟩).map Prod.fst := by
    unfold lookup at hpres
    rw [hfind] at hpres
    cases hf : (m._listArr.get ⟨j, hj⟩).find? (fun it => decide (it.1 = key)) with
    | none => rw [hf] at hpres; simp at hpres
    | some q =>
      have h1 := List.find?_some hf
      have h2 := List.mem_of_find?_eq_some hf
      simp only [decide_eq_true_eq] at h1
      rw [← h1]
      exact List.mem_map_of_mem _ h2
  have hnd : ((m._listArr.get ⟨j, hj⟩).map Prod.fst).Nodup := by
    unfold UniqueKeys at hu
    rw [s1] at hu
    simp only [List.map_append] at hu
    exact (List.nodup_append.1 (List.nodup_append.1 hu).1).2.1
  have hassign := assignChain_eq_map key value _ hnd hkey
  have hmapid : ∀ l : List (K × V), (∀ p ∈ l, p.1 ≠ key) →
      l.map (fun p => if p.1 = key then (p.1, value) else p) = l := by
    intro l hl
    conv_rhs => rw [← List.map_id l]
    apply List.map_congr_left
    intro p hpl
    simp [hl p hpl]
  have hent : (m._listArr.set j ((m._listArr.get ⟨j, hj⟩).map
      (fun p => if p.1 = key then (p.1, value) else p))).flatten
      = m.entries.map (fun p => if p.1 = key then (p.1, value) else p) := by
    rw [s2, s1]
    simp only [List.map_append, hmapid pre s3, hmapid post s4]
  have hfst : ∀ l : List (K × V),
      (l.map (fun p => if p.1 = key then (p.1, value) else p)).map Prod.fst = l.map Prod.fst := by
    intro l
    rw [List.map_map]
    apply List.map_congr_left
    intro p _
    simp only [Function.comp]
    split <;> rfl
  refine ⟨{ m with _listArr := m._listArr.set j ((m._listArr.get ⟨j, hj⟩).map
      (fun p => if p.1 = key then (p.1, value) else p)) }, ?_, ⟨hcap, ?_, ?_, ?_, ?_⟩,
      rfl, rfl, hent⟩
  · simp only [at_assign, hcell, hassign]
    rw [hcode, setCell_of_lt _ _ _ hj]
  · unfold CellsEqCapacity; simp only [List.length_set]; exact hcells
  · unfold SizeEqCount entries; simp only
    rw [hent, List.length_map]; exact hsize
  · intro i b1 hb1 q hq
    simp only at hb1
    rw [List.getElem?_set] at hb1
    split at hb1
    · next hji =>
      simp only [hj, if_true, Option.some.injEq] at hb1
      subst hb1
      obtain ⟨p0, hp0, rfl⟩ := List.mem_map.1 hq
      have := hp i _ (by rw [← hji]; exact List.getElem?_eq_getElem hj) p0 hp0
      have hk : (if p0.1 = key then (p0.1, value) else p0).1 = p0.1 := by split <;> rfl
      unfold _hashCode capacity at this ⊢
      simp only
      rw [hk]; exact this
    · exact hp i b1 hb1 q hq
  · unfold UniqueKeys entries; simp only
    rw [hent, hfst]; exact hu

/-! ## erase of an absent key -/

theorem erase_of_empty (hash : K → Nat) (m : HashMap K V) (key : K) (h : m._size = 0) :
    erase hash m key = .ok (false, m) := by
  have : m.empty = true := by simp [empty, DEFAULT_SIZE, h]
  simp [erase, this]

theorem erase_of_not_contains (hash : K → Nat) (m : HashMap K V) (key : K)
    (h : containsKey hash m key = .ok false) : erase hash m key = .ok (false, m) := by
  unfold erase
  split
  · rfl
  · rw [h]

/-! ## The iterator -/

theorem flatten_drop_of_empty {α : Type} (arr : List (List α)) (k : Nat) :
    ∀ (s : Nat), (∀ i : Nat, s ≤ i → i < s + k → arr[i]? = some []) →
    (arr.drop s).flatten = (arr.drop (s + k)).flatten := by
  induction k with
  | zero => intro s _; rfl
  | succ k ih =>
    intro s h
    have hs := h s (Nat.le_refl _) (by omega)
    have hlt : s < arr.length := by
      by_contra hge
      rw [List.getElem?_eq_none (by omega)] at hs
      simp at hs
    have hget : arr[s] = [] := by
      rw [List.getElem?_eq_getElem hlt] at hs
      simpa using hs
    rw [List.drop_eq_getElem_cons hlt, List.flatten_cons, hget, List.nil_append,
      ih (s + 1) (fun i h1 h2 => h i (by omega) (by omega))]
    congr 2
    omega

theorem skipEmpty_spec (m : HashMap K V) (c : Nat) (hcap : m._capacity = (c : Int))
    (hlen : m._listArr.length = c) (k : Nat) :
    ∀ (s : Nat), s + k = c →
    ∃ j : Nat, skipEmpty m k (s : Int) = .ok (j : Int) ∧ s ≤ j ∧ j ≤ c ∧
      (∀ i : Nat, s ≤ i → i < j → m._listArr[i]? = some []) ∧
      (j < c → ∃ b, m._listArr[j]? = some b ∧ b ≠ []) := by
  induction k with
  | zero =>
    intro s hs
    refine ⟨s, rfl, Nat.le_refl _, by omega, ?_, ?_⟩
    · intro i h1 h2; omega
    · intro h; omega
  | succ k ih =>
    intro s hs
    have hlt : s < m._listArr.length := by omega
    have hcond : (s : Int) < m.capacity := by unfold capacity; omega
    by_cases hb : (m._listArr.get ⟨s, hlt⟩).isEmpty = true
    · obtain ⟨j, h1, h2, h3, h4, h5⟩ := ih (s + 1) (by omega)
      refine ⟨j, ?_, by omega, h3, ?_, h5⟩
      · simp only [skipEmpty, if_pos hcond, cell_of_lt _ _ hlt, hb, if_true]
        exact_mod_cast h1
      · intro i hi1 hi2
        by_cases hi : i = s
        · subst hi
          rw [List.getElem?_eq_getElem hlt]
          have : m._listArr.get ⟨i, hlt⟩ = [] := List.isEmpty_iff.1 hb
          exact congrArg some this
        · exact h4 i (by omega) hi2
    · refine ⟨s, ?_, Nat.le_refl _, by omega, ?_, ?_⟩
      · simp only [skipEmpty, if_pos hcond, cell_of_lt _ _ hlt, hb]
        rfl
      · intro i h1 h2; omega
      · intro _
        refine ⟨m._listArr.get ⟨s, hlt⟩, List.getElem?_eq_getElem hlt, ?_⟩
        intro h
        apply hb
        rw [h]; rfl

theorem beginScan_spec (m : HashMap K V) (c : Nat)
    (hlen : m._listArr.length = c) (k : Nat) :
    ∀ (s : Nat), s + k = c →
    (∃ (j : Nat) (b : List (K × V)), beginScan m (List.range' s k) = .ok ⟨0, b.length, (j : Int)⟩ ∧
      s ≤ j ∧ j < c ∧ m._listArr[j]? = some b ∧ b ≠ [] ∧
      (∀ i : Nat, s ≤ i → i < j → m._listArr[i]? = some [])) ∨
    (∀ i : Nat, s ≤ i → i < c → m._listArr[i]? = some []) := by
  induction k with
  | zero =>
    intro s hs
    right
    intro i h1 h2; omega
  | succ k ih =>
    intro s hs
    have hlt : s < m._listArr.length := by omega
    by_cases hb : (m._listArr.get ⟨s, hlt⟩).isEmpty = true
    · have hnil : m._listArr[s]? = some [] := by
        rw [List.getElem?_eq_getElem hlt]
        have : m._listArr.get ⟨s, hlt⟩ = [] := List.isEmpty_iff.1 hb
        exact congrArg some this
      rcases ih (s + 1) (by omega) with ⟨j, b, h1, h2, h3, h4, h5, h6⟩ | hall
      · left
        refine ⟨j, b, ?_, by omega, h3, h4, h5, ?_⟩
        · rw [List.range'_succ]
          simp only [beginScan, cell_of_lt _ _ hlt, hb, if_true]
          exact h1
        · intro i hi1 hi2
          by_cases hi : i = s
          · subst hi; exact hnil
          · exact h6 i (by omega) hi2
      · right
        intro i hi1 hi2
        by_cases hi : i = s
        · subst hi; exact hnil
        · exact hall i (by omega) hi2
    · left
      refine ⟨s, m._listArr.get ⟨s, hlt⟩, ?_, Nat.le_refl _, by omega,
        List.getElem?_eq_getElem hlt, ?_, ?_⟩
      · rw [List.range'_succ]
        simp only [beginScan, cell_of_lt _ _ hlt, hb]
        rfl
      · intro h; apply hb; rw [h]; rfl
      · intro i h1 h2; omega

theorem getD_get {α : Type} (l : List α) (d : α) {n : Nat} (hn : n < l.length) :
    l.getD n d = l.get ⟨n, hn⟩ := List.getD_eq_getElem l d hn

theorem end_spec (m : HashMap K V) (c : Nat) (hcap : m._capacity = (c : Int)) (hc : 1 ≤ c)
    (hlen : m._listArr.length = c) :
    ∃ e, m.end_ = .ok e ∧ e._index = ((c - 1 : Nat) : Int) ∧
      e._iterator = (m._listArr.getD (c - 1) []).length ∧ e.rest m = [] := by
  have hlt : c - 1 < m._listArr.length := by omega
  have hidx : m.capacity - 1 = ((c - 1 : Nat) : Int) := by unfold capacity; omega
  refine ⟨⟨(m._listArr.get ⟨c - 1, hlt⟩).length, (m._listArr.get ⟨c - 1, hlt⟩).length,
    ((c - 1 : Nat) : Int)⟩, ?_, rfl, ?_, ?_⟩
  · simp only [end_, hidx, cell_of_lt _ _ hlt]
  · rw [getD_get _ _ hlt]
  · unfold const_iterator.rest
    simp only [Int.toNat_ofNat]
    rw [getD_get _ _ hlt, List.drop_length, List.drop_of_length_le (by omega)]
    rfl

theorem onPair_spec (m : HashMap K V) (it e : const_iterator) (h : it.OnPair m)
    (he1 : e._index.toNat < m._listArr.length → 0 ≤ e._index →
      e._iterator = (m._listArr.getD e._index.toNat []).length) :
    it.eq e = false ∧ ∃ p, it.deref m = .ok p ∧
      it.rest m = p :: ({ it with _iterator := it._iterator + 1 } : const_iterator).rest m := by
  obtain ⟨h0, h1, h2, h3⟩ := h
  obtain ⟨i, hi⟩ := Int.eq_ofNat_of_zero_le h0
  rw [hi] at h1 h2
  simp only [Int.toNat_ofNat] at h1 h2
  rw [getD_get _ _ h1] at h2
  constructor
  · unfold const_iterator.eq
    simp only [Bool.and_eq_false_imp, decide_eq_true_eq, decide_eq_false_iff_not]
    intro hidx hpos
    have hlt : e._index.toNat < m._listArr.length := by rw [hidx, hi]; simpa using h1
    have := he1 hlt (by rw [hidx]; exact h0)
    rw [hidx, hi] at this
    simp only [Int.toNat_ofNat] at this
    rw [getD_get _ _ h1] at this
    omega
  · refine ⟨(m._listArr.get ⟨i, h1⟩).get ⟨it._iterator, h2⟩, ?_, ?_⟩
    · unfold const_iterator.deref
      rw [hi, cell_of_lt _ _ h1]
      simp only
      rw [List.getElem?_eq_getElem h2]
      rfl
    · unfold const_iterator.rest
      simp only [hi, Int.toNat_ofNat]
      rw [getD_get _ _ h1, List.drop_eq_getElem_cons h2]
      rfl

theorem incr_spec (m : HashMap K V) (c : Nat) (hcap : m._capacity = (c : Int)) (hc : 1 ≤ c)
    (hlen : m._listArr.length = c) (it : const_iterator) (h : it.OnPair m) :
    ∃ it1, it.incr m = .ok it1 ∧
      it1.rest m = ({ it with _iterator := it._iterator + 1 } : const_iterator).rest m ∧
      (it1.OnPair m ∨ m.end_ = .ok it1) := by
  obtain ⟨h0, h1, h2, h3⟩ := h
  obtain ⟨i, hi⟩ := Int.eq_ofNat_of_zero_le h0
  rw [hi] at h1 h2 h3
  simp only [Int.toNat_ofNat] at h1 h2 h3
  by_cases hlast : it._iterator + 1 = it._endIterator
  · obtain ⟨j, s1, s2, s3, s4, s5⟩ := skipEmpty_spec m c hcap hlen (c - (i + 1)) (i + 1) (by omega)
    have hfuel : (m.capacity - ((i + 1 : Nat) : Int)).toNat = c - (i + 1) := by
      unfold capacity; rw [hcap]; omega
    have hstart : it._index + 1 = ((i + 1 : Nat) : Int) := by rw [hi]; rfl
    have hrest0 : ({ it with _iterator := it._iterator + 1 } : const_iterator).rest m
        = (m._listArr.drop (i + 1)).flatten := by
      unfold const_iterator.rest
      simp only [hi, Int.toNat_ofNat]
      rw [List.drop_of_length_le (by omega)]
      rfl
    have hskip : (m._listArr.drop (i + 1)).flatten = (m._listArr.drop j).flatten := by
      have := flatten_drop_of_empty m._listArr (j - (i + 1)) (i + 1)
        (fun a ha1 ha2 => s4 a ha1 (by omega))
      rw [this]
      congr 2
      omega
    by_cases hj : j < c
    · obtain ⟨b, hb, hbne⟩ := s5 hj
      have hjl : j < m._listArr.length := by omega
      have hbget : m._listArr.get ⟨j, hjl⟩ = b := by
        rw [List.getElem?_eq_getElem hjl] at hb
        simpa using hb
      refine ⟨⟨0, b.length, (j : Int)⟩, ?_, ?_, Or.inl ?_⟩
      · unfold const_iterator.incr const_iterator._checkIfEnd
        simp only [hlast, if_true]
        rw [hstart, hfuel, s1]
        have : ¬ ((j : Int) ≥ m.capacity) := by unfold capacity; omega
        simp only [if_neg this, cell_of_lt _ _ hjl, hbget]
      · rw [hrest0, hskip]
        unfold const_iterator.rest
        simp only [Int.toNat_ofNat, List.drop_zero]
        rw [getD_get _ _ hjl, hbget, List.drop_eq_getElem_cons hjl, List.flatten_cons]
        congr 1
        exact hbget.symm
      · refine ⟨by simp, by simpa using hjl, ?_, ?_⟩
        · simp only [Int.toNat_ofNat]
          rw [getD_get _ _ hjl, hbget]
          exact List.length_pos.2 hbne
        · simp only [Int.toNat_ofNat]
          rw [getD_get _ _ hjl, hbget]
    · obtain ⟨e, e1, e2, e3, e4⟩ := end_spec m c hcap hc hlen
      have hjc : j = c := by omega
      have hlt : c - 1 < m._listArr.length := by omega
      have hidx : m.capacity - 1 = ((c - 1 : Nat) : Int) := by unfold capacity; omega
      have hend : m.end_ = .ok ⟨(m._listArr.get ⟨c - 1, hlt⟩).length,
          (m._listArr.get ⟨c - 1, hlt⟩).length, ((c - 1 : Nat) : Int)⟩ := by
        simp only [end_, hidx, cell_of_lt _ _ hlt]
      rw [hend] at e1
      simp only [Except.ok.injEq] at e1
      refine ⟨e, ?_, ?_, Or.inr (by rw [hend, e1])⟩
      · unfold const_iterator.incr const_iterator._checkIfEnd
        simp only [hlast, if_true]
        rw [hstart, hfuel, s1]
        have : ((j : Int) ≥ m.capacity) := by unfold capacity; omega
        simp only [if_pos this, hidx, cell_of_lt _ _ hlt, ← e1]
      · rw [e4, hrest0, hskip, hjc, List.drop_of_length_le (by omega)]
        rfl
  · refine ⟨{ it with _iterator := it._iterator + 1 }, ?_, rfl, Or.inl ?_⟩
    · unfold const_iterator.incr const_iterator._checkIfEnd
      simp only [hlast, if_false]
    · refine ⟨h0, ?_, ?_, ?_⟩
      · simp only [hi, Int.toNat_ofNat]; exact h1
      · simp only [hi, Int.toNat_ofNat]; omega
      · simp only [hi, Int.toNat_ofNat]; exact h3

theorem subscriptLoop_spec (m : HashMap K V) (c : Nat) (hcap : m._capacity = (c : Int))
    (hc : 1 ≤ c) (hlen : m._listArr.length = c) (key : K) (fuel : Nat) :
    ∀ (it : const_iterator), (it.OnPair m ∨ m.end_ = .ok it) → (it.rest m).length < fuel →
    subscriptLoop m key fuel it =
      .ok (((it.rest m).find? (fun p => decide (p.1 = key))).map Prod.snd) := by
  obtain ⟨e, e1, e2, e3, e4⟩ := end_spec m c hcap hc hlen
  induction fuel with
  | zero => intro it _ h; omega
  | succ fuel ih =>
    intro it hit hfuel
    rcases hit with hon | hend
    · have he1 : e._index.toNat < m._listArr.length → 0 ≤ e._index →
          e._iterator = (m._listArr.getD e._index.toNat []).length := by
        intro _ _
        rw [e3, e2]
        rfl
      obtain ⟨hneq, p, hderef, hrest⟩ := onPair_spec m it e hon he1
      obtain ⟨it1, i1, i2, i3⟩ := incr_spec m c hcap hc hlen it hon
      by_cases hk : p.1 = key
      · simp only [subscriptLoop, e1, hneq, hderef, hk, if_true]
        rw [hrest, List.find?_cons_of_pos _ (by simpa using hk)]
        simp
      · have hlt : (it1.rest m).length < fuel := by
          rw [i2]
          rw [hrest] at hfuel
          simp only [List.length_cons] at hfuel
          omega
        simp only [subscriptLoop, e1, hneq, hderef, hk, if_false, i1, ih it1 i3 hlt]
        rw [hrest, List.find?_cons_of_neg _ (by simpa using hk), i2]
        simp
    · rw [e1] at hend
      simp only [Except.ok.injEq] at hend
      subst hend
      have heq : e.eq e = true := by simp [const_iterator.eq]
      simp only [subscriptLoop, e1, heq, if_true, e4]
      rfl

theorem begin_spec (m : HashMap K V) (c : Nat) (hcap : m._capacity = (c : Int))
    (hc : 1 ≤ c) (hlen : m._listArr.length = c) (hsize : SizeEqCount m) :
    ∃ it, m.begin = .ok it ∧ (it.OnPair m ∨ m.end_ = .ok it) ∧ it.rest m = m.entries := by
  obtain ⟨e, e1, e2, e3, e4⟩ := end_spec m c hcap hc hlen
  unfold SizeEqCount at hsize
  by_cases hempty : m.empty = true
  · have h0 : m._size = 0 := by simpa [empty, DEFAULT_SIZE] using hempty
    have hnil : m.entries = [] := List.length_eq_zero.1 (by omega)
    refine ⟨e, ?_, Or.inr e1, by rw [e4, hnil]⟩
    simp only [begin, hempty, if_true, e1]
  · have hne : m._size ≠ 0 := by
      intro h; apply hempty; simp [empty, DEFAULT_SIZE, h]
    have hnn : m.entries ≠ [] := by
      intro h; rw [h] at hsize; simp at hsize; exact hne hsize
    have hcapn : m._capacity.toNat = c := by omega
    rcases beginScan_spec m c hlen c 0 (by omega) with ⟨j, b, h1, h2, h3, h4, h5, h6⟩ | hall
    · have hjl : j < m._listArr.length := by omega
      have hbget : m._listArr.get ⟨j, hjl⟩ = b := by
        rw [List.getElem?_eq_getElem hjl] at h4
        simpa using h4
      refine ⟨⟨0, b.length, (j : Int)⟩, ?_, Or.inl ?_, ?_⟩
      · simp only [begin, hempty, List.range_eq_range', hcapn]
        exact h1
      · refine ⟨by simp, by simpa using hjl, ?_, ?_⟩
        · simp only [Int.toNat_ofNat]
          rw [getD_get _ _ hjl, hbget]
          exact List.length_pos.2 h5
        · simp only [Int.toNat_ofNat]
          rw [getD_get _ _ hjl, hbget]
      · have hskip := flatten_drop_of_empty m._listArr j 0
          (fun a ha1 ha2 => h6 a ha1 (by omega))
        simp only [List.drop_zero, Nat.zero_add] at hskip
        unfold entries
        rw [hskip]
        unfold const_iterator.rest
        simp only [Int.toNat_ofNat, List.drop_zero]
        rw [getD_get _ _ hjl, hbget, List.drop_eq_getElem_cons hjl, List.flatten_cons]
        congr 1
        exact hbget.symm
    · exfalso
      apply hnn
      exact flatten_eq_nil_of_cells _ (fun i b hb => by
        have hi : i < c := by
          by_contra hge
          rw [List.getElem?_eq_none (by omega)] at hb
          simp at hb
        rw [hall i (by omega) hi] at hb
        simpa using hb.symm)

theorem subscript_spec [Inhabited V] (hash : K → Nat) (m : HashMap K V)
    (hs : Structural hash m) (key : K) :
    (∀ v0, m.lookup key = some v0 → subscript hash m key = .ok (v0, m)) ∧
    (m.lookup key = none → ∃ m1, insert hash m key default = .ok (true, m1) ∧
      subscript hash m key = .ok (default, m1)) := by
  obtain ⟨c, hc, hc1⟩ := capacity_natCast hs.capacityPow2
  have hlen : m._listArr.length = c := by
    have := hs.cellsEqCapacity
    unfold CellsEqCapacity at this
    omega
  constructor
  · intro v0 hv0
    have hck : containsKey hash m key = .ok true := by
      rw [containsKey_eq hs.capacityPow2 hs.cellsEqCapacity hs.placed, hv0]; rfl
    obtain ⟨it, b1, b2, b3⟩ := begin_spec m c hc hc1 hlen hs.sizeEqCount
    have hloop := subscriptLoop_spec m c hc hc1 hlen key (m._listArr.flatten.length + 1) it b2
      (by rw [b3]; unfold entries; omega)
    rw [b3] at hloop
    have hl : (m.entries.find? (fun p => decide (p.1 = key))).map Prod.snd = some v0 := hv0
    rw [hl] at hloop
    simp only [subscript, hck, b1, hloop]
  · intro hnone
    have hck : containsKey hash m key = .ok false := by
      rw [containsKey_eq hs.capacityPow2 hs.cellsEqCapacity hs.placed, hnone]; rfl
    obtain ⟨m1, i1, i2, i3, -, -⟩ := insert_absent hash m hs key default hnone
    refine ⟨m1, i1, ?_⟩
    have hat : at_ hash m1 key = .ok default := by
      rw [at_eq i2.capacityPow2 i2.cellsEqCapacity i2.placed]
      have : m1.lookup key = some default := by
        rw [lookup_eq_some_iff i2.uniqueKeys]
        exact i3.symm.subset (by simp)
      rw [this]
    simp only [subscript, hck, i1, hat]

/-! ## Tables that calls can produce -/

theorem aboveHighLoadFactor_iff (num den : Int) (h : 0 < den) :
    aboveHighLoadFactor num den = true ↔ 3 * den < 4 * num := by
  simp [aboveHighLoadFactor, h]

theorem belowLowerLoadFactor_iff (num den : Int) (h : 0 < den) :
    belowLowerLoadFactor num den = true ↔ 4 * num < den := by
  simp [belowLowerLoadFactor, h]

theorem structural_ctor (hash : K → Nat) : Structural hash (ctor : HashMap K V) := by
  have hnil : ∀ (i : Nat) (b : List (K × V)),
      (List.replicate 16 ([] : List (K × V)))[i]? = some b → b = [] := by
    intro i b hb
    have := List.getElem?_mem hb
    exact (List.mem_replicate.1 this).2
  have hflat : (List.replicate 16 ([] : List (K × V))).flatten = [] :=
    flatten_eq_nil_of_cells _ hnil
  refine ⟨⟨4, rfl⟩, ?_, ?_, ?_, ?_⟩
  · unfold CellsEqCapacity ctor DEFAULT_CAPACITY; simp
  · unfold SizeEqCount entries ctor DEFAULT_CAPACITY DEFAULT_SIZE
    simp only [show (16 : Int).toNat = 16 from rfl, hflat]
    rfl
  · intro i b hb q hq
    have : b = [] := hnil i b hb
    rw [this] at hq
    simp at hq
  · unfold UniqueKeys entries ctor DEFAULT_CAPACITY
    simp only [show (16 : Int).toNat = 16 from rfl, hflat]
    simp

theorem settled_ctor (hash : K → Nat) : Settled hash (ctor : HashMap K V) :=
  ⟨structural_ctor hash, by simp [ctor, DEFAULT_SIZE, DEFAULT_CAPACITY]⟩

theorem size_nonneg {hash : K → Nat} {m : HashMap K V} (hs : Structural hash m) :
    0 ≤ m._size := by
  have := hs.sizeEqCount
  unfold SizeEqCount at this
  omega

theorem capacity_pos {hash : K → Nat} {m : HashMap K V} (hs : Structural hash m) :
    1 ≤ m._capacity := by
  obtain ⟨c, hc, hc1⟩ := capacity_natCast hs.capacityPow2
  omega

theorem lookup_cases (m : HashMap K V) (key : K) :
    m.lookup key = none ∨ ∃ v, m.lookup key = some v := by
  cases h : m.lookup key with
  | none => exact Or.inl rfl
  | some v => exact Or.inr ⟨v, rfl⟩

theorem insert_settled (hash : K → Nat) (m : HashMap K V) (hs : Settled hash m)
    (key : K) (value : V) :
    ∃ b m1, insert hash m key value = .ok (b, m1) ∧ Settled hash m1 := by
  obtain ⟨hst, hload⟩ := hs
  rcases lookup_cases m key with hn | ⟨v, hv⟩
  · obtain ⟨m1, i1, i2, -, i4, i5⟩ := insert_absent hash m hst key value hn
    refine ⟨true, m1, i1, i2, ?_⟩
    have hpos := capacity_pos hst
    have hnn := size_nonneg hst
    rw [i4, i5]
    by_cases hab : aboveHighLoadFactor (m._size + 1) m._capacity = true
    · rw [if_pos hab]; omega
    · rw [if_neg hab]
      have := (aboveHighLoadFactor_iff (m._size + 1) m._capacity (by omega)).not.1 hab
      omega
  · exact ⟨false, m, insert_present hash m hst.capacityPow2 hst.cellsEqCapacity hst.placed
      key value v hv, hst, hload⟩

theorem erase_settled (hash : K → Nat) (m : HashMap K V) (hs : Settled hash m) (key : K) :
    ∃ b m1, erase hash m key = .ok (b, m1) ∧ Settled hash m1 := by
  obtain ⟨hst, hload⟩ := hs
  rcases lookup_cases m key with hn | ⟨v, hv⟩
  · have hck : containsKey hash m key = .ok false := by
      rw [containsKey_eq hst.capacityPow2 hst.cellsEqCapacity hst.placed, hn]; rfl
    exact ⟨false, m, erase_of_not_contains hash m key hck, hst, hload⟩
  · obtain ⟨m1, e1, e2, -, e4, e5⟩ := erase_present hash m hst key v hv (by omega)
    refine ⟨true, m1, e1, e2, ?_⟩
    have hpos := capacity_pos hst
    rw [e4, e5]
    by_cases hb : belowLowerLoadFactor (m._size - 1) m._capacity = true
    · rw [if_pos hb]
      have := (belowLowerLoadFactor_iff (m._size - 1) m._capacity (by omega)).1 hb
      omega
    · rw [if_neg hb]; omega

theorem clear_settled (hash : K → Nat) (m : HashMap K V) (hs : Settled hash m) :
    ∃ m1, clear m = .ok m1 ∧ Settled hash m1 := by
  obtain ⟨m1, c1, c2, c3, c4, -⟩ := clear_spec hash m hs.1
  refine ⟨m1, c1, c2, ?_⟩
  have := capacity_pos hs.1
  rw [c3, c4]; omega

theorem subscript_settled [Inhabited V] (hash : K → Nat) (m : HashMap K V)
    (hs : Settled hash m) (key : K) :
    ∃ v m1, subscript hash m key = .ok (v, m1) ∧ Settled hash m1 := by
  obtain ⟨h1, h2⟩ := subscript_spec hash m hs.1 key
  rcases lookup_cases m key with hn | ⟨v, hv⟩
  · obtain ⟨m1, i1, i2⟩ := h2 hn
    obtain ⟨b, m2, j1, j2⟩ := insert_settled hash m hs key default
    rw [i1] at j1
    simp only [Except.ok.injEq, Prod.mk.injEq] at j1
    rw [← j1.2] at j2
    exact ⟨default, m1, i2, j2⟩
  · exact ⟨v, m, h1 v hv, hs⟩

theorem call_settled [Inhabited V] (hash : K → Nat) (m : HashMap K V)
    (hs : Settled hash m) (c : Call K V) :
    ∃ m1, call hash m c = .ok m1 ∧ Settled hash m1 := by
  cases c with
  | insert key value =>
    obtain ⟨b, m1, h1, h2⟩ := insert_settled hash m hs key value
    exact ⟨m1, by simp only [call, h1], h2⟩
  | erase key =>
    obtain ⟨b, m1, h1, h2⟩ := erase_settled hash m hs key
    exact ⟨m1, by simp only [call, h1], h2⟩
  | clear => exact clear_settled hash m hs
  | subscript key =>
    obtain ⟨v, m1, h1, h2⟩ := subscript_settled hash m hs key
    exact ⟨m1, by simp only [call, h1], h2⟩

theorem calls_settled [Inhabited V] (hash : K → Nat) (cs : List (Call K V)) :
    ∀ (m : HashMap K V), Settled hash m →
    ∃ m1, calls hash cs m = .ok m1 ∧ Settled hash m1 := by
  induction cs with
  | nil => intro m hs; exact ⟨m, rfl, hs⟩
  | cons c cs ih =>
    intro m hs
    obtain ⟨m1, h1, h2⟩ := call_settled hash m hs c
    obtain ⟨m2, h3, h4⟩ := ih m1 h2
    exact ⟨m2, by simp only [calls, h1, h3], h4⟩

theorem loadPairs_settled (hash : K → Nat) (ps : List (K × V)) :
    ∀ (m : HashMap K V), Settled hash m →
    ∃ m1, loadPairs hash ps m = .ok m1 ∧ Settled hash m1 := by
  induction ps with
  | nil => intro m hs; exact ⟨m, rfl, hs⟩
  | cons p ps ih =>
    intro m hs
    obtain ⟨k, v⟩ := p
    rcases lookup_cases m k with hn | ⟨v0, hv⟩
    · have hck : containsKey hash m k = .ok false := by
        rw [containsKey_eq hs.1.capacityPow2 hs.1.cellsEqCapacity hs.1.placed, hn]; rfl
      obtain ⟨b, m1, h1, h2⟩ := insert_settled hash m hs k v
      obtain ⟨m2, h3, h4⟩ := ih m1 h2
      exact ⟨m2, by simp only [loadPairs, hck, h1, h3], h4⟩
    · have hck : containsKey hash m k = .ok true := by
        rw [containsKey_eq hs.1.capacityPow2 hs.1.cellsEqCapacity hs.1.placed, hv]; rfl
      obtain ⟨m1, a1, a2, a3, a4, -⟩ := at_assign_spec hash m hs.1 k v v0 hv
      have hs1 : Settled hash m1 := ⟨a2, by rw [a3, a4]; exact hs.2⟩
      obtain ⟨m2, h3, h4⟩ := ih m1 hs1
      exact ⟨m2, by simp only [loadPairs, hck, a1, h3], h4⟩

theorem build_settled (hash : K → Nat) (s : Start K V) (h : s.accepted) :
    ∃ m0, s.build hash = .ok m0 ∧ Settled hash m0 := by
  cases s with
  | default => exact ⟨ctor, rfl, settled_ctor hash⟩
  | vectors keys values =>
    have hlen : keys.length = values.length := h
    obtain ⟨m1, h1, h2⟩ := loadPairs_settled hash (keys.zip values) ctor (settled_ctor hash)
    refine ⟨m1, ?_, h2⟩
    simp only [Start.build, ctorVectors, hlen, ne_eq, not_true_eq_false, if_false, h1]

/-- Every table built by a constructor and changed by calls is settled, and
no call on the way fails. -/
theorem run_settled [Inhabited V] (hash : K → Nat) (s : Start K V) (h : s.accepted)
    (cs : List (Call K V)) :
    ∃ m0 m, s.build hash = .ok m0 ∧ calls hash cs m0 = .ok m ∧ Settled hash m := by
  obtain ⟨m0, h1, h2⟩ := build_settled hash s h
  obtain ⟨m, h3, h4⟩ := calls_settled hash cs m0 h2
  exact ⟨m0, m, h1, h3, h4⟩

/-! ## C1: the load factor bound -/

theorem update_settled (hash : K → Nat) (m : HashMap K V) (hs : Settled hash m)
    (u : Update K V) : ∃ m1, update hash m u = .ok m1 ∧ Settled hash m1 := by
  cases u with
  | insert key value =>
    obtain ⟨b, m1, h1, h2⟩ := insert_settled hash m hs key value
    exact ⟨m1, by simp only [update, h1], h2⟩
  | erase key =>
    obtain ⟨b, m1, h1, h2⟩ := erase_settled hash m hs key
    exact ⟨m1, by simp only [update, h1], h2⟩

theorem updates_settled (hash : K → Nat) (us : List (Update K V)) :
    ∀ (m : HashMap K V), Settled hash m →
    ∃ m1, updates hash us m = .ok m1 ∧ Settled hash m1 := by
  induction us with
  | nil => intro m hs; exact ⟨m, rfl, hs⟩
  | cons u us ih =>
    intro m hs
    obtain ⟨m1, h1, h2⟩ := update_settled hash m hs u
    obtain ⟨m2, h3, h4⟩ := ih m1 h2
    exact ⟨m2, by simp only [updates, h1, h3], h4⟩

theorem loadFactorAtMostHigh_of_settled {hash : K → Nat} {m : HashMap K V}
    (hs : Settled hash m) : LoadFactorAtMostHigh m := by
  have hpos := capacity_pos hs.1
  have hq : (0 : ℚ) < (m._capacity : ℚ) := by exact_mod_cast (by omega : (0 : Int) < m._capacity)
  unfold LoadFactorAtMostHigh size capacity
  rw [div_le_iff₀ hq]
  have h := hs.2
  have : ((4 * m._size : Int) : ℚ) ≤ ((3 * m._capacity : Int) : ℚ) := by exact_mod_cast h
  push_cast at this
  linarith

/-- C1, counterexample: after the single call `insert(0, 0)` on a
default-constructed table the capacity is 16 and the size is 1, so the load
factor `1/16` is below `0.25` although the capacity is not 1. -/
theorem loadFactorBound_counterexample :
    ∃ m : HashMap Nat Nat,
      updates (fun k => k) [Update.insert 0 0] ctor = .ok m ∧
      m.capacity = 16 ∧ m.size = 1 ∧ ¬ LoadFactorBound m := by
  refine ⟨⟨1, 16, [(0, 0)] :: List.replicate 15 []⟩, rfl, rfl, rfl, ?_⟩
  unfold LoadFactorBound size capacity
  norm_num

/-- C1, amended: for every table obtained from a default-constructed table
by a finite sequence of `insert` and `erase` calls, no call fails, and after
each call the capacity is at least 1 and `size / capacity ≤ 0.75` as exact
fractions.  (The lower bound `0.25` is not kept.) -/
theorem loadFactor_upper_bound (hash : K → Nat) (us : List (Update K V)) :
    ∃ m : HashMap K V, updates hash us ctor = .ok m ∧
      1 ≤ m.capacity ∧ LoadFactorAtMostHigh m := by
  obtain ⟨m, h1, h2⟩ := updates_settled hash us ctor (settled_ctor hash)
  exact ⟨m, h1, capacity_pos h2.1, loadFactorAtMostHigh_of_settled h2⟩

/-! ## C2 to C5: invariants of the tables that calls produce -/

theorem filter_key_length_le_one (key : K) :
    ∀ (l : List (K × V)), (l.map Prod.fst).Nodup →
    (l.filter (fun p => decide (p.1 = key))).length ≤ 1 := by
  intro l
  induction l with
  | nil => intro _; simp
  | cons p l ih =>
    intro hnd
    rw [List.map_cons, List.nodup_cons] at hnd
    by_cases hk : p.1 = key
    · have hnone : l.filter (fun p => decide (p.1 = key)) = [] := by
        rw [List.filter_eq_nil_iff]
        intro q hq hqk
        apply hnd.1
        have : q.1 = key := by simpa using hqk
        rw [hk, ← this]
        exact List.mem_map_of_mem _ hq
      rw [List.filter_cons_of_pos (by simpa using hk), hnone]
      simp
    · rw [List.filter_cons_of_neg (by simpa using hk)]
      exact ih hnd.2

/-- C2: for every table obtained from the default constructor or from the
constructor from two vectors of the same length by a finite sequence of
`insert`, `erase`, `clear` and `operator[]` calls, no call fails and `size()`
is the number of pairs summed over all cells of the array. -/
theorem size_eq_sum_of_chain_lengths [Inhabited V] (hash : K → Nat) (s : Start K V)
    (h : s.accepted) (cs : List (Call K V)) :
    ∃ m0 m, s.build hash = .ok m0 ∧ calls hash cs m0 = .ok m ∧
      m.size = ((m._listArr.map List.length).sum : Nat) := by
  obtain ⟨m0, m, h1, h2, h3⟩ := run_settled hash s h cs
  refine ⟨m0, m, h1, h2, ?_⟩
  have := h3.1.sizeEqCount
  unfold SizeEqCount entries at this
  rw [List.length_flatten] at this
  exact this

/-- C2, witness: construction from the vectors `[1, 2, 1]` and `[10, 20, 30]`
followed by four calls. -/
theorem size_eq_sum_of_chain_lengths_witness :
    (Start.vectors [1, 2, 1] [10, 20, 30] : Start Nat Nat).accepted ∧
    ∃ m0 m, (Start.vectors [1, 2, 1] [10, 20, 30] : Start Nat Nat).build (fun k => k) = .ok m0 ∧
      calls (fun k => k) [Call.insert 5 50, Call.erase 2, Call.subscript 7, Call.clear] m0
        = .ok m ∧
      m.size = ((m._listArr.map List.length).sum : Nat) :=
  ⟨rfl, size_eq_sum_of_chain_lengths (fun k => k) (Start.vectors [1, 2, 1] [10, 20, 30]) rfl
    [Call.insert 5 50, Call.erase 2, Call.subscript 7, Call.clear]⟩

/-- C3: for every table obtained from the default constructor or from the
constructor from two vectors of the same length by a finite sequence of
`insert`, `erase`, `clear` and `operator[]` calls, no call fails and for
every key at most one pair with that key is stored in the whole array. -/
theorem at_most_one_pair_per_key [Inhabited V] (hash : K → Nat) (s : Start K V)
    (h : s.accepted) (cs : List (Call K V)) :
    ∃ m0 m, s.build hash = .ok m0 ∧ calls hash cs m0 = .ok m ∧
      ∀ key : K, (m._listArr.flatten.filter (fun p => decide (p.1 = key))).length ≤ 1 := by
  obtain ⟨m0, m, h1, h2, h3⟩ := run_settled hash s h cs
  exact ⟨m0, m, h1, h2, fun key => filter_key_length_le_one key _ h3.1.uniqueKeys⟩

/-- C3, witness: the default constructor followed by calls that insert the
key 1 twice and grow the table. -/
theorem at_most_one_pair_per_key_witness :
    (Start.default : Start Nat Nat).accepted ∧
    ∃ m0 m, (Start.default : Start Nat Nat).build (fun k => k) = .ok m0 ∧
      calls (fun k => k) [Call.insert 1 10, Call.insert 1 11, Call.subscript 1,
        Call.insert 17 170] m0 = .ok m ∧
      ∀ key : Nat, (m._listArr.flatten.filter (fun p => decide (p.1 = key))).length ≤ 1 :=
  ⟨trivial, at_most_one_pair_per_key (fun k => k) Start.default trivial
    [Call.insert 1 10, Call.insert 1 11, Call.subscript 1, Call.insert 17 170]⟩

/-- C4: for every table obtained from the default constructor or from the
constructor from two vectors of the same length by a finite sequence of
`insert`, `erase`, `clear` and `operator[]` calls, no call fails and every
stored pair lies in the cell `hash(key) & (capacity - 1)` for the current
capacity. -/
theorem pairs_lie_in_their_cell [Inhabited V] (hash : K → Nat) (s : Start K V)
    (h : s.accepted) (cs : List (Call K V)) :
    ∃ m0 m, s.build hash = .ok m0 ∧ calls hash cs m0 = .ok m ∧
      ∀ (i : Nat) (b : List (K × V)), m._listArr[i]? = some b → ∀ p ∈ b,
        (i : Int) = Int.land (hash p.1) (m.capacity - 1) := by
  obtain ⟨m0, m, h1, h2, h3⟩ := run_settled hash s h cs
  refine ⟨m0, m, h1, h2, ?_⟩
  intro i b hb p hp
  exact (h3.1.placed i b hb p hp).symm

/-- C4, witness: construction from two vectors followed by an erase that
shrinks the table. -/
theorem pairs_lie_in_their_cell_witness :
    (Start.vectors [3, 19] [30, 190] : Start Nat Nat).accepted ∧
    ∃ m0 m, (Start.vectors [3, 19] [30, 190] : Start Nat Nat).build (fun k => k) = .ok m0 ∧
      calls (fun k => k) [Call.erase 3] m0 = .ok m ∧
      ∀ (i : Nat) (b : List (Nat × Nat)), m._listArr[i]? = some b → ∀ p ∈ b,
        (i : Int) = Int.land ((fun k => k) p.1) (m.capacity - 1) :=
  ⟨rfl, pairs_lie_in_their_cell (fun k => k) (Start.vectors [3, 19] [30, 190]) rfl
    [Call.erase 3]⟩

/-- C5: for every table obtained from the default constructor or from the
constructor from two vectors of the same length by a finite sequence of
`insert`, `erase`, `clear` and `operator[]` calls, no call fails and
`capacity()` is a power of two and at least 1. -/
theorem capacity_power_of_two [Inhabited V] (hash : K → Nat) (s : Start K V)
    (h : s.accepted) (cs : List (Call K V)) :
    ∃ m0 m, s.build hash = .ok m0 ∧ calls hash cs m0 = .ok m ∧
      (∃ n : Nat, m.capacity = 2 ^ n) ∧ 1 ≤ m.capacity := by
  obtain ⟨m0, m, h1, h2, h3⟩ := run_settled hash s h cs
  exact ⟨m0, m, h1, h2, h3.1.capacityPow2, capacity_pos h3.1⟩

/-- C5, witness: one insert and one erase, repeated until the capacity of a
default table has gone down from 16 to 1, and one more erase. -/
theorem capacity_power_of_two_witness :
    (Start.default : Start Nat Nat).accepted ∧
    ∃ m0 m, (Start.default : Start Nat Nat).build (fun k => k) = .ok m0 ∧
      calls (fun k => k) [Call.insert 1 1, Call.erase 1, Call.insert 1 1, Call.erase 1,
        Call.insert 1 1, Call.erase 1, Call.insert 1 1, Call.erase 1, Call.erase 1] m0
        = .ok m ∧
      (∃ n : Nat, m.capacity = 2 ^ n) ∧ 1 ≤ m.capacity :=
  ⟨trivial, capacity_power_of_two (fun k => k) Start.default trivial
    [Call.insert 1 1, Call.erase 1, Call.insert 1 1, Call.erase 1,
      Call.insert 1 1, Call.erase 1, Call.insert 1 1, Call.erase 1, Call.erase 1]⟩

/-! ## C6 and C7: insert -/

theorem structural_of_check (hash : K → Nat) (m : HashMap K V)
    (h : structuralCheck hash m = true) : Structural hash m := by
  unfold structuralCheck at h
  simp only [Bool.and_eq_true, List.any_eq_true, List.all_eq_true, decide_eq_true_eq,
    List.mem_range] at h
  obtain ⟨⟨⟨⟨⟨n, -, hn⟩, h2⟩, h3⟩, h4⟩, h5⟩ := h
  refine ⟨⟨n, hn⟩, h2, h3, ?_, h5⟩
  intro i b hb p hp
  have hi : i < m._listArr.length := by
    by_contra hge
    rw [List.getElem?_eq_none (by omega)] at hb
    simp at hb
  have hget : m._listArr.getD i [] = b := by
    rw [getD_get _ _ hi]
    rw [List.getElem?_eq_getElem hi] at hb
    simpa using hb
  exact h4 i hi p (by rw [hget]; exact hp)

theorem lookup_congr {m m1 : HashMap K V} (hu : UniqueKeys m) (hu1 : UniqueKeys m1) (k : K)
    (h : ∀ v, (k, v) ∈ m1.entries ↔ (k, v) ∈ m.entries) : m1.lookup k = m.lookup k := by
  apply Option.ext
  intro v
  rw [Option.mem_def, Option.mem_def, lookup_eq_some_iff hu1, lookup_eq_some_iff hu, h v]

theorem lookup_none_of_containsKey {hash : K → Nat} {m : HashMap K V} (hs : Structural hash m)
    {key : K} (h : containsKey hash m key = .ok false) : m.lookup key = none := by
  rw [containsKey_eq hs.capacityPow2 hs.cellsEqCapacity hs.placed] at h
  simp only [Except.ok.injEq] at h
  cases hl : m.lookup key with
  | none => rfl
  | some v => rw [hl] at h; simp at h

theorem lookup_some_of_containsKey {hash : K → Nat} {m : HashMap K V} (hs : Structural hash m)
    {key : K} (h : containsKey hash m key = .ok true) : ∃ v, m.lookup key = some v := by
  rw [containsKey_eq hs.capacityPow2 hs.cellsEqCapacity hs.placed] at h
  simp only [Except.ok.injEq] at h
  cases hl : m.lookup key with
  | none => rw [hl] at h; simp at h
  | some v => exact ⟨v, rfl⟩

/-- What `containsKey` and `at` answer is fixed by `lookup`. -/
theorem queries_congr {hash : K → Nat} {m m1 : HashMap K V} (hs : Structural hash m)
    (hs1 : Structural hash m1) (k : K) (h : m1.lookup k = m.lookup k) :
    containsKey hash m1 k = containsKey hash m k ∧ at_ hash m1 k = at_ hash m k := by
  rw [containsKey_eq hs.capacityPow2 hs.cellsEqCapacity hs.placed,
    containsKey_eq hs1.capacityPow2 hs1.cellsEqCapacity hs1.placed,
    at_eq hs.capacityPow2 hs.cellsEqCapacity hs.placed,
    at_eq hs1.capacityPow2 hs1.cellsEqCapacity hs1.placed, h]
  exact ⟨rfl, rfl⟩

/-- C6: on a table with the structural invariants, `insert(key, value)` of a
key for which `containsKey` is false returns true, adds one to `size()`,
makes `containsKey(key)` true and `at(key) == value`, and leaves the answers
of `containsKey` and `at` for every other key as they were, whether or not
the table grows. -/
theorem insert_new_key (hash : K → Nat) (m : HashMap K V) (hs : Structural hash m)
    (key : K) (value : V) (habs : containsKey hash m key = .ok false) :
    ∃ m1, insert hash m key value = .ok (true, m1) ∧ m1.size = m.size + 1 ∧
      containsKey hash m1 key = .ok true ∧ at_ hash m1 key = .ok value ∧
      (∀ k, k ≠ key →
        containsKey hash m1 k = containsKey hash m k ∧ at_ hash m1 k = at_ hash m k) ∧
      Structural hash m1 := by
  have hnone := lookup_none_of_containsKey hs habs
  obtain ⟨m1, i1, i2, i3, i4, -⟩ := insert_absent hash m hs key value hnone
  have hl : m1.lookup key = some value := by
    rw [lookup_eq_some_iff i2.uniqueKeys]
    exact i3.symm.subset (by simp)
  refine ⟨m1, i1, i4, ?_, ?_, ?_, i2⟩
  · rw [containsKey_eq i2.capacityPow2 i2.cellsEqCapacity i2.placed, hl]; rfl
  · rw [at_eq i2.capacityPow2 i2.cellsEqCapacity i2.placed, hl]
  · intro k hk
    apply queries_congr hs i2
    apply lookup_congr hs.uniqueKeys i2.uniqueKeys
    intro v
    rw [i3.mem_iff]
    simp only [List.mem_append, List.mem_singleton, Prod.mk.injEq]
    constructor
    · rintro (h | h)
      · exact h
      · exact absurd h.1 hk
    · intro h; exact Or.inl h

/-- C6, witness: the thirteenth insert into a table of capacity 16, which
grows the table. -/
theorem insert_new_key_witness :
    containsKey (fun k => k)
      (⟨12, 16, (List.range 12).map (fun k => [(k, k)]) ++ List.replicate 4 []⟩ : HashMap Nat Nat)
      28 = .ok false ∧
    ∃ m1, insert (fun k => k)
        (⟨12, 16, (List.range 12).map (fun k => [(k, k)]) ++ List.replicate 4 []⟩ : HashMap Nat Nat)
        28 7 = .ok (true, m1) ∧
      m1.size = (12 : Int) + 1 ∧
      containsKey (fun k => k) m1 28 = .ok true ∧ at_ (fun k => k) m1 28 = .ok 7 ∧
      (∀ k, k ≠ 28 →
        containsKey (fun k => k) m1 k = containsKey (fun k => k)
          (⟨12, 16, (List.range 12).map (fun k => [(k, k)]) ++ List.replicate 4 []⟩ :
            HashMap Nat Nat) k ∧
        at_ (fun k => k) m1 k = at_ (fun k => k)
          (⟨12, 16, (List.range 12).map (fun k => [(k, k)]) ++ List.replicate 4 []⟩ :
            HashMap Nat Nat) k) ∧
      Structural (fun k => k) m1 :=
  ⟨rfl, insert_new_key (fun k => k) _ (structural_of_check _ _ (by decide)) 28 7 rfl⟩

/-- C7: on a table with the structural invariants, `insert(key, value)` of a
key for which `containsKey` is true returns false and leaves the whole table
(size, capacity and every chain) as it was; and `insert` returns true exactly
when `containsKey` was false. -/
theorem insert_existing_key (hash : K → Nat) (m : HashMap K V) (hs : Structural hash m)
    (key : K) (value : V) :
    (containsKey hash m key = .ok true → insert hash m key value = .ok (false, m)) ∧
    ∃ b m1, insert hash m key value = .ok (b, m1) ∧
      (b = true ↔ containsKey hash m key = .ok false) := by
  constructor
  · intro h
    simp only [insert, h]
  · rcases lookup_cases m key with hn | ⟨v, hv⟩
    · obtain ⟨m1, i1, -⟩ := insert_absent hash m hs key value hn
      refine ⟨true, m1, i1, ?_⟩
      rw [containsKey_eq hs.capacityPow2 hs.cellsEqCapacity hs.placed, hn]
      simp
    · refine ⟨false, m, insert_present hash m hs.capacityPow2 hs.cellsEqCapacity hs.placed
        key value v hv, ?_⟩
      rw [containsKey_eq hs.capacityPow2 hs.cellsEqCapacity hs.placed, hv]
      simp

/-- C7, witness: a second insert of the key 5 with another value. -/
theorem insert_existing_key_witness :
    Structural (fun k => k) (⟨1, 2, [[], [(5, 50)]]⟩ : HashMap Nat Nat) ∧
    (containsKey (fun k => k) (⟨1, 2, [[], [(5, 50)]]⟩ : HashMap Nat Nat) 5 = .ok true →
      insert (fun k => k) (⟨1, 2, [[], [(5, 50)]]⟩ : HashMap Nat Nat) 5 99
        = .ok (false, ⟨1, 2, [[], [(5, 50)]]⟩)) ∧
    ∃ b m1, insert (fun k => k) (⟨1, 2, [[], [(5, 50)]]⟩ : HashMap Nat Nat) 5 99 = .ok (b, m1) ∧
      (b = true ↔
        containsKey (fun k => k) (⟨1, 2, [[], [(5, 50)]]⟩ : HashMap Nat Nat) 5 = .ok false) :=
  have hs : Structural (fun k => k) (⟨1, 2, [[], [(5, 50)]]⟩ : HashMap Nat Nat) :=
    structural_of_check _ _ (by decide)
  ⟨hs, insert_existing_key (fun k => k) _ hs 5 99⟩

/-! ## C8 and C9: erase -/

/-- On a table of one cell that holds one pair, `erase` of that pair's key
passes the guard `_capacity >= MIN_CAPACITY_SIZE` of `_checkIfDecrease` and
resizes the table to capacity 0. -/
theorem erase_single_cell (hash : K → Nat) (m : HashMap K V) (hs : Structural hash m)
    (key : K) (v : V) (hpres : m.lookup key = some v)
    (hc : m._capacity = 1) (hz : m._size = 1) :
    erase hash m key = .ok (true, ⟨0, 0, []⟩) := by
  obtain ⟨j, hj, p, hcell, hfind, -, hset, hs1, hperm⟩ := erase_cell_spec hash m hs key v hpres
  have hck : containsKey hash m key = .ok true := by
    rw [containsKey_eq hs.capacityPow2 hs.cellsEqCapacity hs.placed, hpres]; rfl
  have hempty : m.empty = false := by
    unfold empty DEFAULT_SIZE
    simp only [decide_eq_false_iff_not]
    omega
  have hlen1 := hs1.cellsEqCapacity
  have hsz1 := hs1.sizeEqCount
  unfold CellsEqCapacity at hlen1
  unfold SizeEqCount entries at hsz1
  simp only at hlen1 hsz1
  have harr : m._listArr.set j ((m._listArr.get ⟨j, hj⟩).eraseP (fun it => decide (it.1 = key)))
      = [[]] := by
    generalize m._listArr.set j ((m._listArr.get ⟨j, hj⟩).eraseP
      (fun it => decide (it.1 = key))) = arr at hlen1 hsz1
    rw [hc] at hlen1
    rw [hz] at hsz1
    match arr, hlen1, hsz1 with
    | [b], _, h2 =>
      have : b.length = 0 := by
        simp only [List.flatten_cons, List.flatten_nil, List.append_nil] at h2
        omega
      rw [List.length_eq_zero.1 this]
    | [], h1, _ => simp at h1
    | _ :: _ :: _, h1, _ => simp at h1; omega
  simp only [erase, hempty, hck, hcell, hfind, hset, harr, hc, hz]
  rfl

/-- The tables that the constructors and the public calls leave, with
`4 * size ≤ 3 * capacity`, are covered by the amended erase claim: the
exclusion of a single cell holding a single pair holds for them. -/
theorem erase_on_settled_table (hash : K → Nat) (m : HashMap K V) (hs : Settled hash m)
    (key : K) (hpres : containsKey hash m key = .ok true) :
    ¬ (m.capacity = 1 ∧ m.size = 1) ∧
    ∃ m1, erase hash m key = .ok (true, m1) ∧ m1.size = m.size - 1 ∧
      Settled hash m1 := by
  have hne : ¬ (m.capacity = 1 ∧ m.size = 1) := by
    have := hs.2
    unfold capacity size
    omega
  obtain ⟨v, hv⟩ := lookup_some_of_containsKey hs.1 hpres
  obtain ⟨m1, e1, -, -, e4, -⟩ := erase_present hash m hs.1 key v hv hne
  obtain ⟨b, m2, f1, f2⟩ := erase_settled hash m hs key
  rw [e1] at f1
  simp only [Except.ok.injEq, Prod.mk.injEq] at f1
  rw [← f1.2] at f2
  exact ⟨hne, m1, e1, e4, f2⟩

theorem containsKey_of_not_mem (hash : K → Nat) (m : HashMap K V) (hcap : CapacityPow2 m)
    (hcells : CellsEqCapacity m) (key : K) (h : key ∉ m.entries.map Prod.fst) :
    containsKey hash m key = .ok false := by
  obtain ⟨c, hc, hc1⟩ := capacity_natCast hcap
  obtain ⟨j, hj, -, -, hcell⟩ := hashCode_cell hash hc hc1 hcells key
  unfold containsKey
  rw [hcell]
  simp only
  split
  · rfl
  · congr 1
    rw [Bool.eq_false_iff]
    intro hany
    rw [List.any_eq_true] at hany
    obtain ⟨p, hp, hpk⟩ := hany
    apply h
    have hk : p.1 = key := by simpa using hpk
    rw [← hk]
    apply List.mem_map_of_mem
    unfold entries
    rw [List.mem_flatten]
    exact ⟨_, List.get_mem _ _ _, hp⟩

/-- C9: `erase(key)` on an empty table, or of a key for which `containsKey`
is false, returns false and gives back the table as it was (size, capacity
and every chain); `containsKey` is false for every key that is stored in no
chain of a table whose array has `_capacity` cells, the capacity being a power
of two; and on a table with the structural invariants a second `erase` of the
same key right after the first returns false and changes nothing. -/
theorem erase_absent_key (hash : K → Nat) (m : HashMap K V) (key : K) :
    (m.size = 0 ∨ containsKey hash m key = .ok false → erase hash m key = .ok (false, m)) ∧
    (CapacityPow2 m → CellsEqCapacity m → key ∉ m.entries.map Prod.fst →
      containsKey hash m key = .ok false) ∧
    (Structural hash m → ∃ b m1, erase hash m key = .ok (b, m1) ∧
      erase hash m1 key = .ok (false, m1)) := by
  refine ⟨?_, ?_, ?_⟩
  · rintro (h | h)
    · exact erase_of_empty hash m key h
    · exact erase_of_not_contains hash m key h
  · intro hcap hcells h
    exact containsKey_of_not_mem hash m hcap hcells key h
  · intro hs
    rcases lookup_cases m key with hn | ⟨v, hv⟩
    · have hck : containsKey hash m key = .ok false := by
        rw [containsKey_eq hs.capacityPow2 hs.cellsEqCapacity hs.placed, hn]; rfl
      exact ⟨false, m, erase_of_not_contains hash m key hck,
        erase_of_not_contains hash m key hck⟩
    · by_cases hne : m._capacity = 1 ∧ m._size = 1
      · refine ⟨true, ⟨0, 0, []⟩, erase_single_cell hash m hs key v hv hne.1 hne.2, ?_⟩
        exact erase_of_empty hash _ key rfl
      · obtain ⟨m1, e1, e2, e3, -, -⟩ := erase_present hash m hs key v hv hne
        refine ⟨true, m1, e1, ?_⟩
        apply erase_of_not_contains
        apply containsKey_of_not_mem hash m1 e2.capacityPow2 e2.cellsEqCapacity
        have hnd := (e3.map Prod.fst).nodup_iff.1 hs.uniqueKeys
        simp only [List.map_cons, List.nodup_cons] at hnd
        exact hnd.1

/-- C9, witness: the key 9 is not stored in a table that holds the keys 1 and
5 in one chain. -/
theorem erase_absent_key_witness :
    erase (fun k => k) (⟨2, 4, [[], [(1, 10), (5, 50)], [], []]⟩ : HashMap Nat Nat) 9
      = .ok (false, ⟨2, 4, [[], [(1, 10), (5, 50)], [], []]⟩) ∧
    containsKey (fun k => k) (⟨2, 4, [[], [(1, 10), (5, 50)], [], []]⟩ : HashMap Nat Nat) 9
      = .ok false ∧
    ∃ b m1, erase (fun k => k) (⟨2, 4, [[], [(1, 10), (5, 50)], [], []]⟩ : HashMap Nat Nat) 9
      = .ok (b, m1) ∧ erase (fun k => k) m1 9 = .ok (false, m1) :=
  ⟨(erase_absent_key (fun k => k) _ 9).1 (Or.inr rfl),
    (erase_absent_key (fun k => k) _ 9).2.1 ⟨2, rfl⟩ rfl (by decide),
    (erase_absent_key (fun k => k) _ 9).2.2 (structural_of_check _ _ (by decide))⟩

/-! ## C10: strict lookup -/

/-- C10: on a table with the structural invariants, `at(key)` fails exactly
when `containsKey(key)` is false, the failure being the exception that `at`
throws; it returns `v` exactly when `(key, v)` is a stored pair, and there is
at most one stored pair with the key.  (The call has no effect on the table:
in the embedding `at` is a function of the table that returns only the
value.) -/
theorem at_strict_lookup (hash : K → Nat) (m : HashMap K V) (hs : Structural hash m)
    (key : K) :
    ((∃ e, at_ hash m key = .error e) ↔ containsKey hash m key = .ok false) ∧
    (containsKey hash m key = .ok false → at_ hash m key = .error .invalid_argument) ∧
    (∀ v, at_ hash m key = .ok v ↔ (key, v) ∈ m._listArr.flatten) ∧
    (m._listArr.flatten.filter (fun p => decide (p.1 = key))).length ≤ 1 := by
  have hck := containsKey_eq hs.capacityPow2 hs.cellsEqCapacity hs.placed key
  have hat := at_eq hs.capacityPow2 hs.cellsEqCapacity hs.placed key
  refine ⟨?_, ?_, ?_, filter_key_length_le_one key _ hs.uniqueKeys⟩
  · rw [hck, hat]
    cases m.lookup key with
    | none => simp
    | some v => simp
  · rw [hck, hat]
    cases m.lookup key with
    | none => simp
    | some v => simp
  · intro v
    rw [hat]
    have := lookup_eq_some_iff hs.uniqueKeys key v
    unfold entries at this
    rw [← this]
    cases m.lookup key with
    | none => simp
    | some w => simp

/-- C10, witness: lookups of a stored and of an absent key in a table whose
two pairs share a chain. -/
theorem at_strict_lookup_witness :
    Structural (fun k => k) (⟨2, 4, [[], [(1, 10), (5, 50)], [], []]⟩ : HashMap Nat Nat) ∧
    at_ (fun k => k) (⟨2, 4, [[], [(1, 10), (5, 50)], [], []]⟩ : HashMap Nat Nat) 5 = .ok 50 ∧
    at_ (fun k => k) (⟨2, 4, [[], [(1, 10), (5, 50)], [], []]⟩ : HashMap Nat Nat) 9
      = .error .invalid_argument :=
  have hs : Structural (fun k => k)
      (⟨2, 4, [[], [(1, 10), (5, 50)], [], []]⟩ : HashMap Nat Nat) :=
    structural_of_check _ _ (by decide)
  ⟨hs, ((at_strict_lookup (fun k => k) _ hs 5).2.2.1 50).2 (by decide),
    (at_strict_lookup (fun k => k) _ hs 9).2.1 rfl⟩

/-! ## C11 and C12: error kinds and the diagnostic queries -/

theorem ctorVectors_of_length_ne (hash : K → Nat) (keys : List K) (values : List V)
    (h : keys.length ≠ values.length) :
    ctorVectors hash keys values = .error .invalid_argument := by
  simp only [ctorVectors, h, ne_eq, not_false_eq_true, if_true]

theorem ctorVectors_of_length_eq (hash : K → Nat) (keys : List K) (values : List V)
    (h : keys.length = values.length) :
    ∃ m, ctorVectors hash keys values = .ok m ∧ Settled hash m := by
  obtain ⟨m1, h1, h2⟩ := loadPairs_settled hash (keys.zip values) ctor (settled_ctor hash)
  refine ⟨m1, ?_, h2⟩
  simp only [ctorVectors, h, ne_eq, not_true_eq_false, if_false, h1]

/-- C11, counterexample: on a default-constructed table `at(0)` fails with
`std::invalid_argument` while `bucketIndex(0)` and `bucketSize(0)` fail with
`std::out_of_range`, and the constructor from the vectors `[1]` and `[]` fails
with `std::invalid_argument`: the error of `at` is not of the kind of the
diagnostic queries, and it is of the kind of the constructor. -/
theorem error_kinds_counterexample :
    ∃ e1 e2 e3 e4 : Exn,
      at_ (fun k => k) (ctor : HashMap Nat Nat) 0 = .error e1 ∧
      bucketIndex (fun k => k) (ctor : HashMap Nat Nat) 0 = .error e2 ∧
      bucketSize (fun k => k) (ctor : HashMap Nat Nat) 0 = .error e3 ∧
      ctorVectors (fun k => k) [1] ([] : List Nat) = .error e4 ∧
      ¬ (e1 = e2 ∧ e1 = e3 ∧ e1 ≠ e4) :=
  ⟨.invalid_argument, .out_of_range, .out_of_range, .invalid_argument, rfl, rfl, rfl, rfl,
    by decide⟩

/-- C11, amended: on a table with the structural invariants and for a key for
which `containsKey` is false, `at` fails with `std::invalid_argument`, which
is also the kind of error of the constructor from two vectors of different
lengths, while `bucketIndex` and `bucketSize` fail with `std::out_of_range`,
a different kind. -/
theorem error_kinds (hash : K → Nat) (m : HashMap K V) (hs : Structural hash m) (key : K)
    (habs : containsKey hash m key = .ok false)
    (keys : List K) (values : List V) (hlen : keys.length ≠ values.length) :
    at_ hash m key = .error .invalid_argument ∧
    bucketIndex hash m key = .error .out_of_range ∧
    bucketSize hash m key = .error .out_of_range ∧
    ctorVectors hash keys values = .error .invalid_argument ∧
    Exn.invalid_argument ≠ Exn.out_of_range := by
  refine ⟨?_, ?_, ?_, ctorVectors_of_length_ne hash keys values hlen, by decide⟩
  · rw [at_eq hs.capacityPow2 hs.cellsEqCapacity hs.placed,
      lookup_none_of_containsKey hs habs]
  · simp only [bucketIndex, habs]
  · simp only [bucketSize, habs]

/-- C11, amended, witness: the key 9 in a table that holds the keys 1 and 5,
and the vectors `[1, 2]` and `[10]`. -/
theorem error_kinds_witness :
    at_ (fun k => k) (⟨2, 4, [[], [(1, 10), (5, 50)], [], []]⟩ : HashMap Nat Nat) 9
      = .error .invalid_argument ∧
    bucketIndex (fun k => k) (⟨2, 4, [[], [(1, 10), (5, 50)], [], []]⟩ : HashMap Nat Nat) 9
      = .error .out_of_range ∧
    bucketSize (fun k => k) (⟨2, 4, [[], [(1, 10), (5, 50)], [], []]⟩ : HashMap Nat Nat) 9
      = .error .out_of_range ∧
    ctorVectors (fun k => k) [1, 2] [10] = .error .invalid_argument ∧
    Exn.invalid_argument ≠ Exn.out_of_range :=
  error_kinds (fun k => k) (⟨2, 4, [[], [(1, 10), (5, 50)], [], []]⟩ : HashMap Nat Nat)
    (structural_of_check _ _ (by decide)) 9 (by rfl) [1, 2] [10] (by decide)

/-- C12: on a table with the structural invariants, `bucketIndex(key)` and
`bucketSize(key)` fail exactly when `containsKey(key)` is false, whatever the
chain of the key's cell holds; when `containsKey(key)` is true,
`bucketIndex(key)` is `hash(key) & (capacity - 1)`, which lies in
`[0, capacity)`, and `bucketSize(key)` is the length of the chain in that
cell, which is at least 1. -/
theorem diagnostic_queries (hash : K → Nat) (m : HashMap K V) (hs : Structural hash m)
    (key : K) :
    ((∃ e, bucketIndex hash m key = .error e) ↔ containsKey hash m key = .ok false) ∧
    ((∃ e, bucketSize hash m key = .error e) ↔ containsKey hash m key = .ok false) ∧
    (containsKey hash m key = .ok true →
      ∃ (j : Nat) (b : List (K × V)),
        bucketIndex hash m key = .ok (j : Int) ∧
        (j : Int) = Int.land (hash key) (m.capacity - 1) ∧ (j : Int) < m.capacity ∧
        m._listArr[j]? = some b ∧ bucketSize hash m key = .ok (b.length : Int) ∧
        1 ≤ b.length) := by
  obtain ⟨c, hc, hc1⟩ := capacity_natCast hs.capacityPow2
  obtain ⟨j, hj, hcode, hjeq, hcell⟩ := hashCode_cell hash hc hc1 hs.cellsEqCapacity key
  have hck := containsKey_eq hs.capacityPow2 hs.cellsEqCapacity hs.placed key
  have hfind := find?_cell_eq hs.placed key j hj hcode
  rcases lookup_cases m key with hn | ⟨v, hv⟩
  · have hfalse : containsKey hash m key = .ok false := by rw [hck, hn]; rfl
    refine ⟨?_, ?_, ?_⟩
    · simp only [bucketIndex, hfalse]
      simp
    · simp only [bucketSize, hfalse]
      simp
    · intro h; rw [hfalse] at h; cases h
  · have htrue : containsKey hash m key = .ok true := by rw [hck, hv]; rfl
    have hidx : bucketIndex hash m key = .ok (j : Int) := by
      simp only [bucketIndex, htrue, hcode]
    have hsize : bucketSize hash m key = .ok ((m._listArr.get ⟨j, hj⟩).length : Int) := by
      simp only [bucketSize, htrue, hidx]
      rw [← hcode, hcell]
    refine ⟨?_, ?_, ?_⟩
    · rw [hidx, htrue]
      simp
    · rw [hsize, htrue]
      simp
    · intro _
      refine ⟨j, m._listArr.get ⟨j, hj⟩, hidx, ?_, ?_, List.getElem?_eq_getElem hj, hsize, ?_⟩
      · rw [← hcode]; rfl
      · have := hs.cellsEqCapacity
        unfold CellsEqCapacity at this
        unfold capacity
        omega
      · unfold lookup at hv
        rw [hfind] at hv
        cases hf : (m._listArr.get ⟨j, hj⟩).find? (fun it => decide (it.1 = key)) with
        | none => rw [hf] at hv; simp at hv
        | some q =>
          have := List.mem_of_find?_eq_some hf
          exact List.length_pos.2 (List.ne_nil_of_mem this)

/-- C12, witness: the keys 5 (stored) and 9 (absent) share the cell 1 of a
table of capacity 4, whose chain holds two pairs. -/
theorem diagnostic_queries_witness :
    Structural (fun k => k) (⟨2, 4, [[], [(1, 10), (5, 50)], [], []]⟩ : HashMap Nat Nat) ∧
    bucketIndex (fun k => k) (⟨2, 4, [[], [(1, 10), (5, 50)], [], []]⟩ : HashMap Nat Nat) 5
      = .ok 1 ∧
    bucketSize (fun k => k) (⟨2, 4, [[], [(1, 10), (5, 50)], [], []]⟩ : HashMap Nat Nat) 5
      = .ok 2 ∧
    ((∃ e, bucketSize (fun k => k)
        (⟨2, 4, [[], [(1, 10), (5, 50)], [], []]⟩ : HashMap Nat Nat) 9 = .error e) ↔
      containsKey (fun k => k)
        (⟨2, 4, [[], [(1, 10), (5, 50)], [], []]⟩ : HashMap Nat Nat) 9 = .ok false) :=
  have hs : Structural (fun k => k)
      (⟨2, 4, [[], [(1, 10), (5, 50)], [], []]⟩ : HashMap Nat Nat) :=
    structural_of_check _ _ (by decide)
  ⟨hs, rfl, rfl, (diagnostic_queries (fun k => k) _ hs 9).2.1⟩

/-! ## C15: the constructor from two vectors of different lengths -/

/-- C15: the constructor from two vectors fails with `std::invalid_argument`
exactly when the two vectors have different lengths, and then it gives no
table; with equal lengths it gives a table. -/
theorem ctorVectors_error (hash : K → Nat) (keys : List K) (values : List V) :
    (ctorVectors hash keys values = .error .invalid_argument ↔
      keys.length ≠ values.length) ∧
    ((∃ e, ctorVectors hash keys values = .error e) ↔ keys.length ≠ values.length) ∧
    (keys.length ≠ values.length → ∀ m, ctorVectors hash keys values ≠ .ok m) ∧
    (keys.length = values.length → ∃ m, ctorVectors hash keys values = .ok m) := by
  by_cases h : keys.length = values.length
  · obtain ⟨m, hm, -⟩ := ctorVectors_of_length_eq hash keys values h
    refine ⟨?_, ?_, ?_, fun _ => ⟨m, hm⟩⟩
    · rw [hm]; simp [h]
    · rw [hm]; simp [h]
    · intro hne; exact absurd h hne
  · have he := ctorVectors_of_length_ne hash keys values h
    refine ⟨?_, ?_, ?_, fun heq => absurd heq h⟩
    · rw [he]; simp [h]
    · rw [he]; simp [h]
    · intro _ m hm
      rw [he] at hm
      cases hm

/-- C15, witness: three keys and two values. -/
theorem ctorVectors_error_witness :
    ctorVectors (fun k => k) [1, 2, 1] [10, 20] = .error .invalid_argument ∧
    ∀ m : HashMap Nat Nat, ctorVectors (fun k => k) [1, 2, 1] [10, 20] ≠ .ok m :=
  ⟨(ctorVectors_error (fun k => k) [1, 2, 1] [10, 20]).1.2 (by decide),
    (ctorVectors_error (fun k => k) [1, 2, 1] [10, 20]).2.2.1 (by decide)⟩

/-! ## C13: upsert through `operator[]` -/

/-- The lookups after an insert of a key that was not stored. -/
theorem insert_absent_lookup (hash : K → Nat) (m : HashMap K V) (hs : Structural hash m)
    (key : K) (value : V) (habs : m.lookup key = none) :
    ∃ m1, insert hash m key value = .ok (true, m1) ∧ Structural hash m1 ∧
      m1._size = m._size + 1 ∧
      m1._capacity = (if aboveHighLoadFactor (m._size + 1) m._capacity
            then m._capacity * 2 else m._capacity) ∧
      ∀ x, m1.lookup x = if x = key then some value else m.lookup x := by
  obtain ⟨m1, i1, i2, i3, i4, i5⟩ := insert_absent hash m hs key value habs
  refine ⟨m1, i1, i2, i4, i5, ?_⟩
  intro x
  by_cases hx : x = key
  · rw [if_pos hx, hx, lookup_eq_some_iff i2.uniqueKeys]
    exact i3.symm.subset (by simp)
  · rw [if_neg hx]
    apply lookup_congr hs.uniqueKeys i2.uniqueKeys
    intro v
    rw [i3.mem_iff]
    simp only [List.mem_append, List.mem_singleton, Prod.mk.injEq]
    constructor
    · rintro (h | h)
      · exact h
      · exact absurd h.1 hx
    · intro h; exact Or.inl h

theorem containsKey_true_iff {hash : K → Nat} {m : HashMap K V} (hs : Structural hash m)
    (key : K) : containsKey hash m key = .ok true ↔ ∃ v, m.lookup key = some v := by
  rw [containsKey_eq hs.capacityPow2 hs.cellsEqCapacity hs.placed]
  cases m.lookup key with
  | none => simp
  | some v => simp

theorem at_of_lookup {hash : K → Nat} {m : HashMap K V} (hs : Structural hash m)
    {key : K} {v : V} (h : m.lookup key = some v) : at_ hash m key = .ok v := by
  rw [at_eq hs.capacityPow2 hs.cellsEqCapacity hs.placed, h]

/-- C13: on a table with the structural invariants the overload of
`operator[]` that is not const never fails.  For a key for which
`containsKey` is true it yields the value that `at` yields and leaves the
table (size, capacity and every chain) as it was.  For a key for which
`containsKey` is false it yields the default value; afterwards `containsKey`
is true for the key, `at` yields the default value, the size has grown by
one, and `containsKey` and `at` answer for every other key as before. -/
theorem subscript_upsert [Inhabited V] (hash : K → Nat) (m : HashMap K V)
    (hs : Structural hash m) (key : K) :
    ∃ v m1, subscript hash m key = .ok (v, m1) ∧
      (containsKey hash m key = .ok true → at_ hash m key = .ok v ∧ m1 = m) ∧
      (containsKey hash m key = .ok false →
        v = default ∧ containsKey hash m1 key = .ok true ∧ at_ hash m1 key = .ok default ∧
        m1.size = m.size + 1 ∧
        ∀ k, k ≠ key →
          containsKey hash m1 k = containsKey hash m k ∧ at_ hash m1 k = at_ hash m k) := by
  obtain ⟨h1, h2⟩ := subscript_spec hash m hs key
  rcases lookup_cases m key with hn | ⟨v, hv⟩
  · obtain ⟨m1, i1, i2⟩ := h2 hn
    obtain ⟨m2, j1, j2, j3, -, j5⟩ := insert_absent_lookup hash m hs key default hn
    rw [i1] at j1
    simp only [Except.ok.injEq, Prod.mk.injEq, true_and] at j1
    subst j1
    refine ⟨default, m1, i2, ?_, ?_⟩
    · intro hc
      obtain ⟨w, hw⟩ := (containsKey_true_iff hs key).1 hc
      rw [hn] at hw; cases hw
    · intro _
      have hl : m1.lookup key = some default := by rw [j5 key, if_pos rfl]
      refine ⟨rfl, (containsKey_true_iff j2 key).2 ⟨default, hl⟩, at_of_lookup j2 hl, j3, ?_⟩
      intro k hk
      apply queries_congr hs j2
      rw [j5 k, if_neg hk]
  · refine ⟨v, m, h1 v hv, ?_, ?_⟩
    · intro _; exact ⟨at_of_lookup hs hv, rfl⟩
    · intro hc
      have := lookup_none_of_containsKey hs hc
      rw [hv] at this; cases this

/-- C13, witness: `operator[]` with the stored key 5 and with the absent key 9
on a table that holds the keys 1 and 5. -/
theorem subscript_upsert_witness :
    Structural (fun k => k) (⟨2, 4, [[], [(1, 10), (5, 50)], [], []]⟩ : HashMap Nat Nat) ∧
    subscript (fun k => k) (⟨2, 4, [[], [(1, 10), (5, 50)], [], []]⟩ : HashMap Nat Nat) 5
      = .ok (50, ⟨2, 4, [[], [(1, 10), (5, 50)], [], []]⟩) ∧
    subscript (fun k => k) (⟨2, 4, [[], [(1, 10), (5, 50)], [], []]⟩ : HashMap Nat Nat) 9
      = .ok (0, ⟨3, 4, [[], [(1, 10), (5, 50), (9, 0)], [], []]⟩) ∧
    ∃ v m1, subscript (fun k => k)
        (⟨2, 4, [[], [(1, 10), (5, 50)], [], []]⟩ : HashMap Nat Nat) 9 = .ok (v, m1) ∧
      (containsKey (fun k => k)
          (⟨2, 4, [[], [(1, 10), (5, 50)], [], []]⟩ : HashMap Nat Nat) 9 = .ok true →
        at_ (fun k => k)
          (⟨2, 4, [[], [(1, 10), (5, 50)], [], []]⟩ : HashMap Nat Nat) 9 = .ok v ∧
        m1 = ⟨2, 4, [[], [(1, 10), (5, 50)], [], []]⟩) ∧
      (containsKey (fun k => k)
          (⟨2, 4, [[], [(1, 10), (5, 50)], [], []]⟩ : HashMap Nat Nat) 9 = .ok false →
        v = default ∧ containsKey (fun k => k) m1 9 = .ok true ∧
        at_ (fun k => k) m1 9 = .ok default ∧
        m1.size = (⟨2, 4, [[], [(1, 10), (5, 50)], [], []]⟩ : HashMap Nat Nat).size + 1 ∧
        ∀ k, k ≠ 9 →
          containsKey (fun k => k) m1 k = containsKey (fun k => k)
            (⟨2, 4, [[], [(1, 10), (5, 50)], [], []]⟩ : HashMap Nat Nat) k ∧
          at_ (fun k => k) m1 k = at_ (fun k => k)
            (⟨2, 4, [[], [(1, 10), (5, 50)], [], []]⟩ : HashMap Nat Nat) k) :=
  have hs : Structural (fun k => k)
      (⟨2, 4, [[], [(1, 10), (5, 50)], [], []]⟩ : HashMap Nat Nat) :=
    structural_of_check _ _ (by decide)
  ⟨hs, rfl, rfl, subscript_upsert (fun k => k) _ hs 9⟩

/-! ## C14: the constructor from two vectors -/

theorem lookup_ctor (key : K) : (ctor : HashMap K V).lookup key = none := by
  have h := (structural_ctor (fun _ => 0) (K := K) (V := V)).sizeEqCount
  have hnil : (ctor : HashMap K V).entries = [] := by
    unfold SizeEqCount at h
    have h0 : (ctor : HashMap K V)._size = 0 := rfl
    rw [h0] at h
    exact List.length_eq_zero.1 (by omega)
  unfold lookup
  rw [hnil]
  rfl

/-- The lookups after an assignment through `at`. -/
theorem at_assign_lookup (hash : K → Nat) (m : HashMap K V) (hs : Structural hash m)
    (key : K) (value : V) (v0 : V) (hpres : m.lookup key = some v0) :
    ∃ m1, at_assign hash m key value = .ok m1 ∧ Structural hash m1 ∧
      m1._size = m._size ∧ m1._capacity = m._capacity ∧
      ∀ x, m1.lookup x = if x = key then some value else m.lookup x := by
  obtain ⟨m1, a1, a2, a3, a4, a5⟩ := at_assign_spec hash m hs key value v0 hpres
  refine ⟨m1, a1, a2, a3, a4, ?_⟩
  intro x
  have hcomp : ((fun it : K × V => decide (it.1 = x)) ∘
      (fun p : K × V => if p.1 = key then (p.1, value) else p))
      = (fun it : K × V => decide (it.1 = x)) := by
    funext p
    simp only [Function.comp]
    split <;> rfl
  unfold lookup at hpres ⊢
  rw [a5, List.find?_map, hcomp]
  by_cases hx : x = key
  · subst hx
    rw [if_pos rfl]
    cases hf : m.entries.find? (fun it => decide (it.1 = x)) with
    | none => rw [hf] at hpres; simp at hpres
    | some q =>
      have hq := List.find?_some hf
      simp only [decide_eq_true_eq] at hq
      simp [hq]
  · rw [if_neg hx]
    cases hf : m.entries.find? (fun it => decide (it.1 = x)) with
    | none => rfl
    | some q =>
      have hq := List.find?_some hf
      simp only [decide_eq_true_eq] at hq
      have : q.1 ≠ key := by rw [hq]; exact hx
      simp [this]

/-- The lookups after the loop of the constructor from two vectors. -/
theorem loadPairs_lookup (hash : K → Nat) (ps : List (K × V)) :
    ∀ (m : HashMap K V), Settled hash m →
    ∃ m1, loadPairs hash ps m = .ok m1 ∧ Settled hash m1 ∧
      ∀ x, m1.lookup x = (lastValue x ps).or (m.lookup x) := by
  induction ps with
  | nil =>
    intro m hs
    exact ⟨m, rfl, hs, fun x => by simp [lastValue]⟩
  | cons p ps ih =>
    intro m hs
    obtain ⟨k, v⟩ := p
    have hstep : ∃ m1, Settled hash m1 ∧
        (∀ x, m1.lookup x = if x = k then some v else m.lookup x) ∧
        loadPairs hash ((k, v) :: ps) m = loadPairs hash ps m1 := by
      rcases lookup_cases m k with hn | ⟨v0, hv⟩
      · have hck : containsKey hash m k = .ok false := by
          rw [containsKey_eq hs.1.capacityPow2 hs.1.cellsEqCapacity hs.1.placed, hn]; rfl
        obtain ⟨m1, i1, -, -, -, i5⟩ := insert_absent_lookup hash m hs.1 k v hn
        obtain ⟨b, m2, j1, j2⟩ := insert_settled hash m hs k v
        rw [i1] at j1
        simp only [Except.ok.injEq, Prod.mk.injEq] at j1
        rw [← j1.2] at j2
        exact ⟨m1, j2, i5, by simp only [loadPairs, hck, i1]⟩
      · have hck : containsKey hash m k = .ok true := by
          rw [containsKey_eq hs.1.capacityPow2 hs.1.cellsEqCapacity hs.1.placed, hv]; rfl
        obtain ⟨m1, a1, a2, a3, a4, a5⟩ := at_assign_lookup hash m hs.1 k v v0 hv
        exact ⟨m1, ⟨a2, by rw [a3, a4]; exact hs.2⟩, a5, by simp only [loadPairs, hck, a1]⟩
    obtain ⟨m1, s1, s2, s3⟩ := hstep
    obtain ⟨m2, h1, h2, h3⟩ := ih m1 s1
    refine ⟨m2, by rw [s3, h1], h2, ?_⟩
    intro x
    rw [h3 x, s2 x]
    simp only [lastValue]
    cases lastValue x ps with
    | some w => rfl
    | none =>
      by_cases hx : x = k
      · subst hx; simp
      · have : ¬ k = x := fun h => hx h.symm
        simp [hx, this]

theorem lastValue_eq_none_iff (key : K) (ps : List (K × V)) :
    lastValue key ps = none ↔ key ∉ ps.map Prod.fst := by
  induction ps with
  | nil => simp [lastValue]
  | cons p ps ih =>
    simp only [lastValue, List.map_cons, List.mem_cons, not_or]
    cases h : lastValue key ps with
    | some w =>
      have : ¬ (key ∉ ps.map Prod.fst) := fun hn => by
        rw [ih.2 hn] at h; cases h
      constructor
      · intro hc; cases hc
      · intro hc; exact absurd hc.2 this
    | none =>
      have hn := ih.1 h
      by_cases hp : p.1 = key
      · simp [hp]
      · have : ¬ key = p.1 := fun h => hp h.symm
        simp [hp, this, hn]

theorem lastValue_of_last (ps : List (K × V)) :
    ∀ (i : Nat) (p : K × V), ps[i]? = some p →
      (∀ (j : Nat) (q : K × V), i < j → ps[j]? = some q → q.1 ≠ p.1) →
      lastValue p.1 ps = some p.2 := by
  induction ps with
  | nil => intro i p h; simp at h
  | cons a ps ih =>
    intro i p hp hlast
    cases i with
    | zero =>
      simp only [List.getElem?_cons_zero, Option.some.injEq] at hp
      subst hp
      have hnone : lastValue a.1 ps = none := by
        rw [lastValue_eq_none_iff]
        intro hmem
        obtain ⟨q, hq, hqk⟩ := List.mem_map.1 hmem
        obtain ⟨j, hj⟩ := List.mem_iff_getElem?.1 hq
        exact hlast (j + 1) q (by omega) (by simpa using hj) hqk
      simp [lastValue, hnone]
    | succ i =>
      have hp1 : ps[i]? = some p := by simpa using hp
      have := ih i p hp1 (fun j q hij hq => hlast (j + 1) q (by omega) (by simpa using hq))
      simp [lastValue, this]

/-- The table that the constructor from two vectors of the same length
builds, described through `lookup`. -/
theorem ctorVectors_lookup (hash : K → Nat) (keys : List K) (values : List V)
    (hlen : keys.length = values.length) :
    ∃ m, ctorVectors hash keys values = .ok m ∧ Settled hash m ∧
      ∀ x, m.lookup x = lastValue x (keys.zip values) := by
  obtain ⟨m, h1, h2, h3⟩ := loadPairs_lookup hash (keys.zip values) ctor (settled_ctor hash)
  refine ⟨m, ?_, h2, ?_⟩
  · simp only [ctorVectors, hlen, ne_eq, not_true_eq_false, if_false, h1]
  · intro x
    rw [h3 x, lookup_ctor]
    simp

theorem size_eq_card_keys {hash : K → Nat} {m : HashMap K V}
    (hs : Structural hash m) (keys : List K)
    (h : ∀ x, m.lookup x = none ↔ x ∉ keys) : m._size = (keys.toFinset.card : Int) := by
  have h1 := hs.sizeEqCount
  unfold SizeEqCount at h1
  rw [h1]
  have h2 : m.entries.length = (m.entries.map Prod.fst).length := by simp
  rw [h2, ← List.toFinset_card_of_nodup hs.uniqueKeys]
  congr 2
  ext x
  simp only [List.mem_toFinset]
  have := (lookup_eq_none_iff m x).not
  rw [not_not] at this
  rw [← this, h x, not_not]

/-- C14: for two vectors of the same length the constructor gives a table
whose `size()` is the number of distinct keys in `keys`; for every position
`i` that is the last occurrence of its key in `keys`, `at(keys[i])` is
`values[i]`; `containsKey` is true for the keys in `keys` and false for all
other keys. -/
theorem ctorVectors_semantics (hash : K → Nat) (keys : List K) (values : List V)
    (hlen : keys.length = values.length) :
    ∃ m, ctorVectors hash keys values = .ok m ∧
      m.size = (keys.toFinset.card : Int) ∧
      (∀ (i : Nat) (k : K) (v : V), keys[i]? = some k → values[i]? = some v →
        (∀ j : Nat, i < j → keys[j]? ≠ some k) → at_ hash m k = .ok v) ∧
      (∀ k, k ∈ keys → containsKey hash m k = .ok true) ∧
      (∀ k, k ∉ keys → containsKey hash m k = .ok false) := by
  obtain ⟨m, h1, h2, h3⟩ := ctorVectors_lookup hash keys values hlen
  have hfst : (keys.zip values).map Prod.fst = keys :=
    List.map_fst_zip keys values (by omega)
  have hnone : ∀ x, m.lookup x = none ↔ x ∉ keys := by
    intro x
    rw [h3 x, lastValue_eq_none_iff, hfst]
  have hck := containsKey_eq h2.1.capacityPow2 h2.1.cellsEqCapacity h2.1.placed
  refine ⟨m, h1, size_eq_card_keys h2.1 keys hnone, ?_, ?_, ?_⟩
  · intro i k v hk hv hlast
    apply at_of_lookup h2.1
    rw [h3 k]
    have hz : (keys.zip values)[i]? = some (k, v) :=
      List.getElem?_zip_eq_some.2 ⟨hk, hv⟩
    exact lastValue_of_last (keys.zip values) i (k, v) hz (by
      intro j q hij hq hqk
      have := (List.getElem?_zip_eq_some.1 hq).1
      rw [hqk] at this
      exact hlast j hij this)
  · intro k hk
    rw [hck k]
    cases hl : m.lookup k with
    | none => exact absurd hk ((hnone k).1 hl)
    | some v => rfl
  · intro k hk
    rw [hck k, (hnone k).2 hk]
    rfl

/-- C14, witness: the keys `[1, 2, 1]` with the values `[1, 2, 3]` give a table
of size 2 in which `at(1)` is 3 and `at(2)` is 2. -/
theorem ctorVectors_semantics_witness :
    ctorVectors (fun k => k) [1, 2, 1] [1, 2, 3]
      = .ok (⟨2, 16, [] :: [(1, 3)] :: [(2, 2)] :: List.replicate 13 []⟩ : HashMap Nat Nat) ∧
    at_ (fun k => k)
      (⟨2, 16, [] :: [(1, 3)] :: [(2, 2)] :: List.replicate 13 []⟩ : HashMap Nat Nat) 1
      = .ok 3 ∧
    at_ (fun k => k)
      (⟨2, 16, [] :: [(1, 3)] :: [(2, 2)] :: List.replicate 13 []⟩ : HashMap Nat Nat) 2
      = .ok 2 ∧
    ∃ m : HashMap Nat Nat, ctorVectors (fun k => k) [1, 2, 1] [1, 2, 3] = .ok m ∧
      m.size = (([1, 2, 1] : List Nat).toFinset.card : Int) ∧
      (∀ (i : Nat) (k : Nat) (v : Nat), [1, 2, 1][i]? = some k → [1, 2, 3][i]? = some v →
        (∀ j : Nat, i < j → [1, 2, 1][j]? ≠ some k) → at_ (fun k => k) m k = .ok v) ∧
      (∀ k, k ∈ [1, 2, 1] → containsKey (fun k => k) m k = .ok true) ∧
      (∀ k, k ∉ [1, 2, 1] → containsKey (fun k => k) m k = .ok false) :=
  ⟨rfl, rfl, rfl, ctorVectors_semantics (fun k => k) [1, 2, 1] [1, 2, 3] rfl⟩

/-! ## C16: copy assignment -/

/-- C16, the failing input: `a` and `b` are default tables after one insert
each, of the pairs `(1, 10)` and `(2, 20)`.  The assignment `a = b` between
the two distinct objects gives `a` the pair of `b`, but `_size` is not reset
before the pairs are inserted: `a.size()` is 2, which is neither `b.size()`
nor the number of pairs stored in `a`.  Self-assignment leaves `a` as it
was, and the copy constructor gives a copy of `b` with the size of `b`. -/
theorem operatorAssign_keeps_old_size :
    updates (fun k => k) [Update.insert 1 10] (ctor : HashMap Nat Nat)
      = .ok ⟨1, 16, [] :: [(1, 10)] :: List.replicate 14 []⟩ ∧
    updates (fun k => k) [Update.insert 2 20] (ctor : HashMap Nat Nat)
      = .ok ⟨1, 16, [] :: [] :: [(2, 20)] :: List.replicate 13 []⟩ ∧
    operatorAssign (fun k => k)
      (⟨1, 16, [] :: [(1, 10)] :: List.replicate 14 []⟩ : HashMap Nat Nat)
      ⟨1, 16, [] :: [] :: [(2, 20)] :: List.replicate 13 []⟩ false
      = .ok ⟨2, 16, [] :: [] :: [(2, 20)] :: List.replicate 13 []⟩ ∧
    (⟨2, 16, [] :: [] :: [(2, 20)] :: List.replicate 13 []⟩ : HashMap Nat Nat).size
      ≠ (⟨1, 16, [] :: [] :: [(2, 20)] :: List.replicate 13 []⟩ : HashMap Nat Nat).size ∧
    ¬ SizeEqCount (⟨2, 16, [] :: [] :: [(2, 20)] :: List.replicate 13 []⟩ : HashMap Nat Nat) ∧
    operatorAssign (fun k => k)
      (⟨1, 16, [] :: [(1, 10)] :: List.replicate 14 []⟩ : HashMap Nat Nat)
      ⟨1, 16, [] :: [(1, 10)] :: List.replicate 14 []⟩ true
      = .ok ⟨1, 16, [] :: [(1, 10)] :: List.replicate 14 []⟩ ∧
    ctorCopy (⟨1, 16, [] :: [] :: [(2, 20)] :: List.replicate 13 []⟩ : HashMap Nat Nat)
      = .ok ⟨1, 16, [] :: [] :: [(2, 20)] :: List.replicate 13 []⟩ :=
  ⟨rfl, rfl, rfl, by decide, by unfold SizeEqCount entries; decide, rfl, rfl⟩

/-! ## C17: equality of tables -/

theorem structural_shape {hash : K → Nat} {m : HashMap K V} (hs : Structural hash m) :
    ∃ c : Nat, m._capacity = (c : Int) ∧ 1 ≤ c ∧ m._listArr.length = c := by
  obtain ⟨c, hc, hc1⟩ := capacity_natCast hs.capacityPow2
  have := hs.cellsEqCapacity
  unfold CellsEqCapacity at this
  exact ⟨c, hc, hc1, by omega⟩

theorem subscript_const_spec [Inhabited V] (hash : K → Nat) (m : HashMap K V)
    (hs : Structural hash m) (key : K) :
    subscript_const hash m key = .ok (m.valueOrDefault key) := by
  obtain ⟨c, hc, hc1, hlen⟩ := structural_shape hs
  unfold valueOrDefault
  rcases lookup_cases m key with hn | ⟨v, hv⟩
  · have hck : containsKey hash m key = .ok false := by
      rw [containsKey_eq hs.capacityPow2 hs.cellsEqCapacity hs.placed, hn]; rfl
    simp only [subscript_const, hck, hn]
    rfl
  · have hck : containsKey hash m key = .ok true := by
      rw [containsKey_eq hs.capacityPow2 hs.cellsEqCapacity hs.placed, hv]; rfl
    obtain ⟨it, b1, b2, b3⟩ := begin_spec m c hc hc1 hlen hs.sizeEqCount
    have hloop := subscriptLoop_spec m c hc hc1 hlen key (m._listArr.flatten.length + 1) it b2
      (by rw [b3]; unfold entries; omega)
    rw [b3] at hloop
    have hl : (m.entries.find? (fun p => decide (p.1 = key))).map Prod.snd = some v := hv
    rw [hl] at hloop
    simp only [subscript_const, hck, b1, hloop, hv]
    rfl

theorem equalsLoop_spec [Inhabited V] [DecidableEq V] (hash : K → Nat) (a b : HashMap K V)
    (ha : Structural hash a) (hb : Structural hash b) (fuel : Nat) :
    ∀ (it : const_iterator), (it.OnPair a ∨ a.end_ = .ok it) → (it.rest a).length < fuel →
    equalsLoop hash a b fuel it =
      .ok ((it.rest a).all (fun p => decide (a.valueOrDefault p.1 = b.valueOrDefault p.1))) := by
  obtain ⟨c, hcap, hc, hlen⟩ := structural_shape ha
  obtain ⟨e, e1, e2, e3, e4⟩ := end_spec a c hcap hc hlen
  induction fuel with
  | zero => intro it _ h; omega
  | succ fuel ih =>
    intro it hit hfuel
    rcases hit with hon | hend
    · have he1 : e._index.toNat < a._listArr.length → 0 ≤ e._index →
          e._iterator = (a._listArr.getD e._index.toNat []).length := by
        intro _ _
        rw [e3, e2]
        rfl
      obtain ⟨hneq, p, hderef, hrest⟩ := onPair_spec a it e hon he1
      obtain ⟨it1, i1, i2, i3⟩ := incr_spec a c hcap hc hlen it hon
      have hx := subscript_const_spec hash a ha p.1
      have hy := subscript_const_spec hash b hb p.1
      by_cases hk : a.valueOrDefault p.1 = b.valueOrDefault p.1
      · have hlt : (it1.rest a).length < fuel := by
          rw [i2]
          rw [hrest] at hfuel
          simp only [List.length_cons] at hfuel
          omega
        simp only [equalsLoop, e1, hneq, hderef, hx, hy, hk, ne_eq, not_true_eq_false,
          if_false, i1, ih it1 i3 hlt]
        rw [hrest, List.all_cons, i2]
        simp [hk]
      · simp only [equalsLoop, e1, hneq, hderef, hx, hy, hk, ne_eq, not_false_eq_true,
          if_true]
        rw [hrest, List.all_cons]
        simp [hk]
    · rw [e1] at hend
      simp only [Except.ok.injEq] at hend
      subst hend
      have heq : e.eq e = true := by simp [const_iterator.eq]
      simp only [equalsLoop, e1, heq, if_true, e4]
      rfl

theorem operatorEq_spec [Inhabited V] [DecidableEq V] (hash : K → Nat) (a b : HashMap K V)
    (ha : Structural hash a) (hb : Structural hash b) :
    operatorEq hash a b =
      .ok (decide (a._size = b._size) &&
        a.entries.all (fun p => decide (a.valueOrDefault p.1 = b.valueOrDefault p.1))) := by
  obtain ⟨c, hcap, hc, hlen⟩ := structural_shape ha
  by_cases hsz : a._size = b._size
  · by_cases hempty : (a.empty && b.empty) = true
    · have ha0 : a._size = 0 := by
        have h2 := hempty
        simp only [Bool.and_eq_true, empty, DEFAULT_SIZE, decide_eq_true_eq] at h2
        exact h2.1
      have hnil : a.entries = [] := by
        have := ha.sizeEqCount
        unfold SizeEqCount at this
        exact List.length_eq_zero.1 (by omega)
      have hne : ¬ (a._size ≠ b.size) := by unfold size; simpa using hsz
      unfold operatorEq
      rw [if_neg hne, if_pos hempty, hnil]
      simp [hsz]
    · obtain ⟨it, b1, b2, b3⟩ := begin_spec a c hcap hc hlen ha.sizeEqCount
      have hloop := equalsLoop_spec hash a b ha hb (a._listArr.flatten.length + 1) it b2
        (by rw [b3]; unfold entries; omega)
      rw [b3] at hloop
      have hne : ¬ (a._size ≠ b.size) := by unfold size; simpa using hsz
      unfold operatorEq
      rw [if_neg hne, if_neg hempty]
      simp only [b1]
      rw [hloop]
      simp [hsz]
  · have hne : a._size ≠ b.size := hsz
    unfold operatorEq
    rw [if_pos hne]
    simp [hsz]

/-- C17: for two tables with the structural invariants `a == b` gives a result;
it is true exactly when the sizes are equal and, for every key for which
`a.containsKey` is true, the const `operator[]` of `a` and of `b` give the
same value; `a != b` is the negation; and the const `operator[]` of either
table never fails, gives what `at` gives for a key for which `containsKey` is
true, and gives the default value for every other key. -/
theorem operatorEq_definition [Inhabited V] [DecidableEq V] (hash : K → Nat)
    (a b : HashMap K V) (ha : Structural hash a) (hb : Structural hash b) :
    (∃ r, operatorEq hash a b = .ok r ∧ operatorNe hash a b = .ok (!r) ∧
      (r = true ↔ a.size = b.size ∧
        ∀ k, containsKey hash a k = .ok true →
          subscript_const hash a k = subscript_const hash b k)) ∧
    (∀ (m : HashMap K V), m = a ∨ m = b → ∀ k,
      (∃ v, subscript_const hash m k = .ok v) ∧
      (containsKey hash m k = .ok true → subscript_const hash m k = at_ hash m k) ∧
      (containsKey hash m k = .ok false → subscript_const hash m k = .ok default)) := by
  constructor
  · refine ⟨_, operatorEq_spec hash a b ha hb, ?_, ?_⟩
    · simp only [operatorNe, operatorEq_spec hash a b ha hb]
    · simp only [Bool.and_eq_true, decide_eq_true_eq, List.all_eq_true, size]
      constructor
      · rintro ⟨h1, h2⟩
        refine ⟨h1, ?_⟩
        intro k hk
        obtain ⟨v, hv⟩ := (containsKey_true_iff ha k).1 hk
        rw [subscript_const_spec hash a ha, subscript_const_spec hash b hb]
        have hmem : (k, v) ∈ a.entries := (lookup_eq_some_iff ha.uniqueKeys k v).1 hv
        exact congrArg Except.ok (h2 (k, v) hmem)
      · rintro ⟨h1, h2⟩
        refine ⟨h1, ?_⟩
        intro p hp
        have hl : a.lookup p.1 = some p.2 := (lookup_eq_some_iff ha.uniqueKeys p.1 p.2).2 hp
        have := h2 p.1 ((containsKey_true_iff ha p.1).2 ⟨p.2, hl⟩)
        rw [subscript_const_spec hash a ha, subscript_const_spec hash b hb] at this
        simpa using this
  · intro m hm k
    have hs : Structural hash m := by
      rcases hm with h | h
      · rw [h]; exact ha
      · rw [h]; exact hb
    refine ⟨⟨_, subscript_const_spec hash m hs k⟩, ?_, ?_⟩
    · intro hk
      obtain ⟨v, hv⟩ := (containsKey_true_iff hs k).1 hk
      rw [subscript_const_spec hash m hs, at_of_lookup hs hv]
      unfold valueOrDefault
      rw [hv]; rfl
    · intro hk
      rw [subscript_const_spec hash m hs]
      unfold valueOrDefault
      rw [lookup_none_of_containsKey hs hk]; rfl

/-- C17, witness: a table that stores the default value 0 for the key 3 equals
a table of the same size that does not store the key 3, and the two tables
differ in the other direction. -/
theorem operatorEq_definition_witness :
    operatorEq (fun k => k)
      (⟨2, 4, [[], [(1, 10)], [], [(3, 0)]]⟩ : HashMap Nat Nat)
      ⟨2, 4, [[(4, 5)], [(1, 10)], [], []]⟩ = .ok true ∧
    operatorEq (fun k => k)
      (⟨2, 4, [[(4, 5)], [(1, 10)], [], []]⟩ : HashMap Nat Nat)
      ⟨2, 4, [[], [(1, 10)], [], [(3, 0)]]⟩ = .ok false ∧
    ∃ r, operatorEq (fun k => k)
        (⟨2, 4, [[], [(1, 10)], [], [(3, 0)]]⟩ : HashMap Nat Nat)
        ⟨2, 4, [[(4, 5)], [(1, 10)], [], []]⟩ = .ok r ∧
      operatorNe (fun k => k)
        (⟨2, 4, [[], [(1, 10)], [], [(3, 0)]]⟩ : HashMap Nat Nat)
        ⟨2, 4, [[(4, 5)], [(1, 10)], [], []]⟩ = .ok (!r) ∧
      (r = true ↔
        (⟨2, 4, [[], [(1, 10)], [], [(3, 0)]]⟩ : HashMap Nat Nat).size
          = (⟨2, 4, [[(4, 5)], [(1, 10)], [], []]⟩ : HashMap Nat Nat).size ∧
        ∀ k, containsKey (fun k => k)
            (⟨2, 4, [[], [(1, 10)], [], [(3, 0)]]⟩ : HashMap Nat Nat) k = .ok true →
          subscript_const (fun k => k)
            (⟨2, 4, [[], [(1, 10)], [], [(3, 0)]]⟩ : HashMap Nat Nat) k
          = subscript_const (fun k => k)
            (⟨2, 4, [[(4, 5)], [(1, 10)], [], []]⟩ : HashMap Nat Nat) k) :=
  ⟨rfl, rfl, (operatorEq_definition (fun k => k)
    (⟨2, 4, [[], [(1, 10)], [], [(3, 0)]]⟩ : HashMap Nat Nat)
    ⟨2, 4, [[(4, 5)], [(1, 10)], [], []]⟩
    (structural_of_check _ _ (by decide)) (structural_of_check _ _ (by decide))).1⟩

/-! ## C18: the order of the inserts -/

theorem lastValue_eq_some_iff (key : K) (ps : List (K × V))
    (hnd : (ps.map Prod.fst).Nodup) : ∀ v, lastValue key ps = some v ↔ (key, v) ∈ ps := by
  induction ps with
  | nil => intro v; simp [lastValue]
  | cons p ps ih =>
    intro v
    rw [List.map_cons, List.nodup_cons] at hnd
    simp only [lastValue, List.mem_cons]
    cases h : lastValue key ps with
    | some w =>
      have hw : (key, w) ∈ ps := (ih hnd.2 w).1 h
      have hne : p.1 ≠ key := by
        intro hp
        apply hnd.1
        rw [hp]
        exact List.mem_map.2 ⟨(key, w), hw, rfl⟩
      simp only [Option.some.injEq]
      constructor
      · intro hwv; right; rw [← hwv]; exact hw
      · rintro (hp | hp)
        · exact absurd (by rw [← hp]) hne
        · have := (ih hnd.2 v).2 hp
          rw [h] at this
          exact Option.some.inj this
    | none =>
      have hnot : ¬ (key, v) ∈ ps := by
        intro hp
        have := (ih hnd.2 v).2 hp
        rw [h] at this; cases this
      simp only
      by_cases hp : p.1 = key
      · rw [if_pos hp]
        simp only [Option.some.injEq]
        constructor
        · intro hv; left; rw [← hv, ← hp]
        · rintro (hq | hq)
          · rw [← hq]
          · exact absurd hq hnot
      · rw [if_neg hp]
        constructor
        · intro hc; cases hc
        · rintro (hq | hq)
          · exact absurd (by rw [← hq]) hp
          · exact absurd hq hnot

theorem lastValue_perm (key : K) (ps qs : List (K × V)) (hnd : (ps.map Prod.fst).Nodup)
    (hperm : ps.Perm qs) : lastValue key ps = lastValue key qs := by
  have hnd2 : (qs.map Prod.fst).Nodup := (hperm.map Prod.fst).nodup_iff.1 hnd
  apply Option.ext
  intro v
  rw [Option.mem_def, Option.mem_def, lastValue_eq_some_iff key ps hnd v,
    lastValue_eq_some_iff key qs hnd2 v, hperm.mem_iff]

/-- Successive inserts of pairs with distinct keys that are not stored: the
calls of `insert` and the loop of the constructor give the same table, and
its size and capacity follow the growth steps. -/
theorem inserts_fresh (hash : K → Nat) (ps : List (K × V)) :
    ∀ (m : HashMap K V), Settled hash m → (ps.map Prod.fst).Nodup →
    (∀ p ∈ ps, m.lookup p.1 = none) →
    ∃ m1, updates hash (insertCalls ps) m = .ok m1 ∧ loadPairs hash ps m = .ok m1 ∧
      Settled hash m1 ∧ (∀ x, m1.lookup x = (lastValue x ps).or (m.lookup x)) ∧
      (m1._size, m1._capacity) = growStep^[ps.length] (m._size, m._capacity) := by
  induction ps with
  | nil =>
    intro m hs _ _
    exact ⟨m, rfl, rfl, hs, fun x => by simp [lastValue], rfl⟩
  | cons p ps ih =>
    intro m hs hnd hfresh
    obtain ⟨k, v⟩ := p
    rw [List.map_cons, List.nodup_cons] at hnd
    have hn : m.lookup k = none := hfresh (k, v) (List.mem_cons_self _ _)
    have hck : containsKey hash m k = .ok false := by
      rw [containsKey_eq hs.1.capacityPow2 hs.1.cellsEqCapacity hs.1.placed, hn]; rfl
    obtain ⟨m1, i1, -, i3, i4, i5⟩ := insert_absent_lookup hash m hs.1 k v hn
    obtain ⟨b, m2, j1, j2⟩ := insert_settled hash m hs k v
    rw [i1] at j1
    simp only [Except.ok.injEq, Prod.mk.injEq] at j1
    rw [← j1.2] at j2
    have hfresh1 : ∀ p ∈ ps, m1.lookup p.1 = none := by
      intro p hp
      have hpk : p.1 ≠ k := by
        intro h
        have hmem : p.1 ∈ ps.map Prod.fst := List.mem_map_of_mem _ hp
        rw [h] at hmem
        exact hnd.1 hmem
      rw [i5 p.1, if_neg hpk]
      exact hfresh p (List.mem_cons_of_mem _ hp)
    obtain ⟨m3, u1, u2, u3, -, u5⟩ := ih m1 j2 hnd.2 hfresh1
    have hload : loadPairs hash ((k, v) :: ps) m = .ok m3 := by
      simp only [loadPairs, hck, i1, u2]
    obtain ⟨m4, l1, -, l3⟩ := loadPairs_lookup hash ((k, v) :: ps) m hs
    rw [hload] at l1
    simp only [Except.ok.injEq] at l1
    subst l1
    refine ⟨m3, ?_, hload, u3, l3, ?_⟩
    · simp only [insertCalls, List.map_cons, updates, update, i1]
      exact u1
    · rw [u5, List.length_cons, Function.iterate_succ_apply]
      congr 1
      unfold growStep
      simp only [i3, i4]

theorem buildFrom_spec (hash : K → Nat) (viaInserts : Bool) (ps : List (K × V))
    (hnd : (ps.map Prod.fst).Nodup) :
    ∃ a, buildFrom hash viaInserts ps = .ok a ∧ Settled hash a ∧
      (∀ x, a.lookup x = lastValue x ps) ∧
      (a._size, a._capacity) = growStep^[ps.length] (DEFAULT_SIZE, DEFAULT_CAPACITY) := by
  obtain ⟨a, h1, h2, h3, h4, h5⟩ := inserts_fresh hash ps ctor (settled_ctor hash) hnd
    (fun p _ => lookup_ctor p.1)
  refine ⟨a, ?_, h3, ?_, h5⟩
  · cases viaInserts with
    | true => simp only [buildFrom, if_true, h1]
    | false =>
      have hzip : (ps.map Prod.fst).zip (ps.map Prod.snd) = ps := (List.zip_of_prod rfl rfl).symm
      simp only [buildFrom, Bool.false_eq_true, if_false, ctorVectors, List.length_map,
        ne_eq, not_true_eq_false, hzip, h2]
  · intro x
    rw [h4 x, lookup_ctor]
    simp

/-- C18: for every list of pairs with distinct keys and every permutation of
it, the table built from the list and the table built from the permutation,
each by successive inserts into a default table or by the constructor from
two vectors, are equal under `operator==` in both directions and have the
same size and the same capacity. -/
theorem insertion_order_independent [Inhabited V] [DecidableEq V] (hash : K → Nat)
    (ps qs : List (K × V)) (hnd : (ps.map Prod.fst).Nodup) (hperm : ps.Perm qs)
    (viaInserts viaInserts' : Bool) :
    ∃ a b, buildFrom hash viaInserts ps = .ok a ∧ buildFrom hash viaInserts' qs = .ok b ∧
      operatorEq hash a b = .ok true ∧ operatorEq hash b a = .ok true ∧
      a.size = b.size ∧ a.capacity = b.capacity := by
  have hnd2 : (qs.map Prod.fst).Nodup := (hperm.map Prod.fst).nodup_iff.1 hnd
  obtain ⟨a, a1, a2, a3, a4⟩ := buildFrom_spec hash viaInserts ps hnd
  obtain ⟨b, b1, b2, b3, b4⟩ := buildFrom_spec hash viaInserts' qs hnd2
  have hsc : (a._size, a._capacity) = (b._size, b._capacity) := by
    rw [a4, b4, hperm.length_eq]
  have hsize : a._size = b._size := congrArg Prod.fst hsc
  have hcap : a._capacity = b._capacity := congrArg Prod.snd hsc
  have hval : ∀ x, a.valueOrDefault x = b.valueOrDefault x := by
    intro x
    unfold valueOrDefault
    rw [a3 x, b3 x, lastValue_perm x ps qs hnd hperm]
  refine ⟨a, b, a1, b1, ?_, ?_, hsize, hcap⟩
  · rw [operatorEq_spec hash a b a2.1 b2.1]
    congr 1
    simp only [Bool.and_eq_true, decide_eq_true_eq, List.all_eq_true]
    exact ⟨hsize, fun p _ => hval p.1⟩
  · rw [operatorEq_spec hash b a b2.1 a2.1]
    congr 1
    simp only [Bool.and_eq_true, decide_eq_true_eq, List.all_eq_true]
    exact ⟨hsize.symm, fun p _ => (hval p.1).symm⟩

/-- C18, witness: three pairs inserted one by one, and the same pairs in
another order given to the constructor. -/
theorem insertion_order_independent_witness :
    (([(1, 10), (2, 20), (17, 30)] : List (Nat × Nat)).map Prod.fst).Nodup ∧
    ([(1, 10), (2, 20), (17, 30)] : List (Nat × Nat)).Perm [(17, 30), (1, 10), (2, 20)] ∧
    ∃ a b : HashMap Nat Nat,
      buildFrom (fun k => k) true [(1, 10), (2, 20), (17, 30)] = .ok a ∧
      buildFrom (fun k => k) false [(17, 30), (1, 10), (2, 20)] = .ok b ∧
      operatorEq (fun k => k) a b = .ok true ∧ operatorEq (fun k => k) b a = .ok true ∧
      a.size = b.size ∧ a.capacity = b.capacity :=
  ⟨by decide, by decide,
    insertion_order_independent (fun k => k) [(1, 10), (2, 20), (17, 30)]
      [(17, 30), (1, 10), (2, 20)] (by decide) (by decide) true false⟩

/-! ## C19 and C20: the growth and the shrink trigger -/

theorem updates_append (hash : K → Nat) (us vs : List (Update K V)) :
    ∀ (m : HashMap K V), updates hash (us ++ vs) m =
      match updates hash us m with
      | .ok m1 => updates hash vs m1
      | .error e => .error e := by
  induction us with
  | nil => intro m; rfl
  | cons u us ih =>
    intro m
    simp only [List.cons_append, updates]
    cases update hash m u with
    | error e => rfl
    | ok m1 => exact ih m1

/-- C19: on a table with the structural invariants, size `s` and capacity `c`,
the insert of a key for which `containsKey` is false ends with the capacity
`2 * c` when `4 * (s + 1) > 3 * c`, which is the test
`(s + 1) / c > 0.75` on exact fractions, and with the capacity `c` otherwise.
For thirteen pairs with distinct keys, the inserts of the first twelve into a
default table end with capacity 16 and size 12, and the thirteenth insert
returns true and ends with capacity 32 and size 13. -/
theorem growth_trigger (hash : K → Nat) (m : HashMap K V) (hs : Structural hash m)
    (key : K) (value : V) (habs : containsKey hash m key = .ok false)
    (ps : List (K × V)) (hnd : (ps.map Prod.fst).Nodup) (h13 : ps.length = 13) :
    (∃ m1, insert hash m key value = .ok (true, m1) ∧
      m1.capacity = (if 4 * (m.size + 1) > 3 * m.capacity then 2 * m.capacity
        else m.capacity) ∧
      (4 * (m.size + 1) > 3 * m.capacity ↔
        ((m.size + 1 : Int) : ℚ) / (m.capacity : ℚ) > 3 / 4)) ∧
    (∃ m12 m13 p, updates hash (insertCalls (ps.take 12)) ctor = .ok m12 ∧
      m12.capacity = 16 ∧ m12.size = 12 ∧
      ps[12]? = some p ∧ insert hash m12 p.1 p.2 = .ok (true, m13) ∧
      updates hash (insertCalls ps) ctor = .ok m13 ∧
      m13.capacity = 32 ∧ m13.size = 13) := by
  constructor
  · have hnone := lookup_none_of_containsKey hs habs
    obtain ⟨m1, i1, -, -, -, i5⟩ := insert_absent hash m hs key value hnone
    have hpos := capacity_pos hs
    have hiff := aboveHighLoadFactor_iff (m._size + 1) m._capacity (by omega)
    refine ⟨m1, i1, ?_, ?_⟩
    · unfold capacity size
      rw [i5]
      by_cases hab : aboveHighLoadFactor (m._size + 1) m._capacity = true
      · rw [if_pos hab, if_pos (hiff.1 hab)]; omega
      · rw [if_neg hab, if_neg (fun h => hab (hiff.2 h))]
    · unfold capacity size
      rw [gt_iff_lt, gt_iff_lt, ← hiff,
        aboveHighLoadFactor_iff_rat (m._size + 1) m._capacity (by omega)]
  · have hlt : 12 < ps.length := by omega
    have hsplit : ps = ps.take 12 ++ [ps.get ⟨12, hlt⟩] := by
      have h1 := List.take_append_drop 12 ps
      have h2 : ps.drop 12 = [ps.get ⟨12, hlt⟩] := by
        rw [List.drop_eq_getElem_cons hlt, List.drop_of_length_le (by omega)]
        rfl
      rw [h2] at h1
      exact h1.symm
    have hnd12 : ((ps.take 12).map Prod.fst).Nodup := by
      rw [List.map_take]
      exact hnd.sublist (List.take_sublist _ _)
    have hlen12 : (ps.take 12).length = 12 := by
      rw [List.length_take]; omega
    obtain ⟨m12, a1, a2, a3, a4⟩ := buildFrom_spec hash true (ps.take 12) hnd12
    obtain ⟨m13, b1, b2, b3, b4⟩ := buildFrom_spec hash true ps hnd
    simp only [buildFrom, if_true] at a1 b1
    rw [hlen12] at a4
    rw [h13] at b4
    have e12 : growStep^[12] (DEFAULT_SIZE, DEFAULT_CAPACITY) = (12, 16) := by decide
    have e13 : growStep^[13] (DEFAULT_SIZE, DEFAULT_CAPACITY) = (13, 32) := by decide
    rw [e12] at a4
    rw [e13] at b4
    have hfresh : m12.lookup (ps.get ⟨12, hlt⟩).1 = none := by
      rw [a3, lastValue_eq_none_iff]
      intro hmem
      rw [hsplit, List.map_append, List.nodup_append] at hnd
      exact hnd.2.2 hmem (by simp)
    obtain ⟨m1, i1, -⟩ := insert_absent hash m12 a2.1 (ps.get ⟨12, hlt⟩).1
      (ps.get ⟨12, hlt⟩).2 hfresh
    have hrun : updates hash (insertCalls ps) ctor = .ok m1 := by
      rw [hsplit]
      unfold insertCalls
      rw [List.map_append]
      rw [updates_append]
      unfold insertCalls at a1
      rw [a1]
      simp only [List.map_cons, List.map_nil, updates, update, i1]
    rw [hrun] at b1
    simp only [Except.ok.injEq] at b1
    subst b1
    refine ⟨m12, m1, ps.get ⟨12, hlt⟩, a1, ?_, ?_, List.getElem?_eq_getElem hlt, i1, hrun,
      ?_, ?_⟩
    · exact congrArg Prod.snd a4
    · exact congrArg Prod.fst a4
    · exact congrArg Prod.snd b4
    · exact congrArg Prod.fst b4

/-- C19, witness: an insert that grows a table of capacity 4 with three pairs,
and the inserts of the keys 0 to 12 into a default table. -/
theorem growth_trigger_witness :
    insert (fun k => k) (⟨3, 4, [[], [(1, 10), (5, 50)], [(2, 20)], []]⟩ : HashMap Nat Nat)
      7 70 = .ok (true, ⟨4, 8, [[], [(1, 10)], [(2, 20)], [], [], [(5, 50)], [], [(7, 70)]]⟩) ∧
    ∃ m12 m13 p,
      updates (fun k => k)
        (insertCalls (((List.range 13).map (fun k => (k, k))).take 12)) ctor = .ok m12 ∧
      m12.capacity = 16 ∧ m12.size = 12 ∧
      ((List.range 13).map (fun k => (k, k)))[12]? = some p ∧
      insert (fun k => k) m12 p.1 p.2 = .ok (true, m13) ∧
      updates (fun k => k) (insertCalls ((List.range 13).map (fun k => (k, k)))) ctor
        = .ok m13 ∧
      m13.capacity = 32 ∧ m13.size = 13 :=
  ⟨rfl, (growth_trigger (fun k => k)
    (⟨3, 4, [[], [(1, 10), (5, 50)], [(2, 20)], []]⟩ : HashMap Nat Nat)
    (structural_of_check _ _ (by decide)) 7 70 (by rfl)
    ((List.range 13).map (fun k => (k, k))) (by decide) (by decide)).2⟩

/-- C20: on a table with the structural invariants, size `s` and capacity
`c > 1`, the erase of a key for which `containsKey` is true returns true and
ends with the capacity `c / 2` when `4 * (s - 1) < c`, which is the test
`(s - 1) / c < 0.25` on exact fractions, and with the capacity `c` otherwise,
so the capacity is halved at most once.  From size 5 at capacity 16 the erase
ends with size 4 and capacity 16, and a further erase of a stored key ends
with size 3 and capacity 8. -/
theorem shrink_trigger (hash : K → Nat) (m : HashMap K V) (hs : Structural hash m)
    (key : K) (hc : 1 < m.capacity) (hpres : containsKey hash m key = .ok true) :
    ∃ m1, erase hash m key = .ok (true, m1) ∧
      m1.capacity = (if 4 * (m.size - 1) < m.capacity then m.capacity / 2
        else m.capacity) ∧
      (4 * (m.size - 1) < m.capacity ↔
        ((m.size - 1 : Int) : ℚ) / (m.capacity : ℚ) < 1 / 4) ∧
      (m1.capacity = m.capacity ∨ m1.capacity = m.capacity / 2) ∧
      (m.size = 5 → m.capacity = 16 →
        m1.size = 4 ∧ m1.capacity = 16 ∧
        ∀ key2, containsKey hash m1 key2 = .ok true →
          ∃ m2, erase hash m1 key2 = .ok (true, m2) ∧ m2.size = 3 ∧ m2.capacity = 8) := by
  unfold capacity at hc
  obtain ⟨v, hv⟩ := lookup_some_of_containsKey hs hpres
  obtain ⟨m1, e1, e2, -, e4, e5⟩ := erase_present hash m hs key v hv (by omega)
  have hiff := belowLowerLoadFactor_iff (m._size - 1) m._capacity (by omega)
  have hcapeq : m1._capacity = (if 4 * (m._size - 1) < m._capacity then m._capacity / 2
      else m._capacity) := by
    rw [e5]
    by_cases hb : belowLowerLoadFactor (m._size - 1) m._capacity = true
    · rw [if_pos hb, if_pos (hiff.1 hb)]
    · rw [if_neg hb, if_neg (fun h => hb (hiff.2 h))]
  refine ⟨m1, e1, hcapeq, ?_, ?_, ?_⟩
  · unfold capacity size
    rw [← hiff, belowLowerLoadFactor_iff_rat (m._size - 1) m._capacity (by omega)]
  · unfold capacity
    rw [hcapeq]
    split
    · right; rfl
    · left; rfl
  · intro h5 h16
    unfold size at h5
    unfold capacity at h16
    have hs1 : m1._size = 4 := by rw [e4, h5]; rfl
    have hc1 : m1._capacity = 16 := by
      rw [hcapeq, h5, h16]; rfl
    refine ⟨hs1, hc1, ?_⟩
    intro key2 hk2
    obtain ⟨v2, hv2⟩ := lookup_some_of_containsKey e2 hk2
    obtain ⟨m2, f1, -, -, f4, f5⟩ := erase_present hash m1 e2 key2 v2 hv2 (by omega)
    refine ⟨m2, f1, ?_, ?_⟩
    · unfold size; rw [f4, hs1]; rfl
    · unfold capacity; rw [f5, hs1, hc1]; rfl

/-- C20, witness: a table of capacity 16 that holds the keys 1 to 5. -/
theorem shrink_trigger_witness :
    (1 : Int) < (⟨5, 16, [] :: [(1, 1)] :: [(2, 2)] :: [(3, 3)] :: [(4, 4)] :: [(5, 5)] ::
      List.replicate 10 []⟩ : HashMap Nat Nat).capacity ∧
    ∃ m1, erase (fun k => k)
        (⟨5, 16, [] :: [(1, 1)] :: [(2, 2)] :: [(3, 3)] :: [(4, 4)] :: [(5, 5)] ::
          List.replicate 10 []⟩ : HashMap Nat Nat) 5 = .ok (true, m1) ∧
      m1.size = 4 ∧ m1.capacity = 16 ∧
      ∀ key2, containsKey (fun k => k) m1 key2 = .ok true →
        ∃ m2, erase (fun k => k) m1 key2 = .ok (true, m2) ∧ m2.size = 3 ∧ m2.capacity = 8 := by
  obtain ⟨m1, e1, -, -, -, e5⟩ := shrink_trigger (fun k => k)
    (⟨5, 16, [] :: [(1, 1)] :: [(2, 2)] :: [(3, 3)] :: [(4, 4)] :: [(5, 5)] ::
      List.replicate 10 []⟩ : HashMap Nat Nat)
    (structural_of_check _ _ (by decide)) 5 (by decide) (by rfl)
  exact ⟨by decide, m1, e1, e5 rfl rfl⟩

/-! ## C21: the shrink guard -/

/-- A single cell that holds two pairs is no exception: the erase of one of
them leaves the capacity 1. -/
theorem erase_single_cell_two_pairs :
    Structural (fun k => k) (⟨2, 1, [[(1, 10), (3, 30)]]⟩ : HashMap Nat Nat) ∧
    erase (fun k => k) (⟨2, 1, [[(1, 10), (3, 30)]]⟩ : HashMap Nat Nat) 1
      = .ok (true, ⟨1, 1, [[(3, 30)]]⟩) :=
  ⟨structural_of_check _ _ (by decide), rfl⟩

/-! ## C24: the upper bound of the load factor -/

/-- C24: for every table obtained from the default constructor or from the
constructor from two vectors of the same length by a finite sequence of
`insert`, `erase`, `clear` and `operator[]` calls, no call fails and after
every call `4 * size() ≤ 3 * capacity()`, that is `size / capacity ≤ 0.75` as
exact fractions. -/
theorem loadFactor_at_most_high [Inhabited V] (hash : K → Nat) (s : Start K V)
    (h : s.accepted) (cs : List (Call K V)) :
    ∃ m0 m, s.build hash = .ok m0 ∧ calls hash cs m0 = .ok m ∧
      4 * m.size ≤ 3 * m.capacity ∧ (m.size : ℚ) / (m.capacity : ℚ) ≤ 3 / 4 := by
  obtain ⟨m0, m, h1, h2, h3⟩ := run_settled hash s h cs
  exact ⟨m0, m, h1, h2, h3.2, loadFactorAtMostHigh_of_settled h3⟩

/-- C24, witness: twelve keys from the constructor and a thirteenth insert,
which doubles the capacity, followed by an erase and an `operator[]`. -/
theorem loadFactor_at_most_high_witness :
    (Start.vectors (List.range 12) (List.range 12) : Start Nat Nat).accepted ∧
    ∃ m0 m, (Start.vectors (List.range 12) (List.range 12) : Start Nat Nat).build (fun k => k)
        = .ok m0 ∧
      calls (fun k => k) [Call.insert 12 12, Call.erase 3, Call.subscript 40] m0 = .ok m ∧
      4 * m.size ≤ 3 * m.capacity ∧ (m.size : ℚ) / (m.capacity : ℚ) ≤ 3 / 4 :=
  ⟨rfl, loadFactor_at_most_high (fun k => k) (Start.vectors (List.range 12) (List.range 12))
    rfl [Call.insert 12 12, Call.erase 3, Call.subscript 40]⟩

/-! ## C25: the resize keeps the content -/

/-- C25: on a table with the structural invariants, `_changeSize(n)` for a
power of two `n` gives a table of capacity `n` with the same size and the
same pairs up to their order, every pair in the cell
`hash(key) & (n - 1)`; `containsKey` and `at` answer for every key as
before, and the structural invariants hold again. -/
theorem changeSize_keeps_content (hash : K → Nat) (m : HashMap K V)
    (hs : Structural hash m) (k : Nat) :
    ∃ m1, _changeSize hash m (2 ^ k) = .ok m1 ∧ m1.capacity = 2 ^ k ∧ m1.size = m.size ∧
      m1._listArr.flatten.Perm m._listArr.flatten ∧
      (∀ (i : Nat) (b : List (K × V)), m1._listArr[i]? = some b → ∀ p ∈ b,
        (i : Int) = Int.land (hash p.1) ((2 : Int) ^ k - 1)) ∧
      (∀ key, containsKey hash m1 key = containsKey hash m key ∧
        at_ hash m1 key = at_ hash m key) ∧
      Structural hash m1 := by
  have hn : ((2 : Int) ^ k) = (((2 ^ k : Nat)) : Int) := by push_cast; rfl
  obtain ⟨m1, e1, e2, e3, e4, e5, e6⟩ :=
    changeSize_spec hash m hs.cellsEqCapacity (2 ^ k) Nat.one_le_two_pow
  have hs1 : Structural hash m1 := by
    refine ⟨⟨k, by rw [e2]; exact hn.symm⟩, ?_, ?_, e6, ?_⟩
    · unfold CellsEqCapacity; rw [e4, e2]
    · unfold SizeEqCount; rw [e3, e5.length_eq]; exact hs.sizeEqCount
    · unfold UniqueKeys; rw [(e5.map Prod.fst).nodup_iff]; exact hs.uniqueKeys
  refine ⟨m1, by rw [hn]; exact e1, by unfold capacity; rw [e2, hn], e3, e5, ?_, ?_, hs1⟩
  · intro i b hb p hp
    have := e6 i b hb p hp
    unfold _hashCode maskHash capacity at this
    rw [e2, ← hn] at this
    exact this.symm
  · intro key
    apply queries_congr hs hs1
    apply lookup_congr hs.uniqueKeys hs1.uniqueKeys
    intro v
    exact e5.mem_iff

/-- C25, witness: a table of capacity 4 with three pairs resized to
capacity 8. -/
theorem changeSize_keeps_content_witness :
    _changeSize (fun k => k) (⟨3, 4, [[], [(1, 10), (5, 50)], [(2, 20)], []]⟩ : HashMap Nat Nat)
      8 = .ok ⟨3, 8, [[], [(1, 10)], [(2, 20)], [], [], [(5, 50)], [], []]⟩ ∧
    ∃ m1, _changeSize (fun k => k)
        (⟨3, 4, [[], [(1, 10), (5, 50)], [(2, 20)], []]⟩ : HashMap Nat Nat) (2 ^ 3) = .ok m1 ∧
      m1.capacity = 2 ^ 3 ∧
      m1.size = (⟨3, 4, [[], [(1, 10), (5, 50)], [(2, 20)], []]⟩ : HashMap Nat Nat).size ∧
      m1._listArr.flatten.Perm
        (⟨3, 4, [[], [(1, 10), (5, 50)], [(2, 20)], []]⟩ : HashMap Nat Nat)._listArr.flatten ∧
      (∀ (i : Nat) (b : List (Nat × Nat)), m1._listArr[i]? = some b → ∀ p ∈ b,
        (i : Int) = Int.land ((fun k => k) p.1) ((2 : Int) ^ 3 - 1)) ∧
      (∀ key, containsKey (fun k => k) m1 key = containsKey (fun k => k)
          (⟨3, 4, [[], [(1, 10), (5, 50)], [(2, 20)], []]⟩ : HashMap Nat Nat) key ∧
        at_ (fun k => k) m1 key = at_ (fun k => k)
          (⟨3, 4, [[], [(1, 10), (5, 50)], [(2, 20)], []]⟩ : HashMap Nat Nat) key) ∧
      Structural (fun k => k) m1 :=
  ⟨rfl, changeSize_keeps_content (fun k => k)
    (⟨3, 4, [[], [(1, 10), (5, 50)], [(2, 20)], []]⟩ : HashMap Nat Nat)
    (structural_of_check _ _ (by decide)) 3⟩

/-! ## C23: the traversal -/

theorem traverseLoop_spec (m : HashMap K V) (c : Nat) (hcap : m._capacity = (c : Int))
    (hc : 1 ≤ c) (hlen : m._listArr.length = c) (fuel : Nat) :
    ∀ (it : const_iterator), (it.OnPair m ∨ m.end_ = .ok it) → (it.rest m).length < fuel →
    traverseLoop m fuel it = .ok (it.rest m, (it.rest m).length) := by
  obtain ⟨e, e1, e2, e3, e4⟩ := end_spec m c hcap hc hlen
  induction fuel with
  | zero => intro it _ h; omega
  | succ fuel ih =>
    intro it hit hfuel
    rcases hit with hon | hend
    · have he1 : e._index.toNat < m._listArr.length → 0 ≤ e._index →
          e._iterator = (m._listArr.getD e._index.toNat []).length := by
        intro _ _
        rw [e3, e2]
        rfl
      obtain ⟨hneq, p, hderef, hrest⟩ := onPair_spec m it e hon he1
      obtain ⟨it1, i1, i2, i3⟩ := incr_spec m c hcap hc hlen it hon
      have hlt : (it1.rest m).length < fuel := by
        rw [i2]
        rw [hrest] at hfuel
        simp only [List.length_cons] at hfuel
        omega
      simp only [traverseLoop, e1, hneq, hderef, i1, ih it1 i3 hlt]
      rw [hrest, i2]
      rfl
    · rw [e1] at hend
      simp only [Except.ok.injEq] at hend
      subst hend
      have heq : e.eq e = true := by simp [const_iterator.eq]
      simp only [traverseLoop, e1, heq, if_true, e4]
      rfl

/-- C23: on a table with the structural invariants, the traversal from
`begin()` by `operator++` until the iterator equals `end()` ends, for every
bound of rounds above `size()`, after exactly `size()` advances, and it
dereferences exactly the pairs of the cell 0, then of the cell 1, and so on
to the last cell, each chain in its order and every pair once; and `begin()`
equals `end()` exactly when the table is empty. -/
theorem traversal_complete (hash : K → Nat) (m : HashMap K V) (hs : Structural hash m)
    (fuel : Nat) (hfuel : m.size < (fuel : Int)) :
    ∃ (it e : const_iterator) (advances : Nat),
      m.begin = .ok it ∧ m.end_ = .ok e ∧
      traverseLoop m fuel it = .ok (m._listArr.flatten, advances) ∧
      (advances : Int) = m.size ∧
      (it.eq e = true ↔ m.empty = true) := by
  obtain ⟨c, hcap, hc, hlen⟩ := structural_shape hs
  obtain ⟨e, e1, e2, e3, e4⟩ := end_spec m c hcap hc hlen
  obtain ⟨it, b1, b2, b3⟩ := begin_spec m c hcap hc hlen hs.sizeEqCount
  have hsize := hs.sizeEqCount
  unfold SizeEqCount at hsize
  unfold size at hfuel
  have hloop := traverseLoop_spec m c hcap hc hlen fuel it b2 (by rw [b3]; omega)
  rw [b3] at hloop
  refine ⟨it, e, m.entries.length, b1, e1, hloop, by unfold size; omega, ?_⟩
  rcases b2 with hon | hend
  · have he1 : e._index.toNat < m._listArr.length → 0 ≤ e._index →
        e._iterator = (m._listArr.getD e._index.toNat []).length := by
      intro _ _
      rw [e3, e2]
      rfl
    obtain ⟨hneq, p, -, hrest⟩ := onPair_spec m it e hon he1
    rw [hneq]
    have hne : m._size ≠ 0 := by
      rw [b3] at hrest
      rw [hsize, hrest]
      simp only [List.length_cons]
      omega
    simp [empty, DEFAULT_SIZE, hne]
  · rw [e1] at hend
    simp only [Except.ok.injEq] at hend
    subst hend
    have heq : e.eq e = true := by simp [const_iterator.eq]
    have h0 : m._size = 0 := by
      rw [hsize, ← b3, e4]; rfl
    simp [heq, empty, DEFAULT_SIZE, h0]

/-- C23, witness: a table of capacity 4 whose cells 1 and 2 hold three pairs
between empty cells. -/
theorem traversal_complete_witness :
    traverseLoop (⟨3, 4, [[], [(1, 10), (5, 50)], [(2, 20)], []]⟩ : HashMap Nat Nat) 4
      ⟨0, 2, 1⟩ = .ok ([(1, 10), (5, 50), (2, 20)], 3) ∧
    ∃ (it e : const_iterator) (advances : Nat),
      (⟨3, 4, [[], [(1, 10), (5, 50)], [(2, 20)], []]⟩ : HashMap Nat Nat).begin = .ok it ∧
      (⟨3, 4, [[], [(1, 10), (5, 50)], [(2, 20)], []]⟩ : HashMap Nat Nat).end_ = .ok e ∧
      traverseLoop (⟨3, 4, [[], [(1, 10), (5, 50)], [(2, 20)], []]⟩ : HashMap Nat Nat) 4 it
        = .ok ((⟨3, 4, [[], [(1, 10), (5, 50)], [(2, 20)], []]⟩ :
            HashMap Nat Nat)._listArr.flatten, advances) ∧
      (advances : Int)
        = (⟨3, 4, [[], [(1, 10), (5, 50)], [(2, 20)], []]⟩ : HashMap Nat Nat).size ∧
      (it.eq e = true ↔
        (⟨3, 4, [[], [(1, 10), (5, 50)], [(2, 20)], []]⟩ : HashMap Nat Nat).empty = true) :=
  ⟨rfl, traversal_complete (fun k => k)
    (⟨3, 4, [[], [(1, 10), (5, 50)], [(2, 20)], []]⟩ : HashMap Nat Nat)
    (structural_of_check _ _ (by decide)) 4 (by decide)⟩

/-! ## C26: the total score of an email -/

theorem toInt32_of_range (x : Int) (h1 : -2147483648 ≤ x) (h2 : x < 2147483648) :
    toInt32 x = x := by
  unfold toInt32
  omega

theorem toInt32_idem (x : Int) : toInt32 (toInt32 x) = toInt32 x := by
  unfold toInt32
  omega

theorem toInt32_add_toInt32 (a b : Int) : toInt32 (a + toInt32 b) = toInt32 (a + b) := by
  unfold toInt32
  omega

theorem toInt32_add_congr (a s t : Int) (h : toInt32 s = toInt32 t) :
    toInt32 (a + s) = toInt32 (a + t) := by
  unfold toInt32 at h ⊢
  omega

/-- Reducing every summand to an `int` does not change the `int` that is left
of a sum. -/
theorem toInt32_sum_map {α : Type} (f : α → Int) (l : List α) :
    toInt32 ((l.map (fun p => toInt32 (f p))).sum) = toInt32 ((l.map f).sum) := by
  induction l with
  | nil => rfl
  | cons p l ih =>
    rw [List.map_cons, List.sum_cons, List.map_cons, List.sum_cons, add_comm (toInt32 (f p)),
      toInt32_add_toInt32, add_comm _ (f p)]
    exact toInt32_add_congr _ _ _ ih

theorem toInt32_length (s : CppString) (h : s.length < 2147483648) :
    toInt32 (s.length : Int) = (s.length : Int) :=
  toInt32_of_range _ (by omega) (by omega)

theorem toSizeT_length (s : CppString) (h : s.length < 2147483648) :
    toSizeT (s.length : Int) = s.length := by
  unfold toSizeT
  omega

/-- On a string that is shorter than `2 ^ 31` chars the folding loop reaches
every char. -/
theorem foldString_of_short (s : CppString) (h : s.length < 2147483648) :
    foldString s = s.map foldChar := by
  unfold foldString
  rw [toInt32_length s h, Int.toNat_ofNat, List.take_length, List.drop_length, List.append_nil]

theorem countLoop_eq (strValue : CppString) (strLength : Int) (stringEmail : CppString)
    (is : List Nat) : ∀ (count : Int), 0 ≤ count → count + (is.length : Int) < 2147483648 →
    countLoop strValue strLength stringEmail is count =
      count + ((is.filter (fun i =>
        decide (foldString (substr stringEmail i (toSizeT strLength)) = strValue))).length
          : Int) := by
  induction is with
  | nil => intro count _ _; simp [countLoop]
  | cons i is ih =>
    intro count h0 hlt
    simp only [List.length_cons] at hlt
    push_cast at hlt
    by_cases h : foldString (substr stringEmail i (toSizeT strLength)) = strValue
    · simp only [countLoop, h, if_true, decide_True, List.filter_cons_of_pos,
        List.length_cons]
      rw [toInt32_of_range (count + 1) (by omega) (by omega), ih (count + 1) (by omega) (by omega)]
      push_cast
      ring
    · simp only [countLoop, h, if_false, decide_False, Bool.false_eq_true,
        not_false_eq_true, List.filter_cons_of_neg]
      exact ih count h0 (by omega)

/-- The score of one pair, for a sentence and an email shorter than `2 ^ 31`
chars: the `int` product of the score and the number of occurrences. -/
theorem scoreOfStr_eq (p : CppString × Int) (stringEmail : CppString)
    (hp : p.1.length < 2147483648) (he : stringEmail.length < 2147483648) :
    scoreOfStr p stringEmail = toInt32 (p.2 * foldedOccurrences p.1 stringEmail) := by
  have hlen : (foldString p.1).length = p.1.length := by
    rw [foldString_of_short p.1 hp, List.length_map]
  unfold scoreOfStr foldedOccurrences
  simp only
  rw [toInt32_length stringEmail he]
  rw [Int.toNat_ofNat]
  have hcount := countLoop_eq (foldString p.1) ((foldString p.1).length : Int) stringEmail
    (List.range stringEmail.length) 0 (le_refl 0) (by rw [List.length_range]; omega)
  rw [toInt32_length (foldString p.1) (by omega)]
  rw [hcount]
  rw [zero_add, mul_comm, hlen, toSizeT_length p.1 hp, foldString_of_short p.1 hp]
  have hfun : (fun i => decide (foldString (substr stringEmail i p.1.length)
        = p.1.map foldChar))
      = (fun i => decide (((stringEmail.drop i).take p.1.length).map foldChar
        = p.1.map foldChar)) := by
    funext i
    have hsub : (substr stringEmail i p.1.length).length < 2147483648 := by
      unfold substr
      rw [List.length_take, List.length_drop]
      omega
    rw [foldString_of_short _ hsub]
    rfl
  rw [hfun]

theorem findStringsLoop_spec (m : HashMap CppString Int) (stringEmail : CppString)
    (c : Nat) (hcap : m._capacity = (c : Int)) (hc : 1 ≤ c) (hlen : m._listArr.length = c)
    (fuel : Nat) :
    ∀ (it : const_iterator) (total : Int), (it.OnPair m ∨ m.end_ = .ok it) →
      (it.rest m).length < fuel → toInt32 total = total →
      findStringsLoop m stringEmail fuel it total =
        .ok (toInt32 (total + ((it.rest m).map (fun p => scoreOfStr p stringEmail)).sum)) := by
  obtain ⟨e, e1, e2, e3, e4⟩ := end_spec m c hcap hc hlen
  induction fuel with
  | zero => intro it _ _ h; omega
  | succ fuel ih =>
    intro it total hit hfuel htotal
    rcases hit with hon | hend
    · have he1 : e._index.toNat < m._listArr.length → 0 ≤ e._index →
          e._iterator = (m._listArr.getD e._index.toNat []).length := by
        intro _ _
        rw [e3, e2]
        rfl
      obtain ⟨hneq, p, hderef, hrest⟩ := onPair_spec m it e hon he1
      obtain ⟨it1, i1, i2, i3⟩ := incr_spec m c hcap hc hlen it hon
      have hlt : (it1.rest m).length < fuel := by
        rw [i2]
        rw [hrest] at hfuel
        simp only [List.length_cons] at hfuel
        omega
      simp only [findStringsLoop, e1, hneq, hderef, i1, ih it1 _ i3 hlt (toInt32_idem _)]
      rw [hrest, i2, List.map_cons, List.sum_cons, add_comm (toInt32 _), toInt32_add_toInt32,
        add_comm, add_assoc]
      rfl
    · rw [e1] at hend
      simp only [Except.ok.injEq] at hend
      subst hend
      have heq : e.eq e = true := by simp [const_iterator.eq]
      simp only [findStringsLoop, e1, heq, if_true, e4]
      simp [htotal]

/-- What `findStringsInEmail` computes on a map with the structural
invariants whose sentences, like the email, are shorter than `2 ^ 31` chars:
the sum over the stored pairs of the score times the number of start positions
at which the sentence occurs under the case folding of the code, which shifts
the chars with the codes 65 to 92, reduced to an `int`. -/
theorem findStringsInEmail_eq (hash : CppString → Nat) (m : HashMap CppString Int)
    (hs : Structural hash m) (stringEmail : CppString)
    (hshort : ∀ p ∈ m._listArr.flatten, p.1.length < 2147483648)
    (he : stringEmail.length < 2147483648) :
    findStringsInEmail m stringEmail =
      .ok (toInt32
        ((m._listArr.flatten.map (fun p => p.2 * foldedOccurrences p.1 stringEmail)).sum)) := by
  obtain ⟨c, hcap, hc, hlen⟩ := structural_shape hs
  obtain ⟨it, b1, b2, b3⟩ := begin_spec m c hcap hc hlen hs.sizeEqCount
  have hloop := findStringsLoop_spec m stringEmail c hcap hc hlen
    (m._listArr.flatten.length + 1) it 0 b2 (by rw [b3]; unfold entries; omega) rfl
  rw [b3] at hloop
  have hmap : m.entries.map (fun p => scoreOfStr p stringEmail)
      = m._listArr.flatten.map
          (fun p => toInt32 (p.2 * foldedOccurrences p.1 stringEmail)) := by
    unfold entries
    apply List.map_congr_left
    intro p hp
    exact scoreOfStr_eq p stringEmail (hshort p hp) he
  simp only [findStringsInEmail, b1, hloop, zero_add]
  rw [hmap, toInt32_sum_map]

theorem foldChar_eq_specFoldChar (c : Int) (h1 : c ≠ 91) (h2 : c ≠ 92) :
    foldChar c = specFoldChar c := by
  unfold foldChar specFoldChar
  by_cases h : 65 ≤ c ∧ c ≤ 90
  · rw [if_pos h, if_pos ⟨h.1, by omega⟩]
  · rw [if_neg h, if_neg (by omega)]

/-- Apart from the chars `[` and `\` (codes 91 and 92) the case folding of
the code is the one of the specification: on a map with the structural
invariants whose sentences, like the email, hold neither of the two chars and
are shorter than `2 ^ 31` chars, `findStringsInEmail` returns the total score
of the specification reduced to an `int`, which is the total score itself
when that lies in the range of `int`. -/
theorem findStringsInEmail_without_brackets (hash : CppString → Nat)
    (m : HashMap CppString Int) (hs : Structural hash m) (stringEmail : CppString)
    (hshort : ∀ p ∈ m._listArr.flatten, p.1.length < 2147483648)
    (he : stringEmail.length < 2147483648)
    (hkeys : ∀ p ∈ m._listArr.flatten, ∀ c ∈ p.1, c ≠ 91 ∧ c ≠ 92)
    (hemail : ∀ c ∈ stringEmail, c ≠ 91 ∧ c ≠ 92) :
    findStringsInEmail m stringEmail
      = .ok (toInt32 (specTotalScore m._listArr.flatten stringEmail)) ∧
    (-2147483648 ≤ specTotalScore m._listArr.flatten stringEmail →
      specTotalScore m._listArr.flatten stringEmail < 2147483648 →
      findStringsInEmail m stringEmail
        = .ok (specTotalScore m._listArr.flatten stringEmail)) := by
  have hmain : findStringsInEmail m stringEmail
      = .ok (toInt32 (specTotalScore m._listArr.flatten stringEmail)) := by
    rw [findStringsInEmail_eq hash m hs stringEmail hshort he]
    unfold specTotalScore
    congr 3
    apply List.map_congr_left
    intro p hp
    have hmap : ∀ s : CppString, (∀ c ∈ s, c ≠ 91 ∧ c ≠ 92) →
        s.map foldChar = s.map specFoldChar := by
      intro s hsx
      apply List.map_congr_left
      intro c hc
      exact foldChar_eq_specFoldChar c (hsx c hc).1 (hsx c hc).2
    unfold foldedOccurrences specOccurrences
    rw [hmap p.1 (hkeys p hp)]
    have hfun : (fun i => decide (((stringEmail.drop i).take p.1.length).map foldChar
          = p.1.map specFoldChar))
        = (fun i => decide (((stringEmail.drop i).take p.1.length).map specFoldChar
          = p.1.map specFoldChar)) := by
      funext i
      rw [hmap _ (fun c hc => hemail c (List.mem_of_mem_drop (List.mem_of_mem_take hc)))]
    rw [hfun]
  refine ⟨hmain, ?_⟩
  intro h1 h2
  rw [hmain, toInt32_of_range _ h1 h2]

/-- The `int` arithmetic of `findStringsInEmail` at work: for the map that
holds the sentence `a` with the score `2 ^ 30` and the email `aaaa`, the exact
total is `2 ^ 32`, and the product `4 * 2 ^ 30` leaves the `int` 0. -/
theorem findStringsInEmail_wraps :
    findStringsInEmail
      (⟨1, 16, [] :: [([97], 1073741824)] :: List.replicate 14 []⟩ : HashMap CppString Int)
      [97, 97, 97, 97] = .ok 0 ∧
    specTotalScore
      (⟨1, 16, [] :: [([97], 1073741824)] :: List.replicate 14 []⟩ :
        HashMap CppString Int)._listArr.flatten [97, 97, 97, 97] = 4294967296 :=
  ⟨rfl, by decide⟩

/-- C26, the failing input: the map is a default table after
`insert("[", 1)` and the email is the string of the one char `{`.  The
sentence `[` does not occur in the email, so the total score of the
specification is 0; `findStringsInEmail` returns 1, because its case folding
shifts every char with a code from 65 to 92, not only the letters `'A'..'Z'`
(65 to 90), and so turns `[` (91) into `{` (123). -/
theorem findStringsInEmail_folds_bracket :
    updates (fun s : CppString => s.length) [Update.insert [91] 1] ctor
      = .ok ⟨1, 16, [] :: [([91], 1)] :: List.replicate 14 []⟩ ∧
    Structural (fun s : CppString => s.length)
      (⟨1, 16, [] :: [([91], 1)] :: List.replicate 14 []⟩ : HashMap CppString Int) ∧
    findStringsInEmail
      (⟨1, 16, [] :: [([91], 1)] :: List.replicate 14 []⟩ : HashMap CppString Int) [123]
      = .ok 1 ∧
    specTotalScore
      (⟨1, 16, [] :: [([91], 1)] :: List.replicate 14 []⟩ :
        HashMap CppString Int)._listArr.flatten [123] = 0 ∧
    foldChar 91 = 123 ∧ specFoldChar 91 = 91 :=
  ⟨rfl, structural_of_check _ _ (by decide), rfl, by decide, by decide, by decide⟩

/-! ## C22: inserts followed by erases -/

theorem insertAll_fresh (hash : K → Nat) (ps : List (K × V)) :
    ∀ (m : HashMap K V), Settled hash m → (ps.map Prod.fst).Nodup →
    (∀ p ∈ ps, m.lookup p.1 = none) →
    ∃ m1, insertAll hash ps m = .ok (List.replicate ps.length true, m1) ∧
      updates hash (insertCalls ps) m = .ok m1 := by
  induction ps with
  | nil => intro m _ _ _; exact ⟨m, rfl, rfl⟩
  | cons p ps ih =>
    intro m hs hnd hfresh
    obtain ⟨k, v⟩ := p
    rw [List.map_cons, List.nodup_cons] at hnd
    have hn : m.lookup k = none := hfresh (k, v) (List.mem_cons_self _ _)
    obtain ⟨m1, i1, -, -, -, i5⟩ := insert_absent_lookup hash m hs.1 k v hn
    obtain ⟨b, m2, j1, j2⟩ := insert_settled hash m hs k v
    rw [i1] at j1
    simp only [Except.ok.injEq, Prod.mk.injEq] at j1
    rw [← j1.2] at j2
    have hfresh1 : ∀ p ∈ ps, m1.lookup p.1 = none := by
      intro p hp
      have hpk : p.1 ≠ k := by
        intro h
        have hmem : p.1 ∈ ps.map Prod.fst := List.mem_map_of_mem _ hp
        rw [h] at hmem
        exact hnd.1 hmem
      rw [i5 p.1, if_neg hpk]
      exact hfresh p (List.mem_cons_of_mem _ hp)
    obtain ⟨m3, u1, u2⟩ := ih m1 j2 hnd.2 hfresh1
    refine ⟨m3, ?_, ?_⟩
    · simp only [insertAll, i1, u1, List.length_cons, List.replicate_succ]
    · simp only [insertCalls, List.map_cons, updates, update, i1]
      exact u2

/-- Erases of all stored keys, in any order: every erase returns true, the
table ends without pairs, and the capacity never grows. -/
theorem eraseAll_stored (hash : K → Nat) (ks : List K) :
    ∀ (m : HashMap K V), Settled hash m → ks.Nodup →
    (∀ x, (∃ v, m.lookup x = some v) ↔ x ∈ ks) →
    ∃ m2, eraseAll hash ks m = .ok (List.replicate ks.length true, m2) ∧
      Settled hash m2 ∧ m2.entries = [] ∧ m2._capacity ≤ m._capacity := by
  induction ks with
  | nil =>
    intro m hs _ hkeys
    refine ⟨m, rfl, hs, ?_, le_refl _⟩
    cases hent : m.entries with
    | nil => rfl
    | cons p rest =>
      exfalso
      have hmem : p.1 ∈ m.entries.map Prod.fst := by
        rw [hent]; simp
      cases hl : m.lookup p.1 with
      | none => exact (lookup_eq_none_iff m p.1).1 hl hmem
      | some v => exact absurd ((hkeys p.1).1 ⟨v, hl⟩) (by simp)
  | cons k ks ih =>
    intro m hs hnd hkeys
    rw [List.nodup_cons] at hnd
    obtain ⟨v, hv⟩ := (hkeys k).2 (List.mem_cons_self _ _)
    have hpos := capacity_pos hs.1
    obtain ⟨m1, e1, e2, e3, e4, e5⟩ := erase_present hash m hs.1 k v hv (by
      have := hs.2
      omega)
    obtain ⟨b, m1', f1, f2⟩ := erase_settled hash m hs k
    rw [e1] at f1
    simp only [Except.ok.injEq, Prod.mk.injEq] at f1
    rw [← f1.2] at f2
    have hnd1 := (e3.map Prod.fst).nodup_iff.1 hs.1.uniqueKeys
    simp only [List.map_cons, List.nodup_cons] at hnd1
    have hkeys1 : ∀ x, (∃ w, m1.lookup x = some w) ↔ x ∈ ks := by
      intro x
      by_cases hx : x = k
      · subst hx
        constructor
        · rintro ⟨w, hw⟩
          exfalso
          apply hnd1.1
          have := (lookup_eq_some_iff e2.uniqueKeys x w).1 hw
          exact List.mem_map.2 ⟨(x, w), this, rfl⟩
        · intro hmem; exact absurd hmem hnd.1
      · have hiff : ∀ w, m1.lookup x = some w ↔ m.lookup x = some w := by
          intro w
          rw [lookup_eq_some_iff e2.uniqueKeys, lookup_eq_some_iff hs.1.uniqueKeys, e3.mem_iff]
          simp only [List.mem_cons, Prod.mk.injEq]
          constructor
          · intro h; exact Or.inr h
          · rintro (h | h)
            · exact absurd h.1 hx
            · exact h
        constructor
        · rintro ⟨w, hw⟩
          have := (hkeys x).1 ⟨w, (hiff w).1 hw⟩
          simp only [List.mem_cons] at this
          rcases this with h | h
          · exact absurd h hx
          · exact h
        · intro hmem
          obtain ⟨w, hw⟩ := (hkeys x).2 (List.mem_cons_of_mem _ hmem)
          exact ⟨w, (hiff w).2 hw⟩
    obtain ⟨m2, g1, g2, g3, g4⟩ := ih m1 f2 hnd.2 hkeys1
    refine ⟨m2, ?_, g2, g3, ?_⟩
    · simp only [eraseAll, e1, g1, List.length_cons, List.replicate_succ]
    · have : m1._capacity ≤ m._capacity := by
        rw [e5]
        split
        · omega
        · exact le_refl _
      omega

/-- C22: for every list of pairs with distinct keys and every order of its
keys, the inserts of all pairs into a default table return true, the erases
of all keys in the given order return true, and the table ends with size 0,
every chain empty, `containsKey` false for every key, and a capacity that is
not above the capacity after the inserts. -/
theorem insert_erase_round_trip (hash : K → Nat) (ps : List (K × V)) (order : List K)
    (hnd : (ps.map Prod.fst).Nodup) (hperm : order.Perm (ps.map Prod.fst)) :
    ∃ m1 m2, insertAll hash ps ctor = .ok (List.replicate ps.length true, m1) ∧
      eraseAll hash order m1 = .ok (List.replicate ps.length true, m2) ∧
      m2.size = 0 ∧ (∀ b ∈ m2._listArr, b = []) ∧
      (∀ k, containsKey hash m2 k = .ok false) ∧ m2.capacity ≤ m1.capacity := by
  obtain ⟨m1, a1, a2⟩ := insertAll_fresh hash ps ctor (settled_ctor hash) hnd
    (fun p _ => lookup_ctor p.1)
  obtain ⟨m1', b1, -, b3, b4, -⟩ := inserts_fresh hash ps ctor (settled_ctor hash) hnd
    (fun p _ => lookup_ctor p.1)
  rw [a2] at b1
  simp only [Except.ok.injEq] at b1
  subst b1
  have hkeys : ∀ x, (∃ v, m1.lookup x = some v) ↔ x ∈ order := by
    intro x
    rw [hperm.mem_iff, b4 x, lookup_ctor]
    have hnone := lastValue_eq_none_iff x ps
    cases hl : lastValue x ps with
    | none =>
      have hnot : x ∉ ps.map Prod.fst := hnone.1 hl
      constructor
      · rintro ⟨v, hv⟩; simp at hv
      · intro h; exact absurd h hnot
    | some w =>
      have hmem : x ∈ ps.map Prod.fst := by
        by_contra h
        have := hnone.2 h
        rw [hl] at this
        cases this
      constructor
      · intro _; exact hmem
      · intro _; exact ⟨w, by simp⟩
  have hlen : order.length = ps.length := by
    rw [hperm.length_eq, List.length_map]
  obtain ⟨m2, c1, c2, c3, c4⟩ := eraseAll_stored hash order m1 b3
    (hperm.nodup_iff.2 hnd) hkeys
  rw [hlen] at c1
  refine ⟨m1, m2, a1, c1, ?_, ?_, ?_, c4⟩
  · have := c2.1.sizeEqCount
    unfold SizeEqCount at this
    unfold size
    rw [this, c3]; rfl
  · unfold entries at c3
    exact List.flatten_eq_nil_iff.1 c3
  · intro k
    rw [containsKey_eq c2.1.capacityPow2 c2.1.cellsEqCapacity c2.1.placed]
    unfold lookup
    rw [c3]
    rfl

/-- C22, witness: three pairs inserted and their keys erased in another
order. -/
theorem insert_erase_round_trip_witness :
    (([(1, 10), (17, 20), (3, 30)] : List (Nat × Nat)).map Prod.fst).Nodup ∧
    ([3, 1, 17] : List Nat).Perm (([(1, 10), (17, 20), (3, 30)] : List (Nat × Nat)).map Prod.fst) ∧
    ∃ m1 m2 : HashMap Nat Nat,
      insertAll (fun k => k) [(1, 10), (17, 20), (3, 30)] ctor
        = .ok (List.replicate 3 true, m1) ∧
      eraseAll (fun k => k) [3, 1, 17] m1 = .ok (List.replicate 3 true, m2) ∧
      m2.size = 0 ∧ (∀ b ∈ m2._listArr, b = []) ∧
      (∀ k, containsKey (fun k => k) m2 k = .ok false) ∧ m2.capacity ≤ m1.capacity :=
  ⟨by decide, by decide,
    insert_erase_round_trip (fun k => k) [(1, 10), (17, 20), (3, 30)] [3, 1, 17]
      (by decide) (by decide)⟩

/-! ## C27: symmetry of equality -/

/-- One direction of the symmetry: when `a == b` compares all values of `a` as
equal, the sizes agree, and `b` stores every key for which `a` stores the
default value, then the two tables store the same pairs. -/
theorem entries_perm_of_values_agree [Inhabited V] (hash : K → Nat) (a b : HashMap K V)
    (ha : Structural hash a) (hb : Structural hash b) (hsize : a._size = b._size)
    (hshared : DefaultsShared a b)
    (hall : ∀ p ∈ a.entries, a.valueOrDefault p.1 = b.valueOrDefault p.1) :
    a.entries.Perm b.entries := by
  have hsub : a.entries ⊆ b.entries := by
    intro p hp
    have hla : a.lookup p.1 = some p.2 := (lookup_eq_some_iff ha.uniqueKeys p.1 p.2).2 hp
    have hval := hall p hp
    unfold valueOrDefault at hval
    rw [hla] at hval
    simp only [Option.getD_some] at hval
    have hlb : b.lookup p.1 = some p.2 := by
      cases hl : b.lookup p.1 with
      | none =>
        rw [hl] at hval
        simp only [Option.getD_none] at hval
        rw [hval] at hla
        obtain ⟨w, hw⟩ := hshared p.1 hla
        rw [hl] at hw; cases hw
      | some w =>
        rw [hl] at hval
        simp only [Option.getD_some] at hval
        rw [hval]
    exact (lookup_eq_some_iff hb.uniqueKeys p.1 p.2).1 hlb
  have hnd : a.entries.Nodup := List.Nodup.of_map Prod.fst ha.uniqueKeys
  have hlen : b.entries.length ≤ a.entries.length := by
    have h1 := ha.sizeEqCount
    have h2 := hb.sizeEqCount
    unfold SizeEqCount at h1 h2
    omega
  exact (List.subperm_of_subset hnd hsub).perm_of_length_le hlen

theorem values_agree_of_perm [Inhabited V] (hash : K → Nat) (a b : HashMap K V)
    (ha : Structural hash a) (hb : Structural hash b) (hperm : a.entries.Perm b.entries) :
    ∀ p ∈ b.entries, b.valueOrDefault p.1 = a.valueOrDefault p.1 := by
  intro p hp
  have hlb : b.lookup p.1 = some p.2 := (lookup_eq_some_iff hb.uniqueKeys p.1 p.2).2 hp
  have hla : a.lookup p.1 = some p.2 :=
    (lookup_eq_some_iff ha.uniqueKeys p.1 p.2).2 (hperm.mem_iff.2 hp)
  unfold valueOrDefault
  rw [hla, hlb]

/-- C27, counterexample: the table built from the keys `[1, 3]` with the
values `[10, 0]` stores the default value 0 for the key 3, the table built
from the keys `[4, 1]` with the values `[5, 10]` does not store the key 3.
The first equals the second under `operator==`, the second does not equal the
first. -/
theorem operatorEq_not_symmetric :
    ctorVectors (fun k => k) [1, 3] [10, 0]
      = .ok (⟨2, 16, [] :: [(1, 10)] :: [] :: [(3, 0)] :: List.replicate 12 []⟩ :
        HashMap Nat Nat) ∧
    ctorVectors (fun k => k) [4, 1] [5, 10]
      = .ok (⟨2, 16, [] :: [(1, 10)] :: [] :: [] :: [(4, 5)] :: List.replicate 11 []⟩ :
        HashMap Nat Nat) ∧
    operatorEq (fun k => k)
      (⟨2, 16, [] :: [(1, 10)] :: [] :: [(3, 0)] :: List.replicate 12 []⟩ : HashMap Nat Nat)
      ⟨2, 16, [] :: [(1, 10)] :: [] :: [] :: [(4, 5)] :: List.replicate 11 []⟩ = .ok true ∧
    operatorEq (fun k => k)
      (⟨2, 16, [] :: [(1, 10)] :: [] :: [] :: [(4, 5)] :: List.replicate 11 []⟩ :
        HashMap Nat Nat)
      ⟨2, 16, [] :: [(1, 10)] :: [] :: [(3, 0)] :: List.replicate 12 []⟩ = .ok false :=
  ⟨rfl, rfl, rfl, rfl⟩

/-- C27, amended: for two tables with the structural invariants such that each
stores every key for which the other stores the default value, `a == b` and
`b == a` give the same result. -/
theorem operatorEq_symmetric [Inhabited V] [DecidableEq V] (hash : K → Nat)
    (a b : HashMap K V) (ha : Structural hash a) (hb : Structural hash b)
    (hab : DefaultsShared a b) (hba : DefaultsShared b a) :
    ∃ r, operatorEq hash a b = .ok r ∧ operatorEq hash b a = .ok r := by
  refine ⟨_, operatorEq_spec hash a b ha hb, ?_⟩
  rw [operatorEq_spec hash b a hb ha]
  congr 1
  rw [Bool.eq_iff_iff]
  simp only [Bool.and_eq_true, decide_eq_true_eq, List.all_eq_true]
  constructor
  · rintro ⟨h1, h2⟩
    have hperm := entries_perm_of_values_agree hash b a hb ha h1 hba h2
    exact ⟨h1.symm, values_agree_of_perm hash b a hb ha hperm⟩
  · rintro ⟨h1, h2⟩
    have hperm := entries_perm_of_values_agree hash a b ha hb h1 hab h2
    exact ⟨h1.symm, values_agree_of_perm hash a b ha hb hperm⟩

/-- C27, amended, witness: the first table stores the default value 0 for the
key 3, and the second table stores the key 3 with another value. -/
theorem operatorEq_symmetric_witness :
    DefaultsShared (⟨2, 4, [[], [(1, 10)], [], [(3, 0)]]⟩ : HashMap Nat Nat)
      ⟨2, 4, [[], [(1, 10)], [], [(3, 8)]]⟩ ∧
    DefaultsShared (⟨2, 4, [[], [(1, 10)], [], [(3, 8)]]⟩ : HashMap Nat Nat)
      ⟨2, 4, [[], [(1, 10)], [], [(3, 0)]]⟩ ∧
    ∃ r, operatorEq (fun k => k) (⟨2, 4, [[], [(1, 10)], [], [(3, 0)]]⟩ : HashMap Nat Nat)
        ⟨2, 4, [[], [(1, 10)], [], [(3, 8)]]⟩ = .ok r ∧
      operatorEq (fun k => k) (⟨2, 4, [[], [(1, 10)], [], [(3, 8)]]⟩ : HashMap Nat Nat)
        ⟨2, 4, [[], [(1, 10)], [], [(3, 0)]]⟩ = .ok r := by
  have h1 : DefaultsShared (⟨2, 4, [[], [(1, 10)], [], [(3, 0)]]⟩ : HashMap Nat Nat)
      ⟨2, 4, [[], [(1, 10)], [], [(3, 8)]]⟩ := by
    intro k hk
    have hmem := (lookup_eq_some_iff
      (structural_of_check (fun k => k) _ (by decide)).uniqueKeys k default).1 hk
    have hk3 : k = 3 := by
      simp only [entries, List.flatten_cons, List.flatten_nil, List.nil_append,
        List.append_nil, List.cons_append, List.mem_cons, Prod.mk.injEq,
        List.mem_nil_iff, or_false] at hmem
      rcases hmem with h | h
      · exact absurd h.2 (by decide)
      · exact h.1
    subst hk3
    exact ⟨8, rfl⟩
  have h2 : DefaultsShared (⟨2, 4, [[], [(1, 10)], [], [(3, 8)]]⟩ : HashMap Nat Nat)
      ⟨2, 4, [[], [(1, 10)], [], [(3, 0)]]⟩ := by
    intro k hk
    have hmem := (lookup_eq_some_iff
      (structural_of_check (fun k => k) _ (by decide)).uniqueKeys k default).1 hk
    simp only [entries, List.flatten_cons, List.flatten_nil, List.nil_append,
      List.append_nil, List.cons_append, List.mem_cons, Prod.mk.injEq,
      List.mem_nil_iff, or_false] at hmem
    rcases hmem with h | h
    · exact absurd h.2 (by decide)
    · exact absurd h.2 (by decide)
  exact ⟨h1, h2, operatorEq_symmetric (fun k => k) _ _
    (structural_of_check _ _ (by decide)) (structural_of_check _ _ (by decide)) h1 h2⟩

end HashMap

end SpamDetector
